import Mathlib

/-!
Verification of gg push: destination resolution, remote-ref verification and
Gerrit magic refs.

A shallow embedding of `cmd/gg/push.go` (`push`, `verifyRemoteRef`,
`inferPushRepo`, `isHex`) and of the decoder `parseGerritRef` of
`cmd/gg/push_test.go`.

Go strings and byte slices are sequences of bytes.  A byte is a natural number
(below 256 on every real input) and a string is a list of bytes.  Calls of the
external git tool are recorded as a list of events, in call order.
-/

namespace GG

/-! ## Strings -/

/-- A Go string or byte slice: the sequence of its bytes. -/
abbrev Str := List Nat

/-- The bytes of an ASCII literal of the source. -/
def str (s : String) : Str := s.toList.map Char.toNat

/-- Go `strings.HasPrefix`. -/
def hasPrefix (s p : Str) : Bool := p.isPrefixOf s

/-! ## The git tool, errors and the record of external calls -/

/-- The failures `push` and its helpers return, one constructor per return site. -/
inductive Err where
  /-- The error of `usagef(...)`: a usage error carrying its message. -/
  | usage (msg : Str)
  /-- The error of `gittool.ParseRev`. -/
  | parseRev (msg : Str)
  /-- The error of a `gittool.Config` read. -/
  | config (msg : Str)
  /-- The error `no destination given and no remote named "origin" found`. -/
  | noOrigin
  /-- The error `cannot infer destination (source is not a ref). Use -d to specify
  destination ref.` -/
  | cannotInfer
  /-- The error `verify remote ref %s: %v` after `git.Start` failed. -/
  | lsRemoteStart (ref msg : Str)
  /-- The error `parse git ls-remote: line must start with SHA1`. -/
  | malformedListing
  /-- The error `verify remote ref %s: %v` after the scanner reported an error. -/
  | lsRemoteRead (ref : Str)
  /-- The error `verify remote ref %s: %v` after `p.Wait` failed. -/
  | lsRemoteWait (ref msg : Str)
  /-- The error `remote %s does not have ref %s`. -/
  | missingRef (remote ref : Str)
  /-- The error of `git push` run interactively. -/
  | pushFailed (msg : Str)
  deriving DecidableEq, Repr

/-- Whether an error is a usage error (`isUsage` of the tests). -/
def Err.isUsage : Err → Bool
  | .usage _ => true
  | _ => false

/-- One call of an external collaborator. -/
inductive Event where
  /-- The call `f.Help(cc.stdout)`. -/
  | help
  /-- The call `gittool.ParseRev(ctx, cc.git, rev)`. -/
  | parseRev (rev : Str)
  /-- The call `gittool.Config(ctx, git, key)`. -/
  | config (key : Str)
  /-- The call `listRemotes(ctx, git)`. -/
  | listRemotes
  /-- The call `git.Start(ctx, "ls-remote", "--quiet", "--refs", "--", remote, ref)`. -/
  | lsRemote (remote ref : Str)
  /-- The call `cc.git.RunInteractive(ctx, "push", "--", repo, refspec)`. -/
  | gitPush (repo refspec : Str)
  deriving DecidableEq, Repr

/-- A resolved revision (`gittool.Rev`), through the three accessors `push` uses. -/
structure Rev where
  /-- The result of `src.CommitHex()`. -/
  commitHex : Str
  /-- The result of `src.RefName()`, empty when the revision is not a ref. -/
  refName : Str
  /-- The result of `src.Branch()`, empty when the revision is not a branch. -/
  branch : Str
  deriving DecidableEq, Repr

/-- What one run of `git ls-remote` delivers to `verifyRemoteRef`. -/
structure Listing where
  /-- The error of `git.Start`, if any. -/
  startErr : Option Str
  /-- The tokens `bufio.Scanner` yields, one per line, terminator removed. -/
  lines : List Str
  /-- Whether `s.Err()` is non-nil once the scanner stops. -/
  scanErr : Bool
  /-- The error of `p.Wait()`, if any. -/
  waitErr : Option Str

/-- The external git tool as `push` sees it. -/
structure Git where
  /-- The function `gittool.ParseRev`. -/
  parseRev : Str → Except Str Rev
  /-- The function `gittool.Config`: the value of a key, empty when unset, or an error. -/
  config : Str → Except Str Str
  /-- The keys of the map `listRemotes` returns (its error is discarded by the caller). -/
  remotes : List Str
  /-- The run of `git ls-remote` for a remote and a ref. -/
  lsRemote : Str → Str → Listing
  /-- The call `RunInteractive("push", "--", repo, refspec)`: its error, if any. -/
  runPush : Str → Str → Option Str

deriving instance DecidableEq for Except

/-- A result together with the external calls made to obtain it. -/
abbrev Res (α : Type) := Except Err α × List Event

/-! ## `inferPushRepo` -/

/-- The tail of `inferPushRepo` after `remote.pushDefault` was read as empty
(push.go lines 141-154). -/
def inferPushRepoTail (git : Git) (branch : Str) : Res Str :=
  let origin : Res Str :=
    if str "origin" ∈ git.remotes then (.ok (str "origin"), [.listRemotes])
    else (.error .noOrigin, [.listRemotes])
  if branch ≠ [] then
    let key := str "branch." ++ branch ++ str ".remote"
    match git.config key with
    | .error e => (.error (.config e), [.config key])
    | .ok r =>
      if r ≠ [] then (.ok r, [.config key])
      else (origin.1, .config key :: origin.2)
  else origin

/-- The part of `inferPushRepo` from the read of `remote.pushDefault` on
(push.go lines 134-154). -/
def inferPushRepoDefault (git : Git) (branch : Str) : Res Str :=
  let key := str "remote.pushDefault"
  match git.config key with
  | .error e => (.error (.config e), [.config key])
  | .ok r =>
    if r ≠ [] then (.ok r, [.config key])
    else
      let rest := inferPushRepoTail git branch
      (rest.1, .config key :: rest.2)

/-- The function `inferPushRepo` of push.go. -/
def inferPushRepo (git : Git) (branch : Str) : Res Str :=
  if branch ≠ [] then
    let key := str "branch." ++ branch ++ str ".pushRemote"
    match git.config key with
    | .error e => (.error (.config e), [.config key])
    | .ok r =>
      if r ≠ [] then (.ok r, [.config key])
      else
        let rest := inferPushRepoDefault git branch
        (rest.1, .config key :: rest.2)
  else inferPushRepoDefault git branch

/-- The precedence chain of the help text of `push`, as a list of candidate
values in order; an empty candidate stands for a tier that yields nothing. -/
def pushRepoChain (val : Str → Str) (remotes : List Str) (branch : Str) : List Str :=
  [ if branch ≠ [] then val (str "branch." ++ branch ++ str ".pushRemote") else [],
    val (str "remote.pushDefault"),
    if branch ≠ [] then val (str "branch." ++ branch ++ str ".remote") else [],
    if str "origin" ∈ remotes then str "origin" else [] ]

/-- First non-empty wins: the first non-empty candidate of a chain, if any. -/
def firstNonEmpty : List Str → Option Str
  | [] => none
  | c :: cs => if c ≠ [] then some c else firstNonEmpty cs

/-! ## `verifyRemoteRef` and `isHex` -/

/-- The function `isHex` of push.go: every byte is one of `0-9`, `a-f`, `A-F`. -/
def isHex : Str → Bool
  | [] => true
  | bb :: b =>
    if !(decide (bb ≥ 48) && decide (bb ≤ 57)) && !(decide (bb ≥ 97) && decide (bb ≤ 102))
        && !(decide (bb ≥ 65) && decide (bb ≤ 70)) then false
    else isHex b

/-- The constant `tabLoc` of `verifyRemoteRef`. -/
def tabLoc : Nat := 40

/-- The test that rejects a line in `verifyRemoteRef` (push.go line 107);
byte 9 is the tab. -/
def badLine (line : Str) : Bool :=
  decide (tabLoc ≥ line.length) || line.getD tabLoc 0 != 9 || !isHex (line.take tabLoc)

/-- The ref field of a line: `line[tabLoc+1:]`. -/
def remoteRefOf (line : Str) : Str := line.drop (tabLoc + 1)

/-- The scanning loop of `verifyRemoteRef` (push.go lines 104-114): `some` is
the value returned from inside the loop, `none` means the loop ran to the end
of the lines. -/
def scanListing (refBytes : Str) : List Str → Option (Except Err Unit)
  | [] => none
  | line :: rest =>
    if badLine line then some (.error .malformedListing)
    else if remoteRefOf line = refBytes then some (.ok ())
    else scanListing refBytes rest

/-- The function `verifyRemoteRef` of push.go: `.ok ()` is the nil error. -/
def verifyRemoteRef (git : Git) (remote ref : Str) : Res Unit :=
  let p := git.lsRemote remote ref
  match p.startErr with
  | some e => (.error (.lsRemoteStart ref e), [.lsRemote remote ref])
  | none =>
    match scanListing ref p.lines with
    | some r => (r, [.lsRemote remote ref])
    | none =>
      if p.scanErr then (.error (.lsRemoteRead ref), [.lsRemote remote ref])
      else
        match p.waitErr with
        | some e => (.error (.lsRemoteWait ref e), [.lsRemote remote ref])
        | none => (.error (.missingRef remote ref), [.lsRemote remote ref])

/-- A line the loop of `verifyRemoteRef` accepts: at least 41 bytes, 40
hexadecimal bytes, then a tab. -/
def wellFormedLine (line : Str) : Prop :=
  41 ≤ line.length ∧ line.getD 40 0 = 9 ∧ isHex (line.take 40) = true

instance : DecidablePred wellFormedLine := fun line => by
  unfold wellFormedLine
  infer_instance

/-! ## `push` -/

/-- The flag values after `f.Parse`: `--create`, `-d`, `-r` and the positional
arguments. -/
structure PushFlags where
  /-- The value `*create`. -/
  create : Bool
  /-- The value `*dstRef`, empty when `-d` is not given. -/
  dstRef : Str
  /-- The value `*rev`, `HEAD` by default. -/
  rev : Str
  /-- The positional arguments `f.Arg(i)`. -/
  args : List Str

/-- The outcome of `f.Parse(args)` of the flag package. -/
inductive ParseOutcome where
  /-- The case `flag.IsHelp(err)`. -/
  | help
  /-- Any other parse error. -/
  | failed (msg : Str)
  /-- Parsing succeeded. -/
  | parsed (f : PushFlags)

/-- Destination-ref resolution of `push` (push.go lines 80-87). -/
def pushDstRef (dstRef : Str) (src : Rev) : Except Err Str :=
  if dstRef = [] then
    if src.refName = [] then .error .cannotInfer
    else .ok src.refName
  else if !hasPrefix dstRef (str "refs/") then .ok (str "refs/heads/" ++ dstRef)
  else .ok dstRef

/-- The end of `push` (push.go lines 88-93): the check of the remote ref unless
`--create`, then `git push`. -/
def pushRun (git : Git) (create : Bool) (dstRepo dstRef : Str) (src : Rev) : Res Unit :=
  let run : Res Unit :=
    let refspec := src.commitHex ++ str ":" ++ dstRef
    match git.runPush dstRepo refspec with
    | some e => (.error (.pushFailed e), [.gitPush dstRepo refspec])
    | none => (.ok (), [.gitPush dstRepo refspec])
  if !create then
    match verifyRemoteRef git dstRepo dstRef with
    | (.error e, t) => (.error e, t)
    | (.ok (), t) => (run.1, t ++ run.2)
  else run

/-- The part of `push` after the source revision is resolved and the
destination repository is known (push.go lines 80-93). -/
def pushTo (git : Git) (f : PushFlags) (src : Rev) (dstRepo : Str) : Res Unit :=
  match pushDstRef f.dstRef src with
  | .error e => (.error e, [])
  | .ok dstRef => pushRun git f.create dstRepo dstRef src

/-- The function `push` of push.go, from the outcome of flag parsing on. -/
def push (git : Git) (parse : ParseOutcome) : Res Unit :=
  match parse with
  | .help => (.ok (), [.help])
  | .failed msg => (.error (.usage msg), [])
  | .parsed f =>
    if f.args.length > 1 then (.error (.usage (str "can't pass multiple destinations")), [])
    else
      match git.parseRev f.rev with
      | .error e => (.error (.parseRev e), [.parseRev f.rev])
      | .ok src =>
        let dstRepo := f.args.headD []
        if dstRepo = [] then
          match inferPushRepo git src.branch with
          | (.error e, t) => (.error e, .parseRev f.rev :: t)
          | (.ok dstRepo, t) =>
            let rest := pushTo git f src dstRepo
            (rest.1, .parseRev f.rev :: t ++ rest.2)
        else
          let rest := pushTo git f src dstRepo
          (rest.1, .parseRev f.rev :: rest.2)

/-- Whether an event is a run of `git ls-remote`. -/
def Event.isLsRemote : Event → Bool
  | .lsRemote _ _ => true
  | _ => false

/-- Whether an event is a run of `git push`. -/
def Event.isGitPush : Event → Bool
  | .gitPush _ _ => true
  | _ => false

/-! ## Gerrit magic refs: `parseGerritRef` -/

/-- Go `strings.IndexByte`: the index of the first occurrence of `c`, `none`
for the result -1. -/
def indexByte : Str → Nat → Option Nat
  | [], _ => none
  | b :: s, c => if b = c then some 0 else (indexByte s c).map (· + 1)

/-- Go `strings.Replace(s, old, new, -1)` for one-byte `old` and `new`. -/
def replaceByte (s : Str) (old new : Nat) : Str :=
  s.map fun b => if b = old then new else b

/-- Go `ishex` of net/url. -/
def ishex (c : Nat) : Bool :=
  (decide (48 ≤ c) && decide (c ≤ 57)) || (decide (97 ≤ c) && decide (c ≤ 102))
    || (decide (65 ≤ c) && decide (c ≤ 70))

/-- Go `unhex` of net/url. -/
def unhex (c : Nat) : Nat :=
  if 48 ≤ c ∧ c ≤ 57 then c - 48
  else if 97 ≤ c ∧ c ≤ 102 then c - 97 + 10
  else if 65 ≤ c ∧ c ≤ 70 then c - 65 + 10
  else 0

/-- Go `url.QueryUnescape`: `%XX` becomes the byte `XX`, `+` becomes a space;
a `%` not followed by two hexadecimal digits is an `EscapeError` carrying at
most three bytes from that `%` on. -/
def queryUnescape : Str → Except Str Str
  | [] => .ok []
  | c :: s =>
    if c = 37 then
      match s with
      | a :: b :: t =>
        if ishex a && ishex b then
          match queryUnescape t with
          | .ok r => .ok ((unhex a <<< 4 ||| unhex b) :: r)
          | .error e => .error e
        else .error [37, a, b]
      | _ => .error (37 :: s)
    else
      match queryUnescape s with
      | .ok r => .ok ((if c = 43 then 32 else c) :: r)
      | .error e => .error e

/-- A Go `[]string`: `none` is the nil slice. -/
abbrev Slice := Option (List Str)

/-- Go `append(s, v)`. -/
def Slice.append (s : Slice) (v : Str) : Slice := some (s.getD [] ++ [v])

/-- A Go `map[string][]string`: `none` at a key means the key is absent. -/
abbrev Opts := Str → Option Slice

/-- The empty map of `make(map[string][]string)`. -/
def Opts.empty : Opts := fun _ => none

/-- The read `opts[k]`: nil for an absent key. -/
def Opts.get (opts : Opts) (k : Str) : Slice := (opts k).join

/-- The assignment `opts[k] = v`. -/
def Opts.set (opts : Opts) (k : Str) (v : Slice) : Opts :=
  fun k' => if k' = k then some v else opts k'

/-- The three results of `parseGerritRef`; `opts = none` is the nil map and
`err = none` the nil error. -/
structure GerritParse where
  /-- The base ref. -/
  base : Str
  /-- The options map. -/
  opts : Option Opts
  /-- The error. -/
  err : Option Str

/-- The loop of `parseGerritRef` (push_test.go lines 515-542) with a bound on
the number of iterations: `none` when the bound is used up, otherwise the map
at loop exit or the error returned from inside the loop.  Bytes 44, 61 are `,`
and `=`; 95 and 43 are `_` and `+`. -/
def parseGerritLoop : Nat → Str → Opts → Option (Except Str Opts)
  | 0, _, _ => none
  | fuel + 1, q, opts =>
    if q.length > 0 then
      let sep := (indexByte q 44).getD q.length
      let step : Except Str Opts :=
        match indexByte (q.take sep) 61 with
        | some eq =>
          let k := q.take eq
          let v := (q.take sep).drop (eq + 1)
          if k = str "m" ∨ k = str "message" then
            match queryUnescape (replaceByte ((q.take sep).drop (eq + 1)) 95 43) with
            | .error err => .error err
            | .ok v => .ok (opts.set k ((opts.get k).append v))
          else .ok (opts.set k ((opts.get k).append v))
        | none =>
          let k := q.take sep
          match opts.get k with
          | some v => .ok (opts.set k (Slice.append (some v) []))
          | none => .ok (opts.set k none)
      match step with
      | .error err => some (.error err)
      | .ok opts =>
        if sep ≥ q.length then some (.ok opts)
        else parseGerritLoop fuel (q.drop (sep + 1)) opts
    else some (.ok opts)

/-- The function `parseGerritRef` of push_test.go; byte 37 is `%`.  The loop is given one
iteration per byte of the option text plus one; `none` would mean that this
bound was used up. -/
def parseGerritRef (ref : Str) : Option GerritParse :=
  match indexByte ref 37 with
  | none => some ⟨ref, none, none⟩
  | some start =>
    let q := ref.drop (start + 1)
    match parseGerritLoop (q.length + 1) q Opts.empty with
    | none => none
    | some (.error err) => some ⟨[], none, some err⟩
    | some (.ok opts) => some ⟨ref.take start, some opts, none⟩

/-! ## Gerrit magic refs: the encoder -/

/-- Go `strings.Split(s, ",")`. -/
def splitComma : Str → List Str
  | [] => [[]]
  | c :: s =>
    if c = 44 then [] :: splitComma s
    else
      match splitComma s with
      | [] => [[c]]
      | x :: xs => (c :: x) :: xs

/-- Go `strings.Join(segs, ",")`. -/
def joinComma : List Str → Str
  | [] => []
  | [s] => s
  | s :: t :: rest => s ++ 44 :: joinComma (t :: rest)

/-- The digit `"0123456789ABCDEF"[n]` of Go `url.QueryEscape`. -/
def upperhex (n : Nat) : Nat := if n < 10 then 48 + n else 55 + n

/-- Go `shouldEscape(c, encodeQueryComponent)`: letters, digits and `-_.~` are
kept, every other byte is escaped. -/
def shouldEscape (c : Nat) : Bool :=
  !((decide (97 ≤ c) && decide (c ≤ 122)) || (decide (65 ≤ c) && decide (c ≤ 90))
    || (decide (48 ≤ c) && decide (c ≤ 57))
    || c == 45 || c == 95 || c == 46 || c == 126)

/-- Go `url.QueryEscape`, the standard form encoding: a space becomes `+`,
a byte outside the safe set becomes `%XX`. -/
def queryEscape : Str → Str
  | [] => []
  | c :: s =>
    if c = 32 then 43 :: queryEscape s
    else if shouldEscape c then 37 :: upperhex (c >>> 4) :: upperhex (c &&& 15) :: queryEscape s
    else c :: queryEscape s

/-- Modelled from the spec: the type `gerritOptions`, declared outside the
source files at hand; the fields are those the test `TestGerritPushRef` sets. -/
structure gerritOptions where
  /-- The publish-comments flag. -/
  publishComments : Bool
  /-- The free-text message, empty when absent. -/
  message : Str
  /-- The reviewer addresses, each possibly a comma-separated list. -/
  reviewers : List Str
  /-- The cc addresses, each possibly a comma-separated list. -/
  cc : List Str
  /-- The notification mode, empty when absent. -/
  notify : Str
  /-- The notification to-recipients. -/
  notifyTo : List Str
  /-- The notification cc-recipients. -/
  notifyCC : List Str
  /-- The notification bcc-recipients. -/
  notifyBCC : List Str

/-- Modelled from the spec: the `key=value` options `gerritPushRef` emits for
a `gerritOptions` value (section 4.3, encode contract): the form-encoded
message when present, one `r=`/`cc=` option per comma-separated reviewer/cc
address, then the notification options. -/
def gerritValueSegments (o : gerritOptions) : List Str :=
  (if o.message ≠ [] then [str "m=" ++ queryEscape o.message] else [])
  ++ (o.reviewers.flatMap splitComma).map (fun v => str "r=" ++ v)
  ++ (o.cc.flatMap splitComma).map (fun v => str "cc=" ++ v)
  ++ (if o.notify ≠ [] then [str "notify=" ++ o.notify] else [])
  ++ o.notifyTo.map (fun v => str "notify-to=" ++ v)
  ++ o.notifyCC.map (fun v => str "notify-cc=" ++ v)
  ++ o.notifyBCC.map (fun v => str "notify-bcc=" ++ v)

/-- Modelled from the spec: the option segments `gerritPushRef` emits after
the `%` (section 4.3, encode contract): the publish-comments flag, always
present with one of its two values, then the `key=value` options. -/
def gerritSegments (opts : Option gerritOptions) : List Str :=
  match opts with
  | none => [str "no-publish-comments"]
  | some o =>
    (if o.publishComments then str "publish-comments" else str "no-publish-comments")
      :: gerritValueSegments o

/-- Modelled from the spec: the encoder `gerritPushRef`, defined outside the
source files at hand (section 4.3): the base `refs/for/<branch>`, a `%`, then
the option segments separated by commas. -/
def gerritPushRef (branch : Str) (opts : Option gerritOptions) : Str :=
  str "refs/for/" ++ branch ++ 37 :: joinComma (gerritSegments opts)

/-- A value list as a map entry: no entry for an empty list. -/
def listEntry (vs : List Str) : Option Slice :=
  if vs = [] then none else some (some vs)

/-- The options map a `gerritOptions` value implies (the `wantOpts` of
`TestGerritPushRef`): the valueless publish-comments marker, the message, the
reviewer and cc addresses split on commas, the notification values. -/
def impliedOpts (opts : Option gerritOptions) : Opts := fun k =>
  let o : gerritOptions := opts.getD ⟨false, [], [], [], [], [], [], []⟩
  if k = str "publish-comments" then (if o.publishComments then some none else none)
  else if k = str "no-publish-comments" then (if o.publishComments then none else some none)
  else if k = str "m" then listEntry (if o.message ≠ [] then [o.message] else [])
  else if k = str "r" then listEntry (o.reviewers.flatMap splitComma)
  else if k = str "cc" then listEntry (o.cc.flatMap splitComma)
  else if k = str "notify" then listEntry (if o.notify ≠ [] then [o.notify] else [])
  else if k = str "notify-to" then listEntry o.notifyTo
  else if k = str "notify-cc" then listEntry o.notifyCC
  else if k = str "notify-bcc" then listEntry o.notifyBCC
  else none

/-! ## Gerrit magic refs: the decoder, segment by segment -/

/-- What one iteration of the loop of `parseGerritRef` does with the segment
`q[:sep]` (push_test.go lines 520-537). -/
def parseSegment (seg : Str) (opts : Opts) : Except Str Opts :=
  match indexByte seg 61 with
  | some eq =>
    let k := seg.take eq
    let v := seg.drop (eq + 1)
    if k = str "m" ∨ k = str "message" then
      match queryUnescape (replaceByte v 95 43) with
      | .error err => .error err
      | .ok v => .ok (opts.set k ((opts.get k).append v))
    else .ok (opts.set k ((opts.get k).append v))
  | none =>
    match opts.get seg with
    | some v => .ok (opts.set seg (Slice.append (some v) []))
    | none => .ok (opts.set seg none)

/-- The segments processed one after the other, stopping at the first error. -/
def foldSegments : List Str → Opts → Except Str Opts
  | [], opts => .ok opts
  | seg :: segs, opts =>
    match parseSegment seg opts with
    | .error err => .error err
    | .ok opts => foldSegments segs opts

/-- The key and the decoded value of a `key=value` segment: the key is the
text before the first `=`, the value the text after it, message-decoded for
the keys `m` and `message`. -/
def decodeSegment (seg : Str) : Except Str (Str × Str) :=
  let k := seg.takeWhile (· ≠ 61)
  let v := (seg.dropWhile (· ≠ 61)).drop 1
  if k = str "m" ∨ k = str "message" then
    match queryUnescape (replaceByte v 95 43) with
    | .error err => .error err
    | .ok v => .ok (k, v)
  else .ok (k, v)

/-- The keys and decoded values of a list of `key=value` segments, or the
error of the first segment whose value does not decode. -/
def decodeSegments : List Str → Except Str (List (Str × Str))
  | [] => .ok []
  | seg :: segs =>
    match decodeSegment seg with
    | .error err => .error err
    | .ok kv =>
      match decodeSegments segs with
      | .error err => .error err
      | .ok kvs => .ok (kv :: kvs)

/-- The values recorded under the key `k`, in encounter order. -/
def valuesOf (k : Str) (kvs : List (Str × Str)) : List Str :=
  (kvs.filter fun kv => kv.1 = k).map (·.2)

/-- A map entry extended by a list of values. -/
def addValues (cur : Option Slice) (vs : List Str) : Option Slice :=
  if vs = [] then cur else some (some (cur.join.getD [] ++ vs))

/-- The text before the first `%` of a ref. -/
def baseOf (ref : Str) : Str := ref.takeWhile (· ≠ 37)

/-- The option segments of a ref: the text after the first `%`, split on
commas. -/
def optionSegments (ref : Str) : List Str :=
  splitComma ((ref.dropWhile (· ≠ 37)).drop 1)

/-- The keys and values a `gerritOptions` value contributes besides the
publish-comments marker, in the order of the encoder. -/
def impliedPairs (o : gerritOptions) : List (Str × Str) :=
  (if o.message ≠ [] then [(str "m", o.message)] else [])
  ++ (o.reviewers.flatMap splitComma).map (fun v => (str "r", v))
  ++ (o.cc.flatMap splitComma).map (fun v => (str "cc", v))
  ++ (if o.notify ≠ [] then [(str "notify", o.notify)] else [])
  ++ o.notifyTo.map (fun v => (str "notify-to", v))
  ++ o.notifyCC.map (fun v => (str "notify-cc", v))
  ++ o.notifyBCC.map (fun v => (str "notify-bcc", v))

/-- A list of segments that decodes to a list of pairs, every segment being
of the form `key=value` and without a comma. -/
def DecodesTo (segs : List Str) (kvs : List (Str × Str)) : Prop :=
  decodeSegments segs = .ok kvs ∧ ∀ seg ∈ segs, 61 ∈ seg ∧ 44 ∉ seg

/-! ## Gerrit magic refs: segments of an arbitrary ref -/

/-- The pieces a loop takes off a string one at a time, each ending at the
next `sep` or at the end of the string, until the string is empty: the pieces
between the separators, without an empty piece after a final separator. -/
def splitLoop (sep : Nat) : Str → List Str
  | [] => []
  | c :: s =>
    if c = sep then [] :: splitLoop sep s
    else
      match splitLoop sep s with
      | [] => [[c]]
      | x :: xs => (c :: x) :: xs

/-- The segments the loop of `parseGerritRef` processes for the option text
`q`, in order. -/
def loopSegments (q : Str) : List Str := splitLoop 44 q

/-- The key of a `key=value` segment: the text before the first `=`. -/
def segKey (seg : Str) : Str := seg.takeWhile (· ≠ 61)

/-- The raw value of a `key=value` segment: the text after the first `=`. -/
def segValue (seg : Str) : Str := (seg.dropWhile (· ≠ 61)).drop 1

/-- Whether a string starts with two hexadecimal digits. -/
def twoHex : Str → Bool
  | a :: b :: _ => ishex a && ishex b
  | _ => false

/-- Whether some `%` of a string is not followed by two hexadecimal digits. -/
def hasBadEscape : Str → Bool
  | [] => false
  | c :: s => (c == 37 && !twoHex s) || hasBadEscape s

/-- A `key=value` segment with key `m` or `message` whose value has a `%` that
is not followed by two hexadecimal digits. -/
def badMessageSegment (seg : Str) : Prop :=
  61 ∈ seg ∧ (segKey seg = str "m" ∨ segKey seg = str "message") ∧
    hasBadEscape (segValue seg) = true

/-- The ref with base `base` and the option segments `segs`: the base, a `%`,
the segments separated by commas. -/
def refOf (base : Str) (segs : List Str) : Str := base ++ 37 :: joinComma segs

/-- A list of option segments: no segment is empty or contains a comma. -/
def Segments (segs : List Str) : Prop := ∀ seg ∈ segs, seg ≠ [] ∧ 44 ∉ seg

/-- The keys of a Go map, as `len` counts and `range` enumerates them: each
key present in the map once. -/
def KeysOf (m : Opts) (keys : List Str) : Prop :=
  keys.Nodup ∧ ∀ k, k ∈ keys ↔ (m k).isSome = true

/-- The function `gerritOptionsEqual` of push_test.go, given the keys of the
two maps: equal sizes, and for every key of `m1` the key is in `m2` with a
slice of the same length, the same nil-ness and the same elements. -/
def gerritOptionsEqual (keys1 keys2 : List Str) (m1 m2 : Opts) : Bool :=
  if keys1.length ≠ keys2.length then false
  else
    keys1.all fun k =>
      let v1 := m1.get k
      match m2 k with
      | none => false
      | some v2 =>
        if (v1.getD []).length ≠ (v2.getD []).length || (v1.isNone != v2.isNone) then false
        else decide (v1.getD [] = v2.getD [])

/-- The publish-comments option the encoder writes for an options value. -/
def flagOption (opts : Option gerritOptions) : Str :=
  match opts with
  | some o => if o.publishComments then str "publish-comments" else str "no-publish-comments"
  | none => str "no-publish-comments"

/-- The publish-comments option the encoder does not write for an options
value. -/
def otherFlagOption (opts : Option gerritOptions) : Str :=
  match opts with
  | some o => if o.publishComments then str "no-publish-comments" else str "publish-comments"
  | none => str "publish-comments"

/-! ## The status parser `parseGGStatus` -/

/-- One entry of `gg status` (`ggStatusLine` of status_test.go); the field
`from_` is the field `from` of the source. -/
structure ggStatusLine where
  /-- The status letter. -/
  letter : Nat
  /-- The name. -/
  name : Str
  /-- The source path of a copy or rename, empty when there is none. -/
  from_ : Str
  deriving DecidableEq, Repr

/-- The errors `parseGGStatus` reports to its errorer, one constructor per
call of `e.Errorf`, with the line number and the text the message carries. -/
inductive StatusErr where
  /-- The report `want >=3 characters for status, then space, then name`. -/
  | short (lineno : Nat) (line : Str)
  /-- The report `want second character to be a space`. -/
  | noSpace (lineno : Nat) (line : Str)
  /-- The report `(a "from" line); not valid with previous line`. -/
  | badFrom (lineno : Nat) (name : Str)
  /-- The report `duplicate for %s`. -/
  | duplicate (lineno : Nat) (name : Str)
  deriving DecidableEq, Repr

/-- The ways a run of the model of `parseGGStatus` can end without a result. -/
inductive Fault where
  /-- The bound on the number of iterations was used up. -/
  | outOfFuel
  /-- The index `len(lines)-1` was out of range. -/
  | indexOutOfRange
  deriving DecidableEq, Repr

/-- The variables of the loop of `parseGGStatus`, with the errors reported so
far; the errorer is taken to return from `Errorf`, as `recordErrorer` and
`testing.T` do. -/
structure StatusState where
  /-- The entries collected so far. -/
  lines : List ggStatusLine
  /-- The variable `canAddFrom`. -/
  canAddFrom : Bool
  /-- The variable `lineno`. -/
  lineno : Nat
  /-- The errors reported so far, oldest first. -/
  errs : List StatusErr
  deriving DecidableEq, Repr

/-- The function `hasGGStatusLine` of status_test.go. -/
def hasGGStatusLine : List ggStatusLine → Str → Bool
  | [], _ => false
  | l :: lines, name => if l.name = name then true else hasGGStatusLine lines name

/-- The body of the loop of `parseGGStatus` once the line is cut off
(status_test.go lines 125-158), followed by `lineno++`; byte 32 is the
space. -/
def statusStep (line : Str) (st : StatusState) : Except Fault StatusState :=
  if line.length < 3 then
    .ok ⟨st.lines, false, st.lineno + 1, st.errs ++ [.short st.lineno line]⟩
  else if line.getD 1 0 ≠ 32 then
    .ok ⟨st.lines, false, st.lineno + 1, st.errs ++ [.noSpace st.lineno line]⟩
  else
    let name := line.drop 2
    if line.getD 0 0 = 32 then
      if !st.canAddFrom then
        .ok ⟨st.lines, st.canAddFrom, st.lineno + 1, st.errs ++ [.badFrom st.lineno name]⟩
      else
        match st.lines.getLast? with
        | none => .error .indexOutOfRange
        | some last =>
          .ok ⟨st.lines.dropLast ++ [{ last with from_ := name }], false, st.lineno + 1,
            st.errs⟩
    else if hasGGStatusLine st.lines name then
      .ok ⟨st.lines, false, st.lineno + 1, st.errs ++ [.duplicate st.lineno name]⟩
    else
      .ok ⟨st.lines ++ [⟨line.getD 0 0, name, []⟩], true, st.lineno + 1, st.errs⟩

/-- The loop of `parseGGStatus` (status_test.go lines 116-159) with a bound on
the number of iterations; byte 10 is the newline. -/
def parseGGStatusLoop : Nat → Str → StatusState → Except Fault StatusState
  | 0, _, _ => .error .outOfFuel
  | fuel + 1, out, st =>
    if out.length > 0 then
      match indexByte out 10 with
      | some i =>
        match statusStep (out.take i) st with
        | .error f => .error f
        | .ok st => parseGGStatusLoop fuel (out.drop (i + 1)) st
      | none =>
        match statusStep out st with
        | .error f => .error f
        | .ok st => parseGGStatusLoop fuel [] st
    else .ok st

/-- The function `parseGGStatus` of status_test.go: the entries returned and
the errors reported.  The loop is given one iteration per byte of the input
plus one. -/
def parseGGStatus (out : Str) : Except Fault (List ggStatusLine × List StatusErr) :=
  match parseGGStatusLoop (out.length + 1) out ⟨[], false, 1, []⟩ with
  | .error f => .error f
  | .ok st => .ok (st.lines, st.errs)

/-- The lines of a status stream: the text between newlines, without an empty
line after a final newline. -/
def statusLines (out : Str) : List Str := splitLoop 10 out

/-- The status stream with the given lines, each ended by a newline. -/
def unlines (ls : List Str) : Str := ls.flatMap (· ++ [10])

/-- The body of the loop run over lines, one after the other. -/
def foldStatus : List Str → StatusState → Except Fault StatusState
  | [], st => .ok st
  | line :: ls, st =>
    match statusStep line st with
    | .error f => .error f
    | .ok st => foldStatus ls st

/-- A malformed line: fewer than 3 characters, or a second character that is
not a space. -/
def isMalformed (line : Str) : Prop := line.length < 3 ∨ line.getD 1 0 ≠ 32

/-- A well-formed continuation line: at least 3 characters, the first two of
them spaces. -/
def isContinuation (line : Str) : Prop :=
  3 ≤ line.length ∧ line.getD 1 0 = 32 ∧ line.getD 0 0 = 32

/-- A well-formed line that is not a continuation line: at least 3
characters, the second a space, the first not. -/
def isNewEntry (line : Str) : Prop :=
  3 ≤ line.length ∧ line.getD 1 0 = 32 ∧ line.getD 0 0 ≠ 32

instance : DecidablePred isMalformed := fun line => by
  unfold isMalformed
  infer_instance

instance : DecidablePred isContinuation := fun line => by
  unfold isContinuation
  infer_instance

instance : DecidablePred isNewEntry := fun line => by
  unfold isNewEntry
  infer_instance

/-- The status letter and the name a line carries: its first character and
the text from the third character on. -/
def entryOf (line : Str) : Nat × Str := (line.getD 0 0, line.drop 2)

/-- The status letter and the name of an entry. -/
def pairOf (e : ggStatusLine) : Nat × Str := (e.letter, e.name)

/-- A list of letters and names with every later repetition of a name
removed. -/
def firstByName : List (Nat × Str) → List (Nat × Str)
  | [] => []
  | p :: rest => p :: (firstByName rest).filter (fun q => q.2 ≠ p.2)

/-- The letters and names of the well-formed non-continuation lines among
the given lines, in order. -/
def newEntries (ls : List Str) : List (Nat × Str) :=
  (ls.filter fun l => decide (isNewEntry l)).map entryOf

/-- The invariant of the loop of `parseGGStatus`: when `canAddFrom` is set
there is an entry. -/
def StatusInv (st : StatusState) : Prop := st.canAddFrom = true → st.lines ≠ []

/-- The stronger invariant of the loop of `parseGGStatus`: when `canAddFrom`
is set there is an entry and the last entry has an empty `from` path. -/
def StatusFromInv (st : StatusState) : Prop :=
  st.canAddFrom = true →
    st.lines ≠ [] ∧ (st.lines.getLast?.map fun e => e.from_) = some []

instance : DecidablePred StatusFromInv := fun st => by
  unfold StatusFromInv
  infer_instance

/-! ## `inferCommitFiles` of gut commit -/

/-- A status entry as `inferCommitFiles` reads it.  The type `statusEntry`,
its predicates and `readStatusEntry` are declared outside the source files at
hand, so an entry is given by the values the function reads from it:
`code[0]`, the name and the results of the nine predicates. -/
structure statusEntry where
  /-- The byte `ent.code[0]`, the index status code. -/
  code0 : Nat
  /-- The field `ent.name`. -/
  name : Str
  /-- The result of `ent.isMissing()`. -/
  isMissing : Bool
  /-- The result of `ent.isAdded()`. -/
  isAdded : Bool
  /-- The result of `ent.isModified()`. -/
  isModified : Bool
  /-- The result of `ent.isRemoved()`. -/
  isRemoved : Bool
  /-- The result of `ent.isCopied()`. -/
  isCopied : Bool
  /-- The result of `ent.isRenamed()`. -/
  isRenamed : Bool
  /-- The result of `ent.isIgnored()`. -/
  isIgnored : Bool
  /-- The result of `ent.isUntracked()`. -/
  isUntracked : Bool
  /-- The result of `ent.isUnmerged()`. -/
  isUnmerged : Bool
  deriving DecidableEq, Repr

/-- What one run of `git status` delivers to `inferCommitFiles`. -/
structure StatusRun where
  /-- The error of `git.Start`, if any. -/
  startErr : Option Str
  /-- The entries `readStatusEntry` returns, in stream order. -/
  entries : List statusEntry
  /-- The error `readStatusEntry` returns after the entries: `none` is
  `io.EOF`. -/
  readErr : Option Str
  /-- The error of the final `p.Wait()`, if any. -/
  waitErr : Option Str

/-- The errors `inferCommitFiles` returns. -/
inductive CommitErr where
  /-- The error of `git.Start`. -/
  | start (e : Str)
  /-- The error of `readStatusEntry`. -/
  | read (e : Str)
  /-- The error of `p.Wait()`. -/
  | wait (e : Str)
  /-- An error made by `errors.New` or `fmt.Errorf`, with its message. -/
  | message (msg : Str)
  deriving DecidableEq, Repr

/-- The verb `%d` of `fmt.Errorf` on a count: its decimal digits. -/
def decimal (n : Nat) : Str := (Nat.toDigits 10 n).map Char.toNat

/-- The variables of the loop of `inferCommitFiles`. -/
structure CommitState where
  /-- The slice `files`. -/
  files : List Str
  /-- The counter `missing`. -/
  missing : Nat
  /-- The counter `missingStaged`. -/
  missingStaged : Nat
  /-- The counter `unmerged`. -/
  unmerged : Nat
  deriving DecidableEq, Repr

/-- The loop of `inferCommitFiles` over the entries read (commit.go lines
71-95); `none` is the panic `unhandled status code`. -/
def inferCommitLoop : List statusEntry → CommitState → Option CommitState
  | [], st => some st
  | ent :: rest, st =>
    if ent.isMissing then
      inferCommitLoop rest
        { st with
          missing := st.missing + 1
          missingStaged := if ent.code0 ≠ 32 then st.missingStaged + 1 else st.missingStaged }
    else if ent.isAdded || ent.isModified || ent.isRemoved || ent.isCopied || ent.isRenamed then
      inferCommitLoop rest { st with files := st.files ++ [str ":/:" ++ ent.name] }
    else if ent.isIgnored || ent.isUntracked then
      inferCommitLoop rest st
    else if ent.isUnmerged then
      inferCommitLoop rest { st with unmerged := st.unmerged + 1 }
    else none

/-- The function `inferCommitFiles` of commit.go: the returned list and the
returned error; `none` is the panic `unhandled status code`. -/
def inferCommitFiles (run : StatusRun) (files : List Str) :
    Option (List Str × Option CommitErr) :=
  match run.startErr with
  | some e => some (files, some (.start e))
  | none =>
    let filesStart := files.length
    match inferCommitLoop run.entries ⟨files, 0, 0, 0⟩ with
    | none => none
    | some st =>
      match run.readErr with
      | some e => some (st.files.take filesStart, some (.read e))
      | none =>
        if st.unmerged = 1 then
          some (st.files.take filesStart,
            some (.message (str "1 unmerged file; see 'gut status'")))
        else if st.unmerged > 1 then
          some (st.files.take filesStart,
            some (.message (decimal st.unmerged ++ str " unmerged files; see 'gut status'")))
        else if st.files.length = filesStart then
          match st.missing with
          | 0 => some (st.files.take filesStart, some (.message (str "nothing changed")))
          | 1 =>
            some (st.files.take filesStart,
              some (.message (str "nothing changed (1 missing file; see 'gut status')")))
          | _ =>
            some (st.files.take filesStart,
              some (.message (str "nothing changed (" ++ decimal st.missing
                ++ str " missing files; see 'gut status')")))
        else if st.missingStaged = 1 then
          some (st.files.take filesStart,
            some (.message
              (str "git has staged changes for 1 missing file; see 'gut status'")))
        else if st.missingStaged > 1 then
          some (st.files.take filesStart,
            some (.message (str "git has staged changes for " ++ decimal st.missingStaged
              ++ str " missing file; see 'gut status'")))
        else some (st.files, run.waitErr.map .wait)

/-- An entry for which the loop appends a path: not missing, and added,
modified, removed, copied or renamed. -/
def statusEntry.selected (ent : statusEntry) : Bool :=
  !ent.isMissing &&
    (ent.isAdded || ent.isModified || ent.isRemoved || ent.isCopied || ent.isRenamed)

/-- An entry the loop skips: one that reaches the case of ignored and
untracked entries. -/
def statusEntry.skipped (ent : statusEntry) : Bool :=
  !ent.isMissing &&
    !(ent.isAdded || ent.isModified || ent.isRemoved || ent.isCopied || ent.isRenamed) &&
    (ent.isIgnored || ent.isUntracked)

/-- An entry the loop counts as unmerged: one that reaches the case of
unmerged entries. -/
def statusEntry.countedUnmerged (ent : statusEntry) : Bool :=
  !ent.isMissing &&
    !(ent.isAdded || ent.isModified || ent.isRemoved || ent.isCopied || ent.isRenamed) &&
    !(ent.isIgnored || ent.isUntracked) && ent.isUnmerged

/-- A missing entry whose index status code is not a space. -/
def statusEntry.stagedMissing (ent : statusEntry) : Bool :=
  ent.isMissing && decide (ent.code0 ≠ 32)

/-- An entry one of the cases of the switch handles. -/
def statusEntry.handled (ent : statusEntry) : Bool :=
  ent.isMissing ||
    (ent.isAdded || ent.isModified || ent.isRemoved || ent.isCopied || ent.isRenamed) ||
    (ent.isIgnored || ent.isUntracked) || ent.isUnmerged

/-- The paths the loop appends for a list of entries, in stream order. -/
def selectedPaths (entries : List statusEntry) : List Str :=
  (entries.filter statusEntry.selected).map fun ent => str ":/:" ++ ent.name

/-- The message of the unmerged-files error for a count. -/
def unmergedMessage (n : Nat) : Str :=
  if n = 1 then str "1 unmerged file; see 'gut status'"
  else decimal n ++ str " unmerged files; see 'gut status'"

/-- The message of the nothing-changed error for a count of missing files. -/
def nothingChangedMessage (n : Nat) : Str :=
  if n = 0 then str "nothing changed"
  else if n = 1 then str "nothing changed (1 missing file; see 'gut status')"
  else str "nothing changed (" ++ decimal n ++ str " missing files; see 'gut status')"

/-- The message of the staged-missing-files error for a count, as commit.go
writes it. -/
def stagedMissingMessage (n : Nat) : Str :=
  str "git has staged changes for " ++ decimal n ++ str " missing file; see 'gut status'"

/-- An example entry: an added file. -/
def addedEntry (name : Str) : statusEntry :=
  ⟨65, name, false, true, false, false, false, false, false, false, false⟩

/-- An example entry: a missing file with the index status code `code0`. -/
def missingEntry (code0 : Nat) (name : Str) : statusEntry :=
  ⟨code0, name, true, false, false, false, false, false, false, false, false⟩

/-- An example entry: an unmerged file. -/
def unmergedEntry (name : Str) : statusEntry :=
  ⟨85, name, false, false, false, false, false, false, false, false, true⟩

/-! ## Examples -/

/-- A source revision that is not a ref: a detached commit. -/
def detachedRev : Rev := ⟨str "c0ffee", [], []⟩

/-- A well-formed listing line: forty zeros, a tab, the ref `refs/heads/main`. -/
def mainLine : Str := List.replicate 40 48 ++ 9 :: str "refs/heads/main"

/-- A well-formed listing line: forty zeros, a tab, the ref `refs/heads/dev`. -/
def devLine : Str := List.replicate 40 48 ++ 9 :: str "refs/heads/dev"

/-- A git tool for examples: every configuration key reads as `val key`. -/
def gitOf (val : Str → Str) (remotes : List Str) (listing : Listing) : Git where
  parseRev := fun _ => .ok ⟨str "c0ffee", str "refs/heads/main", str "main"⟩
  config := fun k => .ok (val k)
  remotes := remotes
  lsRemote := fun _ _ => listing
  runPush := fun _ _ => none

/-- An empty, successful listing. -/
def emptyListing : Listing := ⟨none, [], false, none⟩

/-- A git tool whose `HEAD` is a detached commit and whose only remote is
`origin`. -/
def detachedGit : Git :=
  { gitOf (fun _ => []) [str "origin"] emptyListing with parseRev := fun _ => .ok detachedRev }

/-! ## Theorems -/

/-- C1: when all configuration reads succeed, `inferPushRepo` returns the first
non-empty value of the chain branch push-remote, `remote.pushDefault`, branch
remote, `origin` (if such a remote exists), and fails with the no-destination
error when the chain has no non-empty value. -/
theorem inferPushRepo_first_nonempty (git : Git) (val : Str → Str) (branch : Str)
    (hreads : ∀ k, git.config k = .ok (val k)) :
    (inferPushRepo git branch).1 =
      match firstNonEmpty (pushRepoChain val git.remotes branch) with
      | some r => .ok r
      | none => .error .noOrigin := by
  have horigin : str "origin" ≠ [] := by decide
  by_cases hb : branch = [] <;>
  by_cases h1 : val (str "branch." ++ (branch ++ str ".pushRemote")) = [] <;>
  by_cases h2 : val (str "remote.pushDefault") = [] <;>
  by_cases h3 : val (str "branch." ++ (branch ++ str ".remote")) = [] <;>
  by_cases h4 : str "origin" ∈ git.remotes <;>
  simp [inferPushRepo, inferPushRepoDefault, inferPushRepoTail, pushRepoChain,
    firstNonEmpty, hreads, hb, h1, h2, h3, h4, horigin]

/-- Witness of C1: on branch `main` with only `branch.main.remote = upstream`
set and a remote `origin`, the third tier wins. -/
theorem inferPushRepo_first_nonempty_witness :
    (inferPushRepo
        (gitOf (fun k => if k = str "branch.main.remote" then str "upstream" else [])
          [str "origin"] emptyListing) (str "main")).1 = .ok (str "upstream") :=
  inferPushRepo_first_nonempty
    (gitOf (fun k => if k = str "branch.main.remote" then str "upstream" else [])
      [str "origin"] emptyListing)
    (fun k => if k = str "branch.main.remote" then str "upstream" else [])
    (str "main") (fun _ => rfl)


/-- C2: when all configuration reads succeed, `inferPushRepo` fails with the
no-destination error exactly when the branch push-remote is unset or there is
no branch, `remote.pushDefault` is unset, the branch remote is unset or there
is no branch, and no remote is named `origin`; it fails in no other way. -/
theorem inferPushRepo_noOrigin_iff (git : Git) (val : Str → Str) (branch : Str)
    (hreads : ∀ k, git.config k = .ok (val k)) :
    ((inferPushRepo git branch).1 = .error .noOrigin ↔
      (branch = [] ∨ val (str "branch." ++ branch ++ str ".pushRemote") = []) ∧
      val (str "remote.pushDefault") = [] ∧
      (branch = [] ∨ val (str "branch." ++ branch ++ str ".remote") = []) ∧
      str "origin" ∉ git.remotes) ∧
    (∀ e, (inferPushRepo git branch).1 = .error e → e = .noOrigin) := by
  by_cases hb : branch = [] <;>
  by_cases h1 : val (str "branch." ++ (branch ++ str ".pushRemote")) = [] <;>
  by_cases h2 : val (str "remote.pushDefault") = [] <;>
  by_cases h3 : val (str "branch." ++ (branch ++ str ".remote")) = [] <;>
  by_cases h4 : str "origin" ∈ git.remotes <;>
  simp [inferPushRepo, inferPushRepoDefault, inferPushRepoTail, hreads, hb, h1, h2, h3, h4]

/-- Witness of C2: on branch `main`, with no configuration and no remote, the
no-destination error is returned. -/
theorem inferPushRepo_noOrigin_iff_witness :
    (inferPushRepo (gitOf (fun _ => []) [] emptyListing) (str "main")).1 = .error .noOrigin :=
  ((inferPushRepo_noOrigin_iff (gitOf (fun _ => []) [] emptyListing) (fun _ => [])
    (str "main") (fun _ => rfl)).1).2 (by decide)

/-- C3: a non-empty explicit destination `d` resolves to `d` when it starts
with `refs/` and to `refs/heads/` followed by `d` otherwise, whatever the
source revision is; `push` continues with that ref. -/
theorem pushDstRef_explicit (d : Str) (hd : d ≠ []) (git : Git) (create : Bool)
    (rev : Str) (args : List Str) (src : Rev) (dstRepo : Str) :
    pushDstRef d src =
      .ok (if hasPrefix d (str "refs/") then d else str "refs/heads/" ++ d) ∧
    pushTo git ⟨create, d, rev, args⟩ src dstRepo =
      pushRun git create dstRepo
        (if hasPrefix d (str "refs/") then d else str "refs/heads/" ++ d) src := by
  by_cases hp : hasPrefix d (str "refs/") = true <;> simp [pushTo, pushDstRef, hd, hp]

/-- Witness of C3: `-d foo` resolves to `refs/heads/foo`. -/
theorem pushDstRef_explicit_witness :
    pushDstRef (str "foo") ⟨str "c0ffee", str "refs/heads/main", str "main"⟩ =
      .ok (str "refs/heads/foo") :=
  (pushDstRef_explicit (str "foo") (by decide) (gitOf (fun _ => []) [] emptyListing) false
    (str "HEAD") [] ⟨str "c0ffee", str "refs/heads/main", str "main"⟩ (str "origin")).1

/-- The calls the tail of `inferPushRepo` makes are configuration reads and
the listing of the local remotes. -/
theorem inferPushRepoTail_events (git : Git) (branch : Str) :
    ∀ ev ∈ (inferPushRepoTail git branch).2, ev.isLsRemote = false ∧ ev.isGitPush = false := by
  intro ev hev
  unfold inferPushRepoTail at hev
  dsimp only at hev
  generalize git.config (str "branch." ++ branch ++ str ".remote") = c at hev
  by_cases hb : branch = [] <;> by_cases ho : str "origin" ∈ git.remotes <;>
    rcases c with e | r <;> try by_cases hr : r = []
  all_goals simp [hb, ho] at hev
  all_goals simp_all [Event.isLsRemote, Event.isGitPush]
  all_goals rcases hev with h | h <;> simp [h]

/-- The calls `inferPushRepo` makes from `remote.pushDefault` on are
configuration reads and the listing of the local remotes. -/
theorem inferPushRepoDefault_events (git : Git) (branch : Str) :
    ∀ ev ∈ (inferPushRepoDefault git branch).2,
      ev.isLsRemote = false ∧ ev.isGitPush = false := by
  intro ev hev
  have ht := inferPushRepoTail_events git branch ev
  unfold inferPushRepoDefault at hev
  dsimp only at hev
  generalize git.config (str "remote.pushDefault") = c at hev
  rcases c with e | r <;> try by_cases hr : r = []
  all_goals simp at hev
  · simp [hev, Event.isLsRemote, Event.isGitPush]
  · simp only [hr, if_true] at hev
    rcases List.mem_cons.1 hev with h | h
    · simp [h, Event.isLsRemote, Event.isGitPush]
    · exact ht h
  · simp only [hr, if_false] at hev
    simp_all [Event.isLsRemote, Event.isGitPush]

/-- The calls `inferPushRepo` makes are configuration reads and the listing of
the local remotes. -/
theorem inferPushRepo_events (git : Git) (branch : Str) :
    ∀ ev ∈ (inferPushRepo git branch).2, ev.isLsRemote = false ∧ ev.isGitPush = false := by
  intro ev hev
  have ht := inferPushRepoDefault_events git branch ev
  unfold inferPushRepo at hev
  dsimp only at hev
  generalize git.config (str "branch." ++ branch ++ str ".pushRemote") = c at hev
  by_cases hb : branch = []
  · simp only [hb, ne_eq, not_true_eq_false, if_false] at hev
    rw [hb] at ht
    exact ht hev
  · rcases c with e | r <;> try by_cases hr : r = []
    all_goals simp only [hb, ne_eq, not_false_eq_true, if_true] at hev
    · simp at hev
      simp [hev, Event.isLsRemote, Event.isGitPush]
    · simp only [hr, not_true_eq_false, if_false] at hev
      rcases List.mem_cons.1 hev with h | h
      · simp [h, Event.isLsRemote, Event.isGitPush]
      · exact ht h
    · simp only [hr, not_false_eq_true, if_true] at hev
      simp at hev
      simp [hev, Event.isLsRemote, Event.isGitPush]

/-- C4: without an explicit destination ref, destination-ref resolution fails
with the cannot-infer error exactly when the source has an empty ref name, and
returns a non-empty source ref name unchanged; on the failing path `push` runs
neither `git ls-remote` nor `git push`. -/
theorem pushDstRef_inferred (git : Git) (f : PushFlags) (src : Rev) (hd : f.dstRef = []) :
    (pushDstRef f.dstRef src = .error .cannotInfer ↔ src.refName = []) ∧
    (src.refName ≠ [] → pushDstRef f.dstRef src = .ok src.refName) ∧
    (f.args.length ≤ 1 → git.parseRev f.rev = .ok src → src.refName = [] →
      (∀ ev ∈ (push git (.parsed f)).2, ev.isLsRemote = false ∧ ev.isGitPush = false) ∧
      ((f.args.headD [] ≠ [] ∨ ∃ r, (inferPushRepo git src.branch).1 = .ok r) →
        (push git (.parsed f)).1 = .error .cannotInfer)) := by
  refine ⟨?_, ?_, ?_⟩
  · by_cases h : src.refName = [] <;> simp [pushDstRef, hd, h]
  · intro h
    simp [pushDstRef, hd, h]
  · intro hargs hrev href
    have hlen : ¬ f.args.length > 1 := by omega
    have hto : ∀ repo, pushTo git f src repo = (.error .cannotInfer, []) := by
      intro repo
      simp [pushTo, pushDstRef, hd, href]
    have hev := inferPushRepo_events git src.branch
    by_cases hrepo : f.args.headD [] = []
    · rcases hinf : inferPushRepo git src.branch with ⟨r, t⟩
      rw [hinf] at hev
      cases r with
      | error e =>
        refine ⟨?_, ?_⟩
        · intro ev hmem
          simp only [push, hlen, hrev, hrepo, hinf, if_true, if_false] at hmem
          rcases List.mem_cons.1 hmem with h | h
          · subst h
            exact ⟨rfl, rfl⟩
          · exact hev ev h
        · intro h
          rcases h with h | ⟨r, h⟩
          · exact absurd hrepo h
          · cases h
      | ok r =>
        refine ⟨?_, ?_⟩
        · intro ev hmem
          simp only [push, hlen, hrev, hrepo, hinf, hto, if_true, if_false,
            List.append_nil] at hmem
          rcases List.mem_cons.1 hmem with h | h
          · subst h
            exact ⟨rfl, rfl⟩
          · exact hev ev h
        · intro _
          simp only [push, hlen, hrev, hrepo, hinf, hto, if_true, if_false]
    · refine ⟨?_, ?_⟩
      · intro ev hmem
        simp only [push, hlen, hrev, hrepo, hto, if_false] at hmem
        rcases List.mem_cons.1 hmem with h | h
        · subst h
          exact ⟨rfl, rfl⟩
        · simp at h
      · intro _
        simp only [push, hlen, hrev, hrepo, hto, if_false]

/-- Witness of C4: `gg push` from a detached commit fails with the cannot-infer
error. -/
theorem pushDstRef_inferred_witness :
    (push detachedGit (.parsed ⟨false, [], str "HEAD", []⟩)).1 = .error .cannotInfer :=
  ((pushDstRef_inferred detachedGit ⟨false, [], str "HEAD", []⟩ detachedRev rfl).2.2
    (by decide) rfl rfl).2 (Or.inr ⟨str "origin", by decide⟩)


/-- A well-formed line passes the test of `verifyRemoteRef`, and conversely. -/
theorem badLine_eq_false_iff (line : Str) : badLine line = false ↔ wellFormedLine line := by
  unfold badLine wellFormedLine tabLoc
  simp only [Bool.or_eq_false_iff, decide_eq_false_iff_not, bne_eq_false_iff_eq,
    Bool.not_eq_false', ge_iff_le, not_le]
  constructor
  · rintro ⟨⟨h1, h2⟩, h3⟩
    exact ⟨h1, h2, h3⟩
  · rintro ⟨h1, h2, h3⟩
    exact ⟨⟨h1, h2⟩, h3⟩

/-- On well-formed lines the scanning loop returns from inside exactly when a
line carries the target ref, and then with the nil error. -/
theorem scanListing_wellFormed (ref : Str) (lines : List Str)
    (hwf : ∀ l ∈ lines, wellFormedLine l) :
    ((∃ l ∈ lines, remoteRefOf l = ref) → scanListing ref lines = some (.ok ())) ∧
    ((¬ ∃ l ∈ lines, remoteRefOf l = ref) → scanListing ref lines = none) := by
  induction lines with
  | nil => simp [scanListing]
  | cons line rest ih =>
    have hline : badLine line = false :=
      (badLine_eq_false_iff line).2 (hwf line (List.mem_cons_self _ _))
    have ih := ih (fun l hl => hwf l (List.mem_cons_of_mem _ hl))
    by_cases heq : remoteRefOf line = ref
    · simp [scanListing, hline, heq]
    · constructor
      · rintro ⟨l, hl, hlr⟩
        rcases List.mem_cons.1 hl with h | h
        · exact absurd (h ▸ hlr) heq
        · simpa [scanListing, hline, heq] using ih.1 ⟨l, h, hlr⟩
      · intro hno
        have hno' : ¬ ∃ l ∈ rest, remoteRefOf l = ref := by
          rintro ⟨l, hl, hlr⟩
          exact hno ⟨l, List.mem_cons_of_mem _ hl, hlr⟩
        simpa [scanListing, hline, heq] using ih.2 hno'

/-- C5: on a listing that starts and whose lines are all well-formed,
`verifyRemoteRef` returns the nil error exactly when the ref field of some line
equals the target byte for byte (so a line whose ref field is a proper prefix
or a proper extension of the target is no match); when no line matches and the
listing ends without read error and with a successful exit, it returns the
error saying that the remote does not have the ref. -/
theorem verifyRemoteRef_exact (git : Git) (remote ref : Str)
    (hstart : (git.lsRemote remote ref).startErr = none)
    (hwf : ∀ l ∈ (git.lsRemote remote ref).lines, wellFormedLine l) :
    ((verifyRemoteRef git remote ref).1 = .ok () ↔
      ∃ l ∈ (git.lsRemote remote ref).lines, remoteRefOf l = ref) ∧
    ((git.lsRemote remote ref).scanErr = false → (git.lsRemote remote ref).waitErr = none →
      (¬ ∃ l ∈ (git.lsRemote remote ref).lines, remoteRefOf l = ref) →
      (verifyRemoteRef git remote ref).1 = .error (.missingRef remote ref)) := by
  have hscan := scanListing_wellFormed ref _ hwf
  by_cases hex : ∃ l ∈ (git.lsRemote remote ref).lines, remoteRefOf l = ref
  · have h := hscan.1 hex
    simp [verifyRemoteRef, hstart, h, hex]
  · have h := hscan.2 hex
    refine ⟨?_, ?_⟩
    · simp only [verifyRemoteRef, hstart, h, hex, iff_false]
      cases (git.lsRemote remote ref).scanErr <;> cases (git.lsRemote remote ref).waitErr <;>
        simp
    · intro hs hw _
      simp [verifyRemoteRef, hstart, h, hs, hw]

/-- Witness of C5: a listing with the line for `refs/heads/main` has the ref
`refs/heads/main`. -/
theorem verifyRemoteRef_exact_witness :
    (verifyRemoteRef (gitOf (fun _ => []) [] ⟨none, [mainLine], false, none⟩) (str "origin")
      (str "refs/heads/main")).1 = .ok () :=
  (verifyRemoteRef_exact (gitOf (fun _ => []) [] ⟨none, [mainLine], false, none⟩)
    (str "origin") (str "refs/heads/main") rfl (by decide)).1.2 (by decide)

/-- Counterexample to C6: a listing whose first line matches the target and
whose second line is malformed makes `verifyRemoteRef` return the nil error,
not the malformed-listing error. -/
theorem verifyRemoteRef_malformed_counterexample :
    badLine (str "garbage") = true ∧
    (verifyRemoteRef (gitOf (fun _ => []) [] ⟨none, [mainLine, str "garbage"], false, none⟩)
      (str "origin") (str "refs/heads/main")).1 = .ok () := by
  decide

/-- The scanning loop returns the malformed-listing error at a rejected line
that no matching line precedes. -/
theorem scanListing_malformed (ref : Str) (pre : List Str) (bad : Str) (post : List Str)
    (hbad : badLine bad = true)
    (hpre : ∀ l ∈ pre, badLine l = false → remoteRefOf l ≠ ref) :
    scanListing ref (pre ++ bad :: post) = some (.error .malformedListing) := by
  induction pre with
  | nil => simp [scanListing, hbad]
  | cons line rest ih =>
    have ih := ih (fun l hl => hpre l (List.mem_cons_of_mem _ hl))
    by_cases hline : badLine line = true
    · simp [scanListing, hline]
    · have hline : badLine line = false := by simpa using hline
      have hne := hpre line (List.mem_cons_self _ _) hline
      simpa [scanListing, hline, hne] using ih

/-- C6 (amended): on a listing that starts and contains a line whose byte 40 is
not a tab (lines shorter than 41 bytes included) or whose first 40 bytes are
not all hexadecimal, with no well-formed line before it whose ref field equals
the target, `verifyRemoteRef` returns the malformed-listing error. -/
theorem verifyRemoteRef_malformed (git : Git) (remote ref : Str)
    (pre : List Str) (bad : Str) (post : List Str)
    (hstart : (git.lsRemote remote ref).startErr = none)
    (hlines : (git.lsRemote remote ref).lines = pre ++ bad :: post)
    (hbad : bad.length < 41 ∨ bad.getD 40 0 ≠ 9 ∨ isHex (bad.take 40) = false)
    (hpre : ∀ l ∈ pre, wellFormedLine l → remoteRefOf l ≠ ref) :
    (verifyRemoteRef git remote ref).1 = .error .malformedListing := by
  have hb : badLine bad = true := by
    by_contra h
    have h : badLine bad = false := by simpa using h
    have hw := (badLine_eq_false_iff bad).1 h
    rcases hbad with h1 | h1 | h1
    · exact absurd hw.1 (by omega)
    · exact h1 hw.2.1
    · rw [hw.2.2] at h1
      cases h1
  have hscan := scanListing_malformed ref pre bad post hb
    (fun l hl hlb => hpre l hl ((badLine_eq_false_iff l).1 hlb))
  simp [verifyRemoteRef, hstart, hlines, hscan]

/-- Witness of C6 (amended): a listing whose only line is `garbage`. -/
theorem verifyRemoteRef_malformed_witness :
    (verifyRemoteRef (gitOf (fun _ => []) [] ⟨none, [str "garbage"], false, none⟩)
      (str "origin") (str "refs/heads/main")).1 = .error .malformedListing :=
  verifyRemoteRef_malformed (gitOf (fun _ => []) [] ⟨none, [str "garbage"], false, none⟩)
    (str "origin") (str "refs/heads/main") [] (str "garbage") [] rfl rfl
    (Or.inl (by decide)) (by simp)

/-- Counterexample to C7: on an empty listing that ends without read error and
with a successful exit, `verifyRemoteRef` returns an error, not a normal
result. -/
theorem verifyRemoteRef_missing_counterexample :
    (verifyRemoteRef (gitOf (fun _ => []) [] emptyListing) (str "origin")
      (str "refs/heads/main")).1 ≠ .ok () ∧
    (verifyRemoteRef (gitOf (fun _ => []) [] emptyListing) (str "origin")
      (str "refs/heads/main")).1 = .error (.missingRef (str "origin") (str "refs/heads/main")) := by
  decide

/-- C7 (amended): on a listing that starts, whose lines are all well-formed,
none of them with the target as ref field, and that ends without read error and
with a successful exit, `verifyRemoteRef` returns the error `remote R does
not have ref T`, which is neither the malformed-listing error nor one of the
`verify remote ref` errors; the nil error is not returned. -/
theorem verifyRemoteRef_missing (git : Git) (remote ref : Str)
    (hstart : (git.lsRemote remote ref).startErr = none)
    (hwf : ∀ l ∈ (git.lsRemote remote ref).lines, wellFormedLine l)
    (hno : ∀ l ∈ (git.lsRemote remote ref).lines, remoteRefOf l ≠ ref)
    (hscan : (git.lsRemote remote ref).scanErr = false)
    (hwait : (git.lsRemote remote ref).waitErr = none) :
    (verifyRemoteRef git remote ref).1 = .error (.missingRef remote ref) ∧
    (verifyRemoteRef git remote ref).1 ≠ .ok () ∧
    (verifyRemoteRef git remote ref).1 ≠ .error .malformedListing ∧
    (verifyRemoteRef git remote ref).1 ≠ .error (.lsRemoteRead ref) ∧
    (∀ msg, (verifyRemoteRef git remote ref).1 ≠ .error (.lsRemoteStart ref msg)) ∧
    (∀ msg, (verifyRemoteRef git remote ref).1 ≠ .error (.lsRemoteWait ref msg)) := by
  have hex : ¬ ∃ l ∈ (git.lsRemote remote ref).lines, remoteRefOf l = ref := by
    rintro ⟨l, hl, hlr⟩
    exact hno l hl hlr
  have h := (scanListing_wellFormed ref _ hwf).2 hex
  have hres : (verifyRemoteRef git remote ref).1 = .error (.missingRef remote ref) := by
    simp [verifyRemoteRef, hstart, h, hscan, hwait]
  rw [hres]
  simp

/-- Witness of C7 (amended): a listing with only `refs/heads/dev` does not have
`refs/heads/main`. -/
theorem verifyRemoteRef_missing_witness :
    (verifyRemoteRef (gitOf (fun _ => []) [] ⟨none, [devLine], false, none⟩) (str "origin")
      (str "refs/heads/main")).1 = .error (.missingRef (str "origin") (str "refs/heads/main")) :=
  (verifyRemoteRef_missing (gitOf (fun _ => []) [] ⟨none, [devLine], false, none⟩)
    (str "origin") (str "refs/heads/main") rfl (by decide) (by decide) rfl rfl).1


/-- The only call `verifyRemoteRef` makes is the start of `git ls-remote`. -/
theorem verifyRemoteRef_events (git : Git) (remote ref : Str) :
    (verifyRemoteRef git remote ref).2 = [.lsRemote remote ref] := by
  unfold verifyRemoteRef
  dsimp only
  cases (git.lsRemote remote ref).startErr <;>
    cases scanListing ref (git.lsRemote remote ref).lines <;>
    cases (git.lsRemote remote ref).scanErr <;>
    cases (git.lsRemote remote ref).waitErr <;> rfl

/-- The scanning loop returns no usage error. -/
theorem scanListing_not_usage (ref : Str) (lines : List Str) (e : Err)
    (h : scanListing ref lines = some (.error e)) : e.isUsage = false := by
  induction lines with
  | nil => simp [scanListing] at h
  | cons line rest ih =>
    unfold scanListing at h
    split_ifs at h
    · cases h
      rfl
    · cases h
    · exact ih h

/-- No error of `verifyRemoteRef` is a usage error. -/
theorem verifyRemoteRef_not_usage (git : Git) (remote ref : Str) (e : Err)
    (h : (verifyRemoteRef git remote ref).1 = .error e) : e.isUsage = false := by
  unfold verifyRemoteRef at h
  dsimp only at h
  have hs := scanListing_not_usage ref (git.lsRemote remote ref).lines
  revert h hs
  cases (git.lsRemote remote ref).startErr <;>
    rcases scanListing ref (git.lsRemote remote ref).lines with _ | r <;>
    cases (git.lsRemote remote ref).scanErr <;>
    cases (git.lsRemote remote ref).waitErr <;> intro h hs
  all_goals first
    | (cases h; rfl)
    | (simp only at h; subst h; exact hs e rfl)

/-- The end of `push`: `git push` runs exactly when `--create` is given or the
check of the remote ref succeeds. -/
theorem pushRun_gate (git : Git) (create : Bool) (dstRepo dstRef : Str) (src : Rev) :
    ((∃ ev ∈ (pushRun git create dstRepo dstRef src).2, ev.isGitPush = true) ↔
      create = true ∨ (verifyRemoteRef git dstRepo dstRef).1 = .ok ()) ∧
    (create = false → ∀ e, (verifyRemoteRef git dstRepo dstRef).1 = .error e →
      (pushRun git create dstRepo dstRef src).1 = .error e ∧
      ∀ ev ∈ (pushRun git create dstRepo dstRef src).2, ev.isGitPush = false) ∧
    (create = true →
      ∀ ev ∈ (pushRun git create dstRepo dstRef src).2, ev.isLsRemote = false) := by
  have hev := verifyRemoteRef_events git dstRepo dstRef
  unfold pushRun
  dsimp only
  generalize src.commitHex ++ str ":" ++ dstRef = refspec
  generalize git.runPush dstRepo refspec = p
  revert hev
  rcases verifyRemoteRef git dstRepo dstRef with ⟨r, t⟩
  intro hev
  simp only at hev
  subst hev
  cases create <;> rcases r with e | u <;> cases p <;>
    simp [Event.isGitPush, Event.isLsRemote]

/-- Under the success of flag parsing, revision resolution and repository
choice, `push` is its end run after calls that are neither `git ls-remote` nor
`git push`. -/
theorem push_eq_pushRun (git : Git) (f : PushFlags) (src : Rev) (dstRepo dstRef : Str)
    (hargs : f.args.length ≤ 1) (hrev : git.parseRev f.rev = .ok src)
    (hrepo : (f.args.headD [] ≠ [] ∧ dstRepo = f.args.headD []) ∨
      (f.args.headD [] = [] ∧ (inferPushRepo git src.branch).1 = .ok dstRepo))
    (href : pushDstRef f.dstRef src = .ok dstRef) :
    ∃ t : List Event, (∀ ev ∈ t, ev.isLsRemote = false ∧ ev.isGitPush = false) ∧
      push git (.parsed f) =
        ((pushRun git f.create dstRepo dstRef src).1,
          t ++ (pushRun git f.create dstRepo dstRef src).2) := by
  have hlen : ¬ f.args.length > 1 := by omega
  have hto : ∀ repo, pushTo git f src repo = pushRun git f.create repo dstRef src := by
    intro repo
    simp [pushTo, href]
  rcases hrepo with ⟨hne, hd⟩ | ⟨he, hinf⟩
  · refine ⟨[.parseRev f.rev], ?_, ?_⟩
    · intro ev hev
      rw [List.mem_singleton.1 hev]
      exact ⟨rfl, rfl⟩
    · subst hd
      simp only [push, hlen, hrev, hne, hto, if_false, List.singleton_append]
  · have hev := inferPushRepo_events git src.branch
    rcases hi : inferPushRepo git src.branch with ⟨r, t⟩
    rw [hi] at hev hinf
    simp only at hinf
    subst hinf
    refine ⟨.parseRev f.rev :: t, ?_, ?_⟩
    · intro ev hmem
      rcases List.mem_cons.1 hmem with h | h
      · subst h
        exact ⟨rfl, rfl⟩
      · exact hev ev h
    · simp only [push, hlen, hrev, he, hi, hto, if_true, if_false, List.cons_append]

/-- C8: when flag parsing, revision resolution, repository choice and
destination-ref resolution succeed, `push` runs `git push` exactly when
`--create` is given or `verifyRemoteRef` succeeds for the resolved repository
and ref; without `--create` an error of `verifyRemoteRef` (a missing ref
included) is returned by `push`, is not a usage error, and `git push` is not
run; with `--create`, `git ls-remote` is not run. -/
theorem push_create_gate (git : Git) (f : PushFlags) (src : Rev) (dstRepo dstRef : Str)
    (hargs : f.args.length ≤ 1) (hrev : git.parseRev f.rev = .ok src)
    (hrepo : (f.args.headD [] ≠ [] ∧ dstRepo = f.args.headD []) ∨
      (f.args.headD [] = [] ∧ (inferPushRepo git src.branch).1 = .ok dstRepo))
    (href : pushDstRef f.dstRef src = .ok dstRef) :
    ((∃ ev ∈ (push git (.parsed f)).2, ev.isGitPush = true) ↔
      f.create = true ∨ (verifyRemoteRef git dstRepo dstRef).1 = .ok ()) ∧
    (f.create = false → ∀ e, (verifyRemoteRef git dstRepo dstRef).1 = .error e →
      (push git (.parsed f)).1 = .error e ∧ e.isUsage = false ∧
      ∀ ev ∈ (push git (.parsed f)).2, ev.isGitPush = false) ∧
    (f.create = true → ∀ ev ∈ (push git (.parsed f)).2, ev.isLsRemote = false) := by
  obtain ⟨t, ht, hpush⟩ := push_eq_pushRun git f src dstRepo dstRef hargs hrev hrepo href
  obtain ⟨h1, h2, h3⟩ := pushRun_gate git f.create dstRepo dstRef src
  rw [hpush]
  refine ⟨?_, ?_, ?_⟩
  · rw [← h1]
    constructor
    · rintro ⟨ev, hev, hp⟩
      rcases List.mem_append.1 hev with h | h
      · rw [(ht ev h).2] at hp
        cases hp
      · exact ⟨ev, h, hp⟩
    · rintro ⟨ev, hev, hp⟩
      exact ⟨ev, List.mem_append.2 (Or.inr hev), hp⟩
  · intro hc e he
    refine ⟨(h2 hc e he).1, verifyRemoteRef_not_usage git dstRepo dstRef e he, ?_⟩
    intro ev hev
    rcases List.mem_append.1 hev with h | h
    · exact (ht ev h).2
    · exact (h2 hc e he).2 ev h
  · intro hc ev hev
    rcases List.mem_append.1 hev with h | h
    · exact (ht ev h).1
    · exact h3 hc ev h

/-- Witness of C8: `gg push -d foo` against a remote that only has
`refs/heads/dev` fails with the missing-ref error. -/
theorem push_create_gate_witness :
    (push (gitOf (fun _ => []) [str "origin"] ⟨none, [devLine], false, none⟩)
      (.parsed ⟨false, str "foo", str "HEAD", []⟩)).1 =
      .error (.missingRef (str "origin") (str "refs/heads/foo")) :=
  ((push_create_gate (gitOf (fun _ => []) [str "origin"] ⟨none, [devLine], false, none⟩)
    ⟨false, str "foo", str "HEAD", []⟩ ⟨str "c0ffee", str "refs/heads/main", str "main"⟩
    (str "origin") (str "refs/heads/foo") (by decide) rfl (Or.inr ⟨rfl, by decide⟩)
    (by decide)).2.1 rfl _ (by decide)).1


/-! ### The decoder loop, segment by segment -/

/-- The search `indexByte` finds nothing in a string without the byte. -/
theorem indexByte_eq_none (s : Str) (c : Nat) (h : c ∉ s) : indexByte s c = none := by
  induction s with
  | nil => rfl
  | cons b s ih =>
    have hb : b ≠ c := fun e => h (e ▸ List.mem_cons_self _ _)
    have hs : c ∉ s := fun e => h (List.mem_cons_of_mem _ e)
    simp [indexByte, hb, ih hs]

/-- The search `indexByte` finds the first occurrence. -/
theorem indexByte_append (s t : Str) (c : Nat) (h : c ∉ s) :
    indexByte (s ++ c :: t) c = some s.length := by
  induction s with
  | nil => simp [indexByte]
  | cons b s ih =>
    have hb : b ≠ c := fun e => h (e ▸ List.mem_cons_self _ _)
    have hs : c ∉ s := fun e => h (List.mem_cons_of_mem _ e)
    simp [indexByte, hb, ih hs]

/-- A result of `indexByte` splits the string at the first occurrence. -/
theorem indexByte_some (s : Str) (c i : Nat) (h : indexByte s c = some i) :
    s = s.take i ++ c :: s.drop (i + 1) ∧ c ∉ s.take i ∧ i < s.length := by
  induction s generalizing i with
  | nil => simp [indexByte] at h
  | cons b s ih =>
    by_cases hb : b = c
    · simp [indexByte, hb] at h
      subst h
      simp [hb]
    · simp only [indexByte, hb, if_false, Option.map_eq_some'] at h
      obtain ⟨j, hj, rfl⟩ := h
      obtain ⟨h1, h2, h3⟩ := ih j hj
      refine ⟨?_, ?_, ?_⟩
      · simp only [List.take_succ_cons, List.drop_succ_cons, List.cons_append]
        rw [← h1]
      · simp only [List.take_succ_cons, List.mem_cons, not_or]
        exact ⟨fun e => hb e.symm, h2⟩
      · simp only [List.length_cons]
        omega

/-- One iteration of the loop on the segment `seg = q[:sep]` is
`parseSegment seg`. -/
theorem loop_step_eq (seg rest : Str) (opts : Opts) :
    (match indexByte seg 61 with
      | some eq =>
        if (seg ++ rest).take eq = str "m" ∨ (seg ++ rest).take eq = str "message" then
          match queryUnescape (replaceByte (seg.drop (eq + 1)) 95 43) with
          | .error err => Except.error err
          | .ok v => .ok (opts.set ((seg ++ rest).take eq)
              ((opts.get ((seg ++ rest).take eq)).append v))
        else .ok (opts.set ((seg ++ rest).take eq)
          ((opts.get ((seg ++ rest).take eq)).append (seg.drop (eq + 1))))
      | none =>
        match opts.get seg with
        | some v => .ok (opts.set seg (Slice.append (some v) []))
        | none => .ok (opts.set seg none)) = parseSegment seg opts := by
  unfold parseSegment
  cases h : indexByte seg 61 with
  | none => rfl
  | some eq =>
    have hlt := (indexByte_some seg 61 eq h).2.2
    have ht : (seg ++ rest).take eq = seg.take eq := by
      rw [List.take_append_of_le_length (by omega)]
    simp only [ht]

/-- The loop on a single comma-free, non-empty segment. -/
theorem parseGerritLoop_single (fuel : Nat) (seg : Str) (opts : Opts)
    (hne : seg ≠ []) (hc : 44 ∉ seg) :
    parseGerritLoop (fuel + 1) seg opts = some (parseSegment seg opts) := by
  have hlen : seg.length > 0 := List.length_pos.2 hne
  have hstep := loop_step_eq seg [] opts
  simp only [List.append_nil] at hstep
  unfold parseGerritLoop
  simp only [hlen, if_true, indexByte_eq_none seg 44 hc, Option.getD_none, List.take_length,
    ge_iff_le, le_refl, hstep]
  cases parseSegment seg opts <;> rfl

/-- The loop on a comma-free, non-empty segment followed by a comma. -/
theorem parseGerritLoop_cons (fuel : Nat) (seg rest : Str) (opts : Opts) (hc : 44 ∉ seg) :
    parseGerritLoop (fuel + 1) (seg ++ 44 :: rest) opts =
      match parseSegment seg opts with
      | .error err => some (.error err)
      | .ok opts => parseGerritLoop fuel rest opts := by
  have hlen : (seg ++ 44 :: rest).length > 0 := by simp
  have hstep := loop_step_eq seg (44 :: rest) opts
  have htake : (seg ++ 44 :: rest).take seg.length = seg := by simp
  have hdrop : (seg ++ 44 :: rest).drop (seg.length + 1) = rest := by
    simp
  have hsep : ¬ seg.length ≥ (seg ++ 44 :: rest).length := by simp
  conv_lhs => unfold parseGerritLoop
  simp only [hlen, if_true, indexByte_append seg rest 44 hc, Option.getD_some, htake, hdrop,
    hsep, if_false, hstep]

/-- The loop of `parseGerritRef` on comma-free, non-empty segments joined by
commas processes the segments one after the other, given one unit of fuel per
byte and one more. -/
theorem parseGerritLoop_join (segs : List Str) (hsegs : segs ≠ [])
    (hall : ∀ seg ∈ segs, seg ≠ [] ∧ 44 ∉ seg) :
    ∀ (fuel : Nat) (opts : Opts), (joinComma segs).length < fuel →
      parseGerritLoop fuel (joinComma segs) opts = some (foldSegments segs opts) := by
  induction segs with
  | nil => exact absurd rfl hsegs
  | cons seg rest ih =>
    intro fuel opts hfuel
    obtain ⟨hne, hc⟩ := hall seg (List.mem_cons_self _ _)
    cases rest with
    | nil =>
      cases fuel with
      | zero => omega
      | succ fuel =>
        rw [joinComma, parseGerritLoop_single fuel seg opts hne hc]
        simp only [foldSegments]
        cases parseSegment seg opts <;> rfl
    | cons t rest =>
      cases fuel with
      | zero => omega
      | succ fuel =>
        have hlen : (joinComma (t :: rest)).length < fuel := by
          simp only [joinComma, List.length_append, List.length_cons] at hfuel
          omega
        have ih := ih (by simp) (fun s hs => hall s (List.mem_cons_of_mem _ hs))
        rw [joinComma, parseGerritLoop_cons fuel seg _ opts hc]
        simp only [foldSegments]
        cases parseSegment seg opts with
        | error e => rfl
        | ok o => exact ih fuel o hlen


/-- The index `indexByte` returns cuts the string where `takeWhile` and
`dropWhile` do. -/
theorem indexByte_takeWhile (s : Str) (c : Nat) (h : c ∈ s) :
    ∃ i, indexByte s c = some i ∧ s.take i = s.takeWhile (· ≠ c) ∧
      s.drop (i + 1) = (s.dropWhile (· ≠ c)).drop 1 := by
  induction s with
  | nil => simp at h
  | cons b s ih =>
    by_cases hb : b = c
    · exact ⟨0, by simp [indexByte, hb], by simp [List.takeWhile, hb],
        by simp [List.dropWhile, hb]⟩
    · have hs : c ∈ s := by
        rcases List.mem_cons.1 h with e | e
        · exact absurd e.symm hb
        · exact e
      obtain ⟨i, h1, h2, h3⟩ := ih hs
      refine ⟨i + 1, by simp [indexByte, hb, h1], ?_, ?_⟩
      · simp [List.takeWhile, hb, h2]
      · simp [List.dropWhile, hb, h3]

/-- On a `key=value` segment one iteration of the loop appends the decoded
value to the list of the key. -/
theorem parseSegment_keyValue (seg : Str) (opts : Opts) (h : 61 ∈ seg) :
    parseSegment seg opts =
      match decodeSegment seg with
      | .error err => .error err
      | .ok kv => .ok (opts.set kv.1 ((opts.get kv.1).append kv.2)) := by
  obtain ⟨i, h1, h2, h3⟩ := indexByte_takeWhile seg 61 h
  unfold parseSegment decodeSegment
  simp only [h1, h2, h3]
  split_ifs
  · cases queryUnescape (replaceByte (List.drop 1 (List.dropWhile (· ≠ 61) seg)) 95 43) <;> rfl
  · rfl

/-- Appending a value under a key extends the list of that key only. -/
theorem addValues_set (opts : Opts) (k v : Str) (kvs : List (Str × Str)) (k' : Str) :
    addValues ((opts.set k ((opts.get k).append v)) k') (valuesOf k' kvs) =
      addValues (opts k') (valuesOf k' ((k, v) :: kvs)) := by
  by_cases hk : k' = k
  · subst hk
    by_cases hv : valuesOf k' kvs = []
    · simp [addValues, valuesOf, Opts.set, Opts.get, Slice.append] at hv ⊢
    · simp [addValues, valuesOf, Opts.set, Opts.get, Slice.append] at hv ⊢
  · have hk' : ¬ k = k' := fun e => hk e.symm
    have hf : valuesOf k' ((k, v) :: kvs) = valuesOf k' kvs := by
      simp [valuesOf, List.filter_cons, hk']
    rw [hf]
    simp [Opts.set, hk]

/-- The loop body run over `key=value` segments records, for each key, the
decoded values of the segments with that key in encounter order. -/
theorem foldSegments_keyValue (segs : List Str) (hkv : ∀ seg ∈ segs, 61 ∈ seg) :
    ∀ opts : Opts, foldSegments segs opts =
      match decodeSegments segs with
      | .error err => .error err
      | .ok kvs => .ok (fun k => addValues (opts k) (valuesOf k kvs)) := by
  induction segs with
  | nil =>
    intro opts
    simp [foldSegments, decodeSegments, addValues, valuesOf]
  | cons seg rest ih =>
    intro opts
    have ih := ih (fun s hs => hkv s (List.mem_cons_of_mem _ hs))
    simp only [foldSegments, decodeSegments,
      parseSegment_keyValue seg opts (hkv seg (List.mem_cons_self _ _))]
    cases hd : decodeSegment seg with
    | error e => rfl
    | ok kv =>
      simp only [ih]
      cases decodeSegments rest with
      | error e => rfl
      | ok kvs =>
        simp only [Except.ok.injEq]
        funext k
        exact addValues_set opts kv.1 kv.2 kvs k

/-- Splitting on commas never yields the empty list. -/
theorem splitComma_ne_nil (s : Str) : splitComma s ≠ [] := by
  induction s with
  | nil => simp [splitComma]
  | cons c s ih =>
    unfold splitComma
    split_ifs
    · simp
    · cases h : splitComma s with
      | nil => exact absurd h ih
      | cons x xs => simp

/-- The pieces of a split contain no comma. -/
theorem splitComma_no_comma (s : Str) : ∀ p ∈ splitComma s, 44 ∉ p := by
  induction s with
  | nil => simp [splitComma]
  | cons c s ih =>
    unfold splitComma
    split_ifs with hc
    · intro p hp
      rcases List.mem_cons.1 hp with e | e
      · simp [e]
      · exact ih p e
    · cases h : splitComma s with
      | nil => exact absurd h (splitComma_ne_nil s)
      | cons x xs =>
        rw [h] at ih
        intro p hp
        rcases List.mem_cons.1 hp with e | e
        · subst e
          have hx := ih x (List.mem_cons_self _ _)
          simp only [List.mem_cons, not_or]
          exact ⟨fun e => hc e.symm, hx⟩
        · exact ih p (List.mem_cons_of_mem _ e)

/-- Joining the pieces of a split with commas gives the string back. -/
theorem joinComma_splitComma (s : Str) : joinComma (splitComma s) = s := by
  induction s with
  | nil => simp [splitComma, joinComma]
  | cons c s ih =>
    unfold splitComma
    split_ifs with hc
    · cases h : splitComma s with
      | nil => exact absurd h (splitComma_ne_nil s)
      | cons x xs =>
        rw [h] at ih
        simp [joinComma, ih, hc]
    · cases h : splitComma s with
      | nil => exact absurd h (splitComma_ne_nil s)
      | cons x xs =>
        rw [h] at ih
        cases xs with
        | nil =>
          simp only [joinComma] at ih ⊢
          rw [ih]
        | cons y ys =>
          simp only [joinComma, List.cons_append] at ih ⊢
          rw [ih]

/-- C10: on a ref that contains `%` and whose option segments all have the
form `key=value`, `parseGerritRef` returns the text before the first `%` as
base and maps every key `k` to the values of the segments with key `k`, one
per segment and in encounter order (decoded for `m` and `message`, verbatim
otherwise), with no entry for a key of no segment; segments of other keys do
not enter the list of `k`.  If a message value does not decode, the error of
the first such segment is returned. -/
theorem parseGerritRef_keyValue (ref : Str) (hpct : 37 ∈ ref)
    (hkv : ∀ seg ∈ optionSegments ref, 61 ∈ seg) :
    parseGerritRef ref =
      match decodeSegments (optionSegments ref) with
      | .error err => some ⟨[], none, some err⟩
      | .ok kvs => some ⟨baseOf ref, some (fun k => listEntry (valuesOf k kvs)), none⟩ := by
  obtain ⟨i, h1, h2, h3⟩ := indexByte_takeWhile ref 37 hpct
  unfold optionSegments at hkv
  unfold parseGerritRef optionSegments baseOf
  simp only [h1, h2, h3]
  generalize (List.dropWhile (· ≠ 37) ref).drop 1 = q at hkv ⊢
  have hall : ∀ seg ∈ splitComma q, seg ≠ [] ∧ 44 ∉ seg := by
    intro seg hs
    refine ⟨?_, splitComma_no_comma q seg hs⟩
    intro e
    have := hkv seg hs
    simp [e] at this
  have hloop := parseGerritLoop_join (splitComma q) (splitComma_ne_nil q) hall
    (q.length + 1) Opts.empty (by rw [joinComma_splitComma]; omega)
  rw [joinComma_splitComma] at hloop
  rw [hloop, foldSegments_keyValue (splitComma q) hkv]
  cases decodeSegments (splitComma q) with
  | error e => rfl
  | ok kvs =>
    simp only [Opts.empty, addValues, listEntry]
    congr

/-- Witness of C10: the ref of `TestParseGerritRef` with a repeated key. -/
theorem parseGerritRef_keyValue_witness :
    37 ∈ str "refs/for/master%r=a@a.com,cc=b@o.com,r=c@r.com" ∧
    (∀ seg ∈ optionSegments (str "refs/for/master%r=a@a.com,cc=b@o.com,r=c@r.com"),
      61 ∈ seg) ∧
    parseGerritRef (str "refs/for/master%r=a@a.com,cc=b@o.com,r=c@r.com") =
      match decodeSegments
        (optionSegments (str "refs/for/master%r=a@a.com,cc=b@o.com,r=c@r.com")) with
      | .error err => some ⟨[], none, some err⟩
      | .ok kvs =>
        some ⟨baseOf (str "refs/for/master%r=a@a.com,cc=b@o.com,r=c@r.com"),
          some (fun k => listEntry (valuesOf k kvs)), none⟩ :=
  ⟨by decide, by decide,
    parseGerritRef_keyValue (str "refs/for/master%r=a@a.com,cc=b@o.com,r=c@r.com")
      (by decide) (by decide)⟩


/-! ### The encoder and the round trip -/

set_option maxRecDepth 100000 in
/-- The two digits `url.QueryEscape` writes for a byte are hexadecimal digits,
are not `_`, and decode to the byte. -/
theorem hex_roundtrip : ∀ c < 256,
    ishex (upperhex (c >>> 4)) = true ∧ ishex (upperhex (c &&& 15)) = true ∧
    (unhex (upperhex (c >>> 4)) <<< 4 ||| unhex (upperhex (c &&& 15))) = c ∧
    upperhex (c >>> 4) ≠ 95 ∧ upperhex (c &&& 15) ≠ 95 := by
  decide

/-- No digit of an escape is a comma. -/
theorem upperhex_ne_comma (n : Nat) : upperhex n ≠ 44 := by
  unfold upperhex
  split_ifs <;> omega

/-- The bytes `url.QueryEscape` keeps are not `%`, `+` or `,`. -/
theorem shouldEscape_false (c : Nat) (h : shouldEscape c = false) :
    c ≠ 37 ∧ c ≠ 43 ∧ c ≠ 44 := by
  simp [shouldEscape] at h
  omega

/-- The form encoding of a string contains no comma. -/
theorem queryEscape_no_comma (s : Str) : 44 ∉ queryEscape s := by
  induction s with
  | nil => simp [queryEscape]
  | cons c s ih =>
    unfold queryEscape
    split_ifs with h1 h2
    · simp [ih]
    · simp only [List.mem_cons, not_or]
      exact ⟨by omega, (upperhex_ne_comma _).symm, (upperhex_ne_comma _).symm, ih⟩
    · have := shouldEscape_false c (by simpa using h2)
      simp only [List.mem_cons, not_or]
      exact ⟨fun e => this.2.2 e.symm, ih⟩

/-- Go `url.QueryUnescape` at a byte other than `%`. -/
theorem queryUnescape_cons (c : Nat) (s : Str) (h : c ≠ 37) :
    queryUnescape (c :: s) =
      match queryUnescape s with
      | .ok r => .ok ((if c = 43 then 32 else c) :: r)
      | .error e => .error e := by
  conv_lhs => unfold queryUnescape
  simp only [h, if_false]

/-- Go `url.QueryUnescape` at a well-formed escape. -/
theorem queryUnescape_percent (a b : Nat) (t : Str) (ha : ishex a = true)
    (hb : ishex b = true) :
    queryUnescape (37 :: a :: b :: t) =
      match queryUnescape t with
      | .ok r => .ok ((unhex a <<< 4 ||| unhex b) :: r)
      | .error e => .error e := by
  conv_lhs => unfold queryUnescape
  simp only [if_true, ha, hb, Bool.and_self]

/-- Decoding a message value undoes the form encoding of a message of bytes
without `_`. -/
theorem queryUnescape_queryEscape (s : Str) (h : ∀ c ∈ s, c < 256 ∧ c ≠ 95) :
    queryUnescape (replaceByte (queryEscape s) 95 43) = .ok s := by
  induction s with
  | nil => simp [queryEscape, replaceByte, queryUnescape]
  | cons c s ih =>
    have ih := ih (fun c hc => h c (List.mem_cons_of_mem _ hc))
    obtain ⟨hlt, hne⟩ := h c (List.mem_cons_self _ _)
    unfold replaceByte at ih ⊢
    unfold queryEscape
    split_ifs with h1 h2
    · subst h1
      simp only [List.map_cons]
      rw [if_neg (by decide), queryUnescape_cons _ _ (by decide), ih]
      rfl
    · obtain ⟨a1, a2, a3, a4, a5⟩ := hex_roundtrip c hlt
      simp only [List.map_cons]
      rw [if_neg (by decide), if_neg a4, if_neg a5, queryUnescape_percent _ _ _ a1 a2, ih, a3]
    · have := shouldEscape_false c (by simpa using h2)
      simp only [List.map_cons]
      rw [if_neg hne, queryUnescape_cons _ _ this.1, ih]
      simp only [this.2.1, if_false]


/-- Cutting `key=value` at the first `=` when the key has none. -/
theorem takeWhile_dropWhile_key (key v : Str) (hk : 61 ∉ key) :
    (key ++ 61 :: v).takeWhile (· ≠ 61) = key ∧
    (key ++ 61 :: v).dropWhile (· ≠ 61) = 61 :: v := by
  induction key with
  | nil => simp [List.takeWhile, List.dropWhile]
  | cons c key ih =>
    have hc : c ≠ 61 := fun e => hk (e ▸ List.mem_cons_self _ _)
    have ih := ih (fun e => hk (List.mem_cons_of_mem _ e))
    simpa [List.takeWhile, List.dropWhile, hc] using ih

/-- A segment `key=value` with a key other than `m` and `message` decodes to
the key and the value as written. -/
theorem decodeSegment_plain (key v : Str) (hk : 61 ∉ key)
    (hm : ¬ (key = str "m" ∨ key = str "message")) :
    decodeSegment (key ++ 61 :: v) = .ok (key, v) := by
  obtain ⟨h1, h2⟩ := takeWhile_dropWhile_key key v hk
  simp only [decodeSegment, h1, h2, hm, if_false, List.drop_succ_cons, List.drop_zero]

/-- The segment `m=` followed by an encoded message decodes to the message. -/
theorem decodeSegment_message (msg : Str) (h : ∀ c ∈ msg, c < 256 ∧ c ≠ 95) :
    decodeSegment (str "m" ++ 61 :: queryEscape msg) = .ok (str "m", msg) := by
  obtain ⟨h1, h2⟩ := takeWhile_dropWhile_key (str "m") (queryEscape msg) (by decide)
  simp only [decodeSegment, h1, h2, true_or, if_true, List.drop_succ_cons, List.drop_zero,
    queryUnescape_queryEscape msg h]

/-- The empty list of segments decodes to the empty list of pairs. -/
theorem DecodesTo.nil : DecodesTo [] [] := by
  simp [DecodesTo, decodeSegments]

/-- Decoding distributes over the concatenation of segment lists. -/
theorem DecodesTo.append {a b : List Str} {x y : List (Str × Str)}
    (ha : DecodesTo a x) (hb : DecodesTo b y) : DecodesTo (a ++ b) (x ++ y) := by
  refine ⟨?_, ?_⟩
  · obtain ⟨ha, -⟩ := ha
    induction a generalizing x with
    | nil =>
      simp only [decodeSegments, Except.ok.injEq] at ha
      subst ha
      simpa using hb.1
    | cons s a ih =>
      simp only [decodeSegments] at ha
      cases hs : decodeSegment s with
      | error e => simp [hs] at ha
      | ok kv =>
        cases hr : decodeSegments a with
        | error e => simp [hs, hr] at ha
        | ok kvs =>
          simp only [hs, hr, Except.ok.injEq] at ha
          subst ha
          simp [decodeSegments, hs, ih hr]
  · intro seg hseg
    rcases List.mem_append.1 hseg with h | h
    · exact ha.2 seg h
    · exact hb.2 seg h

/-- One option per value: the segments `key=v` decode to the pairs `(key, v)`
when the key is plain and the values have no comma. -/
theorem DecodesTo.map (key : Str) (hk : 61 ∉ key) (hc : 44 ∉ key)
    (hm : ¬ (key = str "m" ∨ key = str "message")) (vs : List Str)
    (hvs : ∀ v ∈ vs, 44 ∉ v) :
    DecodesTo (vs.map fun v => key ++ 61 :: v) (vs.map fun v => (key, v)) := by
  induction vs with
  | nil => exact DecodesTo.nil
  | cons v vs ih =>
    have ih := ih (fun w hw => hvs w (List.mem_cons_of_mem _ hw))
    have hv := hvs v (List.mem_cons_self _ _)
    refine ⟨?_, ?_⟩
    · simp only [List.map_cons, decodeSegments, decodeSegment_plain key v hk hm, ih.1]
    · intro seg hseg
      rcases List.mem_cons.1 hseg with h | h
      · subst h
        simp only [List.mem_append, List.mem_cons, true_or, or_true, not_or, true_and]
        exact ⟨hc, by decide, hv⟩
      · exact ih.2 seg h


/-- The `key=value` options of the encoder decode to the pairs the options
imply, when the message has no `_` and the notification values no comma. -/
theorem gerritValueSegments_decodes (o : gerritOptions)
    (hmsg : ∀ c ∈ o.message, c < 256 ∧ c ≠ 95) (hn : 44 ∉ o.notify)
    (hto : ∀ v ∈ o.notifyTo, 44 ∉ v) (hcc : ∀ v ∈ o.notifyCC, 44 ∉ v)
    (hbcc : ∀ v ∈ o.notifyBCC, 44 ∉ v) :
    DecodesTo (gerritValueSegments o) (impliedPairs o) := by
  have hsplit : ∀ l : List Str, ∀ v ∈ l.flatMap splitComma, 44 ∉ v := by
    intro l v hv
    obtain ⟨s, -, hs⟩ := List.mem_flatMap.1 hv
    exact splitComma_no_comma s v hs
  unfold gerritValueSegments impliedPairs
  refine DecodesTo.append (DecodesTo.append (DecodesTo.append (DecodesTo.append
    (DecodesTo.append (DecodesTo.append ?_ ?_) ?_) ?_) ?_) ?_) ?_
  · by_cases h : o.message = []
    · simpa [h] using DecodesTo.nil
    · simp only [ne_eq, h, not_false_eq_true, if_true]
      refine ⟨?_, ?_⟩
      · show decodeSegments [str "m" ++ 61 :: queryEscape o.message] = _
        simp only [decodeSegments, decodeSegment_message o.message hmsg]
      · intro seg hseg
        rw [List.mem_singleton.1 hseg]
        show 61 ∈ str "m" ++ 61 :: queryEscape o.message ∧
          44 ∉ str "m" ++ 61 :: queryEscape o.message
        simp only [List.mem_append, List.mem_cons, true_or, or_true, not_or, true_and]
        exact ⟨by decide, by decide, queryEscape_no_comma _⟩
  · exact DecodesTo.map (str "r") (by decide) (by decide) (by decide) _ (hsplit _)
  · exact DecodesTo.map (str "cc") (by decide) (by decide) (by decide) _ (hsplit _)
  · by_cases h : o.notify = []
    · simpa [h] using DecodesTo.nil
    · simp only [ne_eq, h, not_false_eq_true, if_true]
      exact DecodesTo.map (str "notify") (by decide) (by decide) (by decide) [o.notify]
        (fun v hv => by rw [List.mem_singleton.1 hv]; exact hn)
  · exact DecodesTo.map (str "notify-to") (by decide) (by decide) (by decide) _ hto
  · exact DecodesTo.map (str "notify-cc") (by decide) (by decide) (by decide) _ hcc
  · exact DecodesTo.map (str "notify-bcc") (by decide) (by decide) (by decide) _ hbcc

/-- The values listed under a key in a concatenation. -/
theorem valuesOf_append (k : Str) (a b : List (Str × Str)) :
    valuesOf k (a ++ b) = valuesOf k a ++ valuesOf k b := by
  simp [valuesOf]

/-- The values listed under a key among pairs that all carry one key. -/
theorem valuesOf_map (k key : Str) (vs : List Str) :
    valuesOf k (vs.map fun v => (key, v)) = if key = k then vs else [] := by
  induction vs with
  | nil => simp [valuesOf]
  | cons v vs ih =>
    by_cases h : key = k
    · simpa [valuesOf, h, List.filter_cons] using ih
    · simp [valuesOf, h, List.filter_cons]

/-- The map the decoder builds from the publish-comments marker followed by
the implied pairs is the implied options map. -/
theorem impliedOpts_eq (o : gerritOptions) :
    (fun k => addValues
      ((Opts.empty.set
        (if o.publishComments then str "publish-comments" else str "no-publish-comments")
        none) k) (valuesOf k (impliedPairs o))) = impliedOpts (some o) := by
  funext k
  have hm : valuesOf k (if o.message ≠ [] then [(str "m", o.message)] else []) =
      if str "m" = k then (if o.message ≠ [] then [o.message] else []) else [] := by
    by_cases h : o.message = [] <;> by_cases hk : str "m" = k <;>
      simp [valuesOf, h, hk, List.filter_cons]
  have hn : valuesOf k (if o.notify ≠ [] then [(str "notify", o.notify)] else []) =
      if str "notify" = k then (if o.notify ≠ [] then [o.notify] else []) else [] := by
    by_cases h : o.notify = [] <;> by_cases hk : str "notify" = k <;>
      simp [valuesOf, h, hk, List.filter_cons]
  simp only [impliedPairs, valuesOf_append, valuesOf_map, hm, hn, impliedOpts,
    Option.getD_some]
  by_cases k1 : k = str "publish-comments"
  · subst k1
    by_cases hp : o.publishComments = true <;>
      simp +decide [addValues, Opts.set, Opts.empty, hp]
  by_cases k2 : k = str "no-publish-comments"
  · subst k2
    by_cases hp : o.publishComments = true <;>
      simp +decide [addValues, Opts.set, Opts.empty, hp]
  have hflag : (Opts.empty.set
      (if o.publishComments then str "publish-comments" else str "no-publish-comments")
      none) k = none := by
    by_cases hp : o.publishComments = true <;> simp [Opts.set, Opts.empty, k1, k2, hp]
  rw [hflag]
  simp only [k1, k2, if_false]
  by_cases k3 : k = str "m"
  · subst k3
    simp +decide [addValues, listEntry]
  by_cases k4 : k = str "r"
  · subst k4
    simp +decide [addValues, listEntry]
  by_cases k5 : k = str "cc"
  · subst k5
    simp +decide [addValues, listEntry]
  by_cases k6 : k = str "notify"
  · subst k6
    simp +decide [addValues, listEntry]
  by_cases k7 : k = str "notify-to"
  · subst k7
    simp +decide [addValues, listEntry]
  by_cases k8 : k = str "notify-cc"
  · subst k8
    simp +decide [addValues, listEntry]
  by_cases k9 : k = str "notify-bcc"
  · subst k9
    simp +decide [addValues, listEntry]
  have e3 : ¬ str "m" = k := fun e => k3 e.symm
  have e4 : ¬ str "r" = k := fun e => k4 e.symm
  have e5 : ¬ str "cc" = k := fun e => k5 e.symm
  have e6 : ¬ str "notify" = k := fun e => k6 e.symm
  have e7 : ¬ str "notify-to" = k := fun e => k7 e.symm
  have e8 : ¬ str "notify-cc" = k := fun e => k8 e.symm
  have e9 : ¬ str "notify-bcc" = k := fun e => k9 e.symm
  simp [addValues, k3, k4, k5, k6, k7, k8, k9, e3, e4, e5, e6, e7, e8, e9]


/-- A valueless segment met first is recorded with the nil slice. -/
theorem parseSegment_marker (seg : Str) (h : 61 ∉ seg) :
    parseSegment seg Opts.empty = .ok (Opts.empty.set seg none) := by
  simp [parseSegment, indexByte_eq_none seg 61 h, Opts.get, Opts.empty]

/-- The decoder on an encoded ref whose branch has no `%`: the base is
`refs/for/<branch>` and the options are those the loop body collects from the
segments of the encoder. -/
theorem parseGerritRef_gerritPushRef (branch : Str) (opts : Option gerritOptions)
    (hb : 37 ∉ branch) (hall : ∀ seg ∈ gerritSegments opts, seg ≠ [] ∧ 44 ∉ seg)
    (hne : gerritSegments opts ≠ []) :
    parseGerritRef (gerritPushRef branch opts) =
      match foldSegments (gerritSegments opts) Opts.empty with
      | .error err => some ⟨[], none, some err⟩
      | .ok o => some ⟨str "refs/for/" ++ branch, some o, none⟩ := by
  have hpre : 37 ∉ str "refs/for/" ++ branch := by
    simp only [List.mem_append, not_or]
    exact ⟨by decide, hb⟩
  have hidx := indexByte_append (str "refs/for/" ++ branch)
    (joinComma (gerritSegments opts)) 37 hpre
  have htake : (str "refs/for/" ++ branch ++ 37 :: joinComma (gerritSegments opts)).take
      (str "refs/for/" ++ branch).length = str "refs/for/" ++ branch := by
    generalize str "refs/for/" ++ branch = l
    simp
  have hdrop : (str "refs/for/" ++ branch ++ 37 :: joinComma (gerritSegments opts)).drop
      ((str "refs/for/" ++ branch).length + 1) = joinComma (gerritSegments opts) := by
    generalize str "refs/for/" ++ branch = l
    simp
  have hloop := parseGerritLoop_join (gerritSegments opts) hne hall
    ((joinComma (gerritSegments opts)).length + 1) Opts.empty (by omega)
  unfold parseGerritRef gerritPushRef
  simp only [hidx, htake, hdrop, hloop]
  cases foldSegments (gerritSegments opts) Opts.empty <;> rfl

/-- Counterexample to C9: for the branch `a%b` the decoded base is
`refs/for/a` and the marker `no-publish-comments` is absent from the map; for
the message `a_b` the decoded message is `a b`; for the notification recipient
`x,y` the decoded `notify-to` list is `[x]`. -/
theorem gerritPushRef_roundtrip_counterexample :
    (parseGerritRef (gerritPushRef (str "a%b") none)).map (·.base) =
      some (str "refs/for/a") ∧
    ((parseGerritRef (gerritPushRef (str "a%b") none)).bind (·.opts)).map
      (fun o => o (str "no-publish-comments")) = some none ∧
    ((parseGerritRef (gerritPushRef (str "master")
        (some ⟨false, str "a_b", [], [], [], [], [], []⟩))).bind (·.opts)).map
      (fun o => o (str "m")) = some (some (some [str "a b"])) ∧
    ((parseGerritRef (gerritPushRef (str "master")
        (some ⟨false, [], [], [], [], [str "x,y"], [], []⟩))).bind (·.opts)).map
      (fun o => o (str "notify-to")) = some (some (some [str "x"])) := by
  decide

/-- C9 (amended): for every branch without `%` and every `gerritOptions`
value (absent options included) whose message has no `_` and whose
notification values have no comma, decoding the encoded ref succeeds with base
`refs/for/<branch>` and with the options map the options imply: the valueless
publish-comments or no-publish-comments marker, `m` = the message when
present, `r` and `cc` = the reviewer and cc entries split on commas in order,
`notify`, `notify-to`, `notify-cc`, `notify-bcc` = the notification values in
order, and no other key. -/
theorem gerritPushRef_roundtrip (branch : Str) (opts : Option gerritOptions)
    (hb : 37 ∉ branch)
    (ho : ∀ o, opts = some o →
      (∀ c ∈ o.message, c < 256 ∧ c ≠ 95) ∧ 44 ∉ o.notify ∧ (∀ v ∈ o.notifyTo, 44 ∉ v) ∧
      (∀ v ∈ o.notifyCC, 44 ∉ v) ∧ (∀ v ∈ o.notifyBCC, 44 ∉ v)) :
    parseGerritRef (gerritPushRef branch opts) =
      some ⟨str "refs/for/" ++ branch, some (impliedOpts opts), none⟩ := by
  cases opts with
  | none =>
    have hmap : Opts.empty.set (str "no-publish-comments") none = impliedOpts none := by
      funext k
      by_cases k1 : k = str "publish-comments"
      · subst k1
        simp +decide [impliedOpts, Opts.set, Opts.empty]
      by_cases k2 : k = str "no-publish-comments"
      · subst k2
        simp +decide [impliedOpts, Opts.set, Opts.empty]
      simp [impliedOpts, Opts.set, Opts.empty, k1, k2, listEntry]
    rw [parseGerritRef_gerritPushRef branch none hb
      (by simp only [gerritSegments, List.mem_singleton]; intro seg h; subst h; decide)
      (by simp [gerritSegments])]
    simp only [gerritSegments, foldSegments,
      parseSegment_marker (str "no-publish-comments") (by decide), hmap]
  | some o =>
    obtain ⟨hmsg, hn, hto, hcc, hbcc⟩ := ho o rfl
    have hdec := gerritValueSegments_decodes o hmsg hn hto hcc hbcc
    have hflag : (if o.publishComments then str "publish-comments"
        else str "no-publish-comments") ≠ [] ∧
        44 ∉ (if o.publishComments then str "publish-comments"
          else str "no-publish-comments") ∧
        61 ∉ (if o.publishComments then str "publish-comments"
          else str "no-publish-comments") := by
      by_cases hp : o.publishComments = true <;> simp only [hp, if_true, if_false] <;> decide
    have hall : ∀ seg ∈ gerritSegments (some o), seg ≠ [] ∧ 44 ∉ seg := by
      intro seg hseg
      rcases List.mem_cons.1 hseg with h | h
      · rw [h]
        exact ⟨hflag.1, hflag.2.1⟩
      · have := hdec.2 seg h
        refine ⟨?_, this.2⟩
        intro e
        rw [e] at this
        simp at this
    rw [parseGerritRef_gerritPushRef branch (some o) hb hall (by simp [gerritSegments])]
    simp only [gerritSegments, foldSegments, parseSegment_marker _ hflag.2.2,
      foldSegments_keyValue (gerritValueSegments o) (fun seg h => (hdec.2 seg h).1), hdec.1,
      impliedOpts_eq o]

/-- Witness of C9 (amended): the options of `TestGerritPushRef` with
comma-separated reviewers. -/
theorem gerritPushRef_roundtrip_witness :
    parseGerritRef (gerritPushRef (str "master")
        (some ⟨false, str "This is a rebase on master!", [str "a@a.com,c@r.com"],
          [str "b@o.com,d@zombo.com"], str "NONE", [str "a@a.com"], [], []⟩)) =
      some ⟨str "refs/for/master",
        some (impliedOpts (some ⟨false, str "This is a rebase on master!",
          [str "a@a.com,c@r.com"], [str "b@o.com,d@zombo.com"], str "NONE", [str "a@a.com"],
          [], []⟩)), none⟩ :=
  gerritPushRef_roundtrip (str "master") _ (by decide)
    (fun o h => by
      cases h
      exact ⟨by decide, by decide, by decide, by decide, by decide⟩)


/-! ### The decoder on an arbitrary ref -/

/-- A string without the separator is a single piece. -/
theorem splitLoop_single (sep : Nat) (s : Str) (hne : s ≠ []) (h : sep ∉ s) :
    splitLoop sep s = [s] := by
  induction s with
  | nil => exact absurd rfl hne
  | cons c s ih =>
    have hc : c ≠ sep := fun e => h (e ▸ List.mem_cons_self _ _)
    have hs : sep ∉ s := fun e => h (List.mem_cons_of_mem _ e)
    cases s with
    | nil => simp [splitLoop, hc]
    | cons d t =>
      have := ih (by simp) hs
      simp [splitLoop, hc] at this ⊢
      rw [this]

/-- The first piece ends at the first separator. -/
theorem splitLoop_cons (sep : Nat) (s rest : Str) (h : sep ∉ s) :
    splitLoop sep (s ++ sep :: rest) = s :: splitLoop sep rest := by
  induction s with
  | nil => simp [splitLoop]
  | cons c s ih =>
    have hc : c ≠ sep := fun e => h (e ▸ List.mem_cons_self _ _)
    have hs : sep ∉ s := fun e => h (List.mem_cons_of_mem _ e)
    simp [splitLoop, hc, ih hs]

/-- When `indexByte` finds nothing, the byte does not occur. -/
theorem indexByte_none (s : Str) (c : Nat) (h : indexByte s c = none) : c ∉ s := by
  induction s with
  | nil => simp
  | cons b s ih =>
    by_cases hb : b = c
    · simp [indexByte, hb] at h
    · simp only [indexByte, hb, if_false, Option.map_eq_none'] at h
      simp only [List.mem_cons, not_or]
      exact ⟨fun e => hb e.symm, ih h⟩

/-- The loop of `parseGerritRef` ends on every option text, given one unit of
fuel per byte and one more, and processes the segments of the text in order. -/
theorem parseGerritLoop_eq (fuel : Nat) :
    ∀ (q : Str) (opts : Opts), q.length < fuel →
      parseGerritLoop fuel q opts = some (foldSegments (loopSegments q) opts) := by
  induction fuel with
  | zero =>
    intro q opts h
    omega
  | succ fuel ih =>
    intro q opts h
    by_cases hq : q = []
    · subst hq
      simp [parseGerritLoop, loopSegments, splitLoop, foldSegments]
    · cases hidx : indexByte q 44 with
      | none =>
        have hc := indexByte_none q 44 hidx
        rw [parseGerritLoop_single fuel q opts hq hc, loopSegments,
          splitLoop_single 44 q hq hc]
        simp only [foldSegments]
        cases parseSegment q opts <;> rfl
      | some i =>
        obtain ⟨h1, h2, h3⟩ := indexByte_some q 44 i hidx
        have hlen : (q.drop (i + 1)).length < fuel := by
          simp only [List.length_drop]
          omega
        rw [h1, parseGerritLoop_cons fuel _ _ opts h2, loopSegments, splitLoop_cons 44 _ _ h2]
        simp only [foldSegments]
        cases parseSegment (q.take i) opts with
        | error e => rfl
        | ok o => exact ih _ o hlen

/-- The decoder returns on every ref: without `%` the ref itself and no map;
otherwise the result of the loop body run over the segments after the first
`%`. -/
theorem parseGerritRef_eq (ref : Str) :
    parseGerritRef ref =
      some (match indexByte ref 37 with
        | none => ⟨ref, none, none⟩
        | some start =>
          match foldSegments (loopSegments (ref.drop (start + 1))) Opts.empty with
          | .error err => ⟨[], none, some err⟩
          | .ok opts => ⟨ref.take start, some opts, none⟩) := by
  unfold parseGerritRef
  cases indexByte ref 37 with
  | none => rfl
  | some start =>
    simp only [parseGerritLoop_eq _ _ Opts.empty (Nat.lt_succ_self _)]
    cases foldSegments (loopSegments (ref.drop (start + 1))) Opts.empty <;> rfl

/-- The segments the loop processes for joined segments are the segments. -/
theorem loopSegments_joinComma (segs : List Str) (h : Segments segs) :
    loopSegments (joinComma segs) = segs := by
  induction segs with
  | nil => rfl
  | cons seg rest ih =>
    obtain ⟨hne, hc⟩ := h seg (List.mem_cons_self _ _)
    have ih := ih (fun s hs => h s (List.mem_cons_of_mem _ hs))
    cases rest with
    | nil => exact splitLoop_single 44 seg hne hc
    | cons t rest =>
      unfold loopSegments at ih ⊢
      rw [joinComma, splitLoop_cons 44 seg _ hc, ih]

/-- The decoder on a ref built from a base without `%` and a list of option
segments. -/
theorem parseGerritRef_refOf (base : Str) (segs : List Str) (hbase : 37 ∉ base)
    (hsegs : Segments segs) :
    parseGerritRef (refOf base segs) =
      some (match foldSegments segs Opts.empty with
        | .error err => ⟨[], none, some err⟩
        | .ok opts => ⟨base, some opts, none⟩) := by
  have hidx := indexByte_append base (joinComma segs) 37 hbase
  have htake : (base ++ 37 :: joinComma segs).take base.length = base := by simp
  have hdrop : (base ++ 37 :: joinComma segs).drop (base.length + 1) = joinComma segs := by
    simp
  rw [parseGerritRef_eq]
  simp only [refOf, hidx, htake, hdrop, loopSegments_joinComma segs hsegs]

/-- The loop body over a concatenation of segment lists. -/
theorem foldSegments_append (a b : List Str) (opts : Opts) :
    foldSegments (a ++ b) opts =
      match foldSegments a opts with
      | .error err => .error err
      | .ok o => foldSegments b o := by
  induction a generalizing opts with
  | nil => rfl
  | cons seg a ih =>
    simp only [List.cons_append, foldSegments]
    cases parseSegment seg opts with
    | error e => rfl
    | ok o => exact ih o


/-! ### Message values and plain values -/

/-- A segment `k=v` with key `m` or `message`: the value is form-decoded after
every `_` is replaced by `+`. -/
theorem parseSegment_message (k v : Str) (opts : Opts)
    (hk : k = str "m" ∨ k = str "message") :
    parseSegment (k ++ 61 :: v) opts =
      match queryUnescape (replaceByte v 95 43) with
      | .error err => .error err
      | .ok d => .ok (opts.set k ((opts.get k).append d)) := by
  have hk61 : 61 ∉ k := by
    rcases hk with h | h <;> subst h <;> decide
  obtain ⟨h1, h2⟩ := takeWhile_dropWhile_key k v hk61
  rw [parseSegment_keyValue _ opts (by simp)]
  simp only [decodeSegment, h1, h2, hk, if_true, List.drop_succ_cons, List.drop_zero]
  cases queryUnescape (replaceByte v 95 43) <;> rfl

/-- A segment `k=v` with a key other than `m` and `message`: the value is
recorded as written. -/
theorem parseSegment_plain (k v : Str) (opts : Opts) (hk61 : 61 ∉ k)
    (hk : ¬ (k = str "m" ∨ k = str "message")) :
    parseSegment (k ++ 61 :: v) opts = .ok (opts.set k ((opts.get k).append v)) := by
  rw [parseSegment_keyValue _ opts (by simp), decodeSegment_plain k v hk61 hk]

/-- Values that differ only by exchanging `_` and `+` agree once every `_` is
replaced by `+`. -/
theorem replaceByte_exchange (v w : Str)
    (h : List.Forall₂ (fun a b => a = b ∨ ((a = 95 ∨ a = 43) ∧ (b = 95 ∨ b = 43))) v w) :
    replaceByte v 95 43 = replaceByte w 95 43 := by
  induction h with
  | nil => rfl
  | cons hab _ ih =>
    unfold replaceByte at ih ⊢
    simp only [List.map_cons, ih, List.cons.injEq, and_true]
    rcases hab with h | ⟨h1 | h1, h2 | h2⟩ <;> simp [*]

/-- Exchanging `_` and `+` brings no comma into a value. -/
theorem exchange_no_comma (v w : Str)
    (h : List.Forall₂ (fun a b => a = b ∨ ((a = 95 ∨ a = 43) ∧ (b = 95 ∨ b = 43))) v w)
    (hv : 44 ∉ v) : 44 ∉ w := by
  induction h with
  | nil => simp
  | cons hab _ ih =>
    simp only [List.mem_cons, not_or] at hv ⊢
    refine ⟨?_, ih hv.2⟩
    rcases hab with h | ⟨-, h | h⟩
    · rw [← h]
      exact hv.1
    · omega
    · omega

/-- The decoder on a ref with the segments `pre`, then one more segment, then
the segments `post`. -/
theorem parseGerritRef_at (base : Str) (pre post : List Str) (seg : Str)
    (hbase : 37 ∉ base) (hpre : Segments pre) (hpost : Segments post)
    (hseg : seg ≠ [] ∧ 44 ∉ seg) :
    parseGerritRef (refOf base (pre ++ seg :: post)) =
      some (match foldSegments pre Opts.empty with
        | .error err => ⟨[], none, some err⟩
        | .ok o =>
          match parseSegment seg o with
          | .error err => ⟨[], none, some err⟩
          | .ok o =>
            match foldSegments post o with
            | .error err => ⟨[], none, some err⟩
            | .ok o => ⟨base, some o, none⟩) := by
  have hall : Segments (pre ++ seg :: post) := by
    intro s hs
    rcases List.mem_append.1 hs with h | h
    · exact hpre s h
    · rcases List.mem_cons.1 h with h | h
      · exact h ▸ hseg
      · exact hpost s h
  rw [parseGerritRef_refOf base _ hbase hall, foldSegments_append]
  cases foldSegments pre Opts.empty with
  | error e => rfl
  | ok o =>
    simp only [foldSegments]
    cases parseSegment seg o <;> rfl

/-- C11: in a ref with a base without `%`, an option segment `k=v` with key
`m` or `message` (after the segments `pre`, before the segments `post`) is
decoded by replacing every `_` of `v` by `+` and form-decoding the result
(`+` becomes a space, `%XX` the byte `XX`); the decoded value is appended to
the list of `k`, and a value that does not decode makes the decoder fail.
Hence two raw values that differ only by exchanging `_` and `+` give the same
result. -/
theorem parseGerritRef_message (base : Str) (pre post : List Str) (k v : Str)
    (hbase : 37 ∉ base) (hpre : Segments pre) (hpost : Segments post)
    (hk : k = str "m" ∨ k = str "message") (hv : 44 ∉ v) :
    parseGerritRef (refOf base (pre ++ (k ++ 61 :: v) :: post)) =
      some (match foldSegments pre Opts.empty with
        | .error err => ⟨[], none, some err⟩
        | .ok o =>
          match queryUnescape (replaceByte v 95 43) with
          | .error err => ⟨[], none, some err⟩
          | .ok d =>
            match foldSegments post (o.set k ((o.get k).append d)) with
            | .error err => ⟨[], none, some err⟩
            | .ok o => ⟨base, some o, none⟩) ∧
    ∀ w, List.Forall₂ (fun a b => a = b ∨ ((a = 95 ∨ a = 43) ∧ (b = 95 ∨ b = 43))) v w →
      parseGerritRef (refOf base (pre ++ (k ++ 61 :: w) :: post)) =
        parseGerritRef (refOf base (pre ++ (k ++ 61 :: v) :: post)) := by
  have hk44 : 44 ∉ k := by
    rcases hk with h | h <;> subst h <;> decide
  have main : ∀ u, 44 ∉ u →
      parseGerritRef (refOf base (pre ++ (k ++ 61 :: u) :: post)) =
        some (match foldSegments pre Opts.empty with
          | .error err => ⟨[], none, some err⟩
          | .ok o =>
            match queryUnescape (replaceByte u 95 43) with
            | .error err => ⟨[], none, some err⟩
            | .ok d =>
              match foldSegments post (o.set k ((o.get k).append d)) with
              | .error err => ⟨[], none, some err⟩
              | .ok o => ⟨base, some o, none⟩) := by
    intro u hu
    rw [parseGerritRef_at base pre post _ hbase hpre hpost
      ⟨by simp, by simp [hk44, hu]⟩]
    cases foldSegments pre Opts.empty with
    | error e => rfl
    | ok o =>
      simp only [parseSegment_message k u o hk]
      cases queryUnescape (replaceByte u 95 43) <;> rfl
  refine ⟨main v hv, ?_⟩
  intro w hw
  have hw44 : 44 ∉ w := exchange_no_comma v w hw hv
  rw [main w hw44, main v hv, replaceByte_exchange v w hw]


/-- Witness of C11: the two message refs of `TestParseGerritRef` decode alike,
to the message `This is a rebase on master!`. -/
theorem parseGerritRef_message_witness :
    parseGerritRef (refOf (str "refs/for/master")
        ([] ++ (str "m" ++ 61 :: str "This+is+a+rebase+on+master%21") :: [])) =
      parseGerritRef (refOf (str "refs/for/master")
        ([] ++ (str "m" ++ 61 :: str "This_is_a_rebase_on_master%21") :: [])) ∧
    (parseGerritRef (str "refs/for/master%m=This_is_a_rebase_on_master%21")).map
        (fun p => (p.base, p.opts.map fun o => o (str "m"))) =
      some (str "refs/for/master", some (some (some [str "This is a rebase on master!"]))) :=
  ⟨(parseGerritRef_message (str "refs/for/master") [] [] (str "m")
      (str "This_is_a_rebase_on_master%21") (by decide) (by simp [Segments])
      (by simp [Segments]) (Or.inl rfl) (by decide)).2
      (str "This+is+a+rebase+on+master%21") (by decide),
    by decide⟩

/-- C13: in a ref with a base without `%`, an option segment `k=v` with a key
other than `m` and `message` and a value without comma (after the segments
`pre`, before the segments `post`) never fails and appends `v` exactly as
written to the list of `k`: `+`, `_`, `%` and further `=` of `v` are kept. -/
theorem parseGerritRef_plain (base : Str) (pre post : List Str) (k v : Str)
    (hbase : 37 ∉ base) (hpre : Segments pre) (hpost : Segments post)
    (hk61 : 61 ∉ k) (hk44 : 44 ∉ k) (hk : k ≠ str "m" ∧ k ≠ str "message") (hv : 44 ∉ v) :
    parseGerritRef (refOf base (pre ++ (k ++ 61 :: v) :: post)) =
      some (match foldSegments pre Opts.empty with
        | .error err => ⟨[], none, some err⟩
        | .ok o =>
          match foldSegments post (o.set k ((o.get k).append v)) with
          | .error err => ⟨[], none, some err⟩
          | .ok o => ⟨base, some o, none⟩) := by
  rw [parseGerritRef_at base pre post _ hbase hpre hpost ⟨by simp, by simp [hk44, hv]⟩]
  cases foldSegments pre Opts.empty with
  | error e => rfl
  | ok o =>
    simp only [parseSegment_plain k v o hk61 (by simp [hk.1, hk.2])]

/-- Witness of C13: the label ref of `TestParseGerritRef`; `Code-Review+1` is
recorded with its `+`, and a value `a=b%_` is recorded as written. -/
theorem parseGerritRef_plain_witness :
    parseGerritRef (refOf (str "refs/for/master")
        ([] ++ (str "l" ++ 61 :: str "Code-Review+1") :: [str "l=a=b%_"])) =
      some (match foldSegments [] Opts.empty with
        | .error err => ⟨[], none, some err⟩
        | .ok o =>
          match foldSegments [str "l=a=b%_"]
            (o.set (str "l") ((o.get (str "l")).append (str "Code-Review+1"))) with
          | .error err => ⟨[], none, some err⟩
          | .ok o => ⟨str "refs/for/master", some o, none⟩) ∧
    (parseGerritRef (str "refs/for/master%l=Code-Review+1,l=a=b%_")).map
        (fun p => (p.base, p.opts.map fun o => o (str "l"))) =
      some (str "refs/for/master", some (some (some [str "Code-Review+1", str "a=b%_"]))) :=
  ⟨parseGerritRef_plain (str "refs/for/master") [] [str "l=a=b%_"] (str "l")
      (str "Code-Review+1") (by decide) (by simp [Segments])
      (by simp only [Segments, List.mem_singleton]; intro seg h; subst h; decide)
      (by decide) (by decide) (by decide) (by decide),
    by decide⟩

/-! ### Failure of the decoder -/

/-- Replacing `_` by `+` changes neither the `%` nor the hexadecimal digits of
a string. -/
theorem hasBadEscape_replaceByte (v : Str) :
    hasBadEscape (replaceByte v 95 43) = hasBadEscape v := by
  have hx : ∀ a : Nat, ishex (if a = 95 then 43 else a) = ishex a := by
    intro a
    by_cases h : a = 95
    · subst h
      decide
    · simp [h]
  have hp : ∀ a : Nat, ((if a = 95 then 43 else a) == 37) = (a == 37) := by
    intro a
    by_cases h : a = 95
    · subst h
      decide
    · simp [h]
  have ht : ∀ s : Str, twoHex (s.map fun b => if b = 95 then 43 else b) = twoHex s := by
    intro s
    rcases s with _ | ⟨a, _ | ⟨b, t⟩⟩ <;> simp [twoHex, hx]
  induction v with
  | nil => rfl
  | cons c s ih =>
    unfold replaceByte at ih ⊢
    simp only [List.map_cons, hasBadEscape, hp, ht, ih]

/-- A hexadecimal digit is not `%`. -/
theorem ishex_ne_percent (a : Nat) (h : ishex a = true) : a ≠ 37 := by
  intro e
  subst e
  simp [ishex] at h

/-- A byte other than `%` starts no escape. -/
theorem hasBadEscape_cons (c : Nat) (s : Str) (hc : c ≠ 37) :
    hasBadEscape (c :: s) = hasBadEscape s := by
  have : (c == 37) = false := by simp [hc]
  rw [hasBadEscape, this]
  simp

/-- A `%` followed by two hexadecimal digits is a good escape. -/
theorem hasBadEscape_percent (a b : Nat) (t : Str) (ha : ishex a = true)
    (hb : ishex b = true) : hasBadEscape (37 :: a :: b :: t) = hasBadEscape t := by
  rw [hasBadEscape]
  simp only [twoHex, ha, hb, Bool.and_self, Bool.not_true, Bool.and_false, Bool.false_or]
  rw [hasBadEscape_cons a _ (ishex_ne_percent a ha),
    hasBadEscape_cons b _ (ishex_ne_percent b hb)]

/-- Go `url.QueryUnescape` fails exactly on the strings with a `%` that is not
followed by two hexadecimal digits. -/
theorem queryUnescape_error_iff (n : Nat) :
    ∀ w : Str, w.length ≤ n →
      ((∃ e, queryUnescape w = .error e) ↔ hasBadEscape w = true) := by
  induction n using Nat.strong_induction_on with
  | _ n ih =>
    intro w hw
    cases w with
    | nil => simp [queryUnescape, hasBadEscape]
    | cons c s =>
      by_cases hc : c = 37
      · subst hc
        rcases s with _ | ⟨a, _ | ⟨b, t⟩⟩
        · simp [queryUnescape, hasBadEscape, twoHex]
        · simp [queryUnescape, hasBadEscape, twoHex]
        · by_cases hab : ishex a = true ∧ ishex b = true
          · have ha := ishex_ne_percent a hab.1
            have hb := ishex_ne_percent b hab.2
            have iht := ih t.length (by simp at hw ⊢; omega) t le_rfl
            rw [queryUnescape_percent a b t hab.1 hab.2]
            have hbad := hasBadEscape_percent a b t hab.1 hab.2
            rw [hbad, ← iht]
            cases queryUnescape t <;> simp
          · have hf : (ishex a && ishex b) = false := by
              cases h1 : ishex a <;> cases h2 : ishex b <;> simp_all
            have hbad : hasBadEscape (37 :: a :: b :: t) = true := by
              rw [hasBadEscape]
              simp [twoHex, hf]
            have hq : queryUnescape (37 :: a :: b :: t) = .error [37, a, b] := by
              conv_lhs => unfold queryUnescape
              simp [hf]
            simp [hq, hbad]
      · have ihs := ih s.length (by simp at hw ⊢; omega) s le_rfl
        rw [queryUnescape_cons c s hc]
        have hbad := hasBadEscape_cons c s hc
        rw [hbad, ← ihs]
        cases queryUnescape s <;> simp


/-- One iteration of the loop fails exactly on a `key=value` segment with key
`m` or `message` whose value has a bad escape, whatever the map is. -/
theorem parseSegment_error_iff (seg : Str) (opts : Opts) :
    (∃ e, parseSegment seg opts = .error e) ↔ badMessageSegment seg := by
  unfold badMessageSegment
  by_cases h61 : 61 ∈ seg
  · rw [parseSegment_keyValue seg opts h61]
    unfold decodeSegment segKey segValue
    dsimp only
    generalize List.takeWhile (· ≠ 61) seg = k
    generalize List.drop 1 (List.dropWhile (· ≠ 61) seg) = v
    have hq := queryUnescape_error_iff _ (replaceByte v 95 43) le_rfl
    rw [hasBadEscape_replaceByte] at hq
    by_cases hk : k = str "m" ∨ k = str "message"
    · rw [if_pos hk, ← hq]
      cases queryUnescape (replaceByte v 95 43) <;> simp [h61, hk]
    · rw [if_neg hk]
      simp [hk]
  · have hidx := indexByte_eq_none seg 61 h61
    simp only [parseSegment, hidx, h61, false_and, iff_false]
    cases opts.get seg <;> simp

/-- The loop body run over segments fails exactly when one of them is a
message segment with a bad escape. -/
theorem foldSegments_error_iff (segs : List Str) :
    ∀ opts : Opts, (∃ e, foldSegments segs opts = .error e) ↔
      ∃ seg ∈ segs, badMessageSegment seg := by
  induction segs with
  | nil =>
    intro opts
    simp [foldSegments]
  | cons seg rest ih =>
    intro opts
    have hseg := parseSegment_error_iff seg opts
    simp only [foldSegments, List.mem_cons, exists_eq_or_imp, ← hseg]
    cases hp : parseSegment seg opts with
    | error e => simp
    | ok o => simpa using ih o

/-- The non-empty pieces between commas are the non-empty segments the loop
processes. -/
theorem mem_splitComma_iff (q seg : Str) (hne : seg ≠ []) :
    seg ∈ splitComma q ↔ seg ∈ loopSegments q := by
  have key : splitComma q = loopSegments q ∨ splitComma q = loopSegments q ++ [[]] := by
    unfold loopSegments
    induction q with
    | nil => simp [splitComma, splitLoop]
    | cons c s ih =>
      by_cases hc : c = 44
      · rcases ih with h | h <;> simp [splitComma, splitLoop, hc, h]
      · rcases ih with h | h
        · cases hs : splitLoop 44 s with
          | nil =>
            rw [hs] at h
            exact absurd h (splitComma_ne_nil s)
          | cons x xs =>
            rw [hs] at h
            simp [splitComma, splitLoop, hc, h, hs]
        · cases hs : splitLoop 44 s with
          | nil =>
            rw [hs] at h
            simp [splitComma, splitLoop, hc, h, hs]
          | cons x xs =>
            rw [hs] at h
            simp [splitComma, splitLoop, hc, h, hs]
  rcases key with h | h
  · rw [h]
  · rw [h]
    simp only [List.mem_append, List.mem_singleton, hne, or_false]

/-- C12: `parseGerritRef` returns on every ref, and fails exactly when some
`key=value` segment with key `m` or `message` has a value with a `%` that is
not followed by two hexadecimal digits; on failure the base is empty and the
map is nil, whatever earlier segments held; a ref without `m` or `message`
segment does not fail. -/
theorem parseGerritRef_fails_iff (ref : Str) :
    ∃ p, parseGerritRef ref = some p ∧
      (p.err ≠ none ↔ ∃ seg ∈ optionSegments ref, badMessageSegment seg) ∧
      (p.err ≠ none → p.base = [] ∧ p.opts = none) ∧
      ((∀ seg ∈ optionSegments ref,
          ¬ (61 ∈ seg ∧ (segKey seg = str "m" ∨ segKey seg = str "message"))) →
        p.err = none) := by
  have hbadne : ∀ seg, badMessageSegment seg → seg ≠ [] := by
    intro seg h e
    have := h.1
    simp [e] at this
  have hiff : ∀ q : Str, (∃ seg ∈ splitComma q, badMessageSegment seg) ↔
      ∃ seg ∈ loopSegments q, badMessageSegment seg := by
    intro q
    constructor
    · rintro ⟨seg, hs, hb⟩
      exact ⟨seg, (mem_splitComma_iff q seg (hbadne seg hb)).1 hs, hb⟩
    · rintro ⟨seg, hs, hb⟩
      exact ⟨seg, (mem_splitComma_iff q seg (hbadne seg hb)).2 hs, hb⟩
  have hmain : ∃ p, parseGerritRef ref = some p ∧
      (p.err ≠ none ↔ ∃ seg ∈ optionSegments ref, badMessageSegment seg) ∧
      (p.err ≠ none → p.base = [] ∧ p.opts = none) := by
    rw [parseGerritRef_eq]
    cases hidx : indexByte ref 37 with
    | none =>
      have hno := indexByte_none ref 37 hidx
      have hdw : List.dropWhile (· ≠ 37) ref = [] := by
        rw [List.dropWhile_eq_nil_iff]
        intro x hx
        simp only [ne_eq, decide_eq_true_eq]
        exact fun e => hno (e ▸ hx)
      refine ⟨⟨ref, none, none⟩, rfl, ?_, ?_⟩
      · unfold optionSegments
        rw [hdw]
        simp [splitComma, badMessageSegment]
      · simp
    | some start =>
      obtain ⟨h1, -, -⟩ := indexByte_some ref 37 start hidx
      have hmem : 37 ∈ ref := by
        rw [h1]
        simp
      obtain ⟨i, hi, -, hdrop⟩ := indexByte_takeWhile ref 37 hmem
      rw [hidx] at hi
      cases hi
      have herr := foldSegments_error_iff (loopSegments (ref.drop (start + 1))) Opts.empty
      unfold optionSegments
      rw [← hdrop, hiff, ← herr]
      dsimp only
      generalize foldSegments (loopSegments (ref.drop (start + 1))) Opts.empty = r
      cases r with
      | error e => exact ⟨_, rfl, by simp, by simp⟩
      | ok o => exact ⟨_, rfl, by simp, by simp⟩
  obtain ⟨p, hp, h1, h2⟩ := hmain
  refine ⟨p, hp, h1, h2, ?_⟩
  intro hno
  by_contra herr
  obtain ⟨seg, hs, hb⟩ := h1.1 herr
  exact hno seg hs ⟨hb.1, hb.2.1⟩


/-! ### The base, the valueless marker and the publish-comments flag -/

/-- C15: `parseGerritRef` returns on every ref, and when it succeeds the base
is the text before the first `%`: a prefix of the ref without `%`, at least as
long as every prefix without `%`.  Without `%` in the ref the base is the whole
ref and the map is nil; with a `%` the ref is the base, the `%` and the option
text, and the map is not nil. -/
theorem parseGerritRef_base (ref : Str) :
    ∃ p, parseGerritRef ref = some p ∧
      (p.err = none →
        p.base = baseOf ref ∧ 37 ∉ p.base ∧ p.base <+: ref ∧
        (∀ pre : Str, pre <+: ref → 37 ∉ pre → pre.length ≤ p.base.length) ∧
        (37 ∉ ref → p.base = ref ∧ p.opts = none) ∧
        (37 ∈ ref → (∃ suffix, ref = p.base ++ 37 :: suffix) ∧ p.opts ≠ none)) := by
  rw [parseGerritRef_eq]
  cases hidx : indexByte ref 37 with
  | none =>
    have hno := indexByte_none ref 37 hidx
    have htw : List.takeWhile (· ≠ 37) ref = ref := by
      rw [List.takeWhile_eq_self_iff]
      intro x hx
      simp only [ne_eq, decide_eq_true_eq]
      exact fun e => hno (e ▸ hx)
    refine ⟨⟨ref, none, none⟩, rfl, fun _ => ⟨?_, hno, List.prefix_refl _, ?_, ?_, ?_⟩⟩
    · exact htw.symm
    · intro pre hpre _
      exact hpre.length_le
    · intro _
      exact ⟨rfl, rfl⟩
    · intro h
      exact absurd h hno
  | some start =>
    obtain ⟨h1, h2, h3⟩ := indexByte_some ref 37 start hidx
    have hmem : 37 ∈ ref := by
      rw [h1]
      simp
    obtain ⟨i, hi, htake, -⟩ := indexByte_takeWhile ref 37 hmem
    rw [hidx] at hi
    cases hi
    dsimp only
    generalize foldSegments (loopSegments (ref.drop (start + 1))) Opts.empty = r
    cases r with
    | error e => exact ⟨_, rfl, by simp⟩
    | ok o =>
      refine ⟨⟨ref.take start, some o, none⟩, rfl,
        fun _ => ⟨htake, h2, List.take_prefix _ _, ?_, ?_, ?_⟩⟩
      · intro pre hpre hno
        show pre.length ≤ (ref.take start).length
        by_contra hlt
        have hlt : (ref.take start).length < pre.length := by omega
        have hp2 : ref.take start ++ [37] <+: ref := by
          conv_rhs => rw [h1]
          exact ⟨ref.drop (start + 1), by simp⟩
        rcases List.prefix_or_prefix_of_prefix hpre hp2 with h | h
        · have hle := h.length_le
          have heq : pre = ref.take start ++ [37] :=
            h.eq_of_length (by
              simp only [List.length_append, List.length_singleton] at hle ⊢
              omega)
          exact hno (by rw [heq]; simp)
        · obtain ⟨t, ht⟩ := h
          exact hno (by rw [← ht]; simp)
      · intro h
        exact absurd hmem h
      · intro _
        exact ⟨⟨ref.drop (start + 1), h1⟩, by simp⟩


/-- The key a `key=value` segment decodes to is the text before its first
`=`. -/
theorem decodeSegment_key (seg : Str) (kv : Str × Str) (h : decodeSegment seg = .ok kv) :
    kv.1 = segKey seg := by
  unfold decodeSegment segKey at *
  dsimp only at h
  generalize List.takeWhile (· ≠ 61) seg = k at h ⊢
  generalize List.drop 1 (List.dropWhile (· ≠ 61) seg) = v at h
  split_ifs at h
  · cases hq : queryUnescape (replaceByte v 95 43) with
    | error e =>
      rw [hq] at h
      cases h
    | ok w =>
      rw [hq] at h
      cases h
      rfl
  · cases h
    rfl

/-- Reading a key after an assignment to another key. -/
theorem Opts.get_set_ne (opts : Opts) (k k' : Str) (v : Slice) (h : k' ≠ k) :
    (opts.set k v).get k' = opts.get k' := by
  simp [Opts.get, Opts.set, h]

/-- A key that has no value list before a run of segments, none of which is a
`key=value` segment with that key, has none after it. -/
theorem foldSegments_get_none (k : Str) (segs : List Str)
    (hfresh : ∀ seg ∈ segs, 61 ∈ seg → segKey seg ≠ k) :
    ∀ o0 o : Opts, foldSegments segs o0 = .ok o → o0.get k = none → o.get k = none := by
  induction segs with
  | nil =>
    intro o0 o h h0
    simp only [foldSegments, Except.ok.injEq] at h
    rw [← h]
    exact h0
  | cons seg rest ih =>
    intro o0 o h h0
    have ih := ih (fun s hs => hfresh s (List.mem_cons_of_mem _ hs))
    simp only [foldSegments] at h
    cases hp : parseSegment seg o0 with
    | error e => simp [hp] at h
    | ok o1 =>
      rw [hp] at h
      refine ih o1 o h ?_
      by_cases h61 : 61 ∈ seg
      · have hne := hfresh seg (List.mem_cons_self _ _) h61
        rw [parseSegment_keyValue seg o0 h61] at hp
        cases hd : decodeSegment seg with
        | error e => simp [hd] at hp
        | ok kv =>
          simp only [hd, Except.ok.injEq] at hp
          have hkey := decodeSegment_key seg kv hd
          rw [← hp, Opts.get_set_ne _ _ _ _ (by rw [hkey]; exact fun e => hne e.symm)]
          exact h0
      · have hidx := indexByte_eq_none seg 61 h61
        simp only [parseSegment, hidx] at hp
        by_cases hk : k = seg
        · subst hk
          simp only [h0, Except.ok.injEq] at hp
          rw [← hp]
          simp [Opts.get, Opts.set]
        · cases hg : o0.get seg with
          | none =>
            simp only [hg, Except.ok.injEq] at hp
            rw [← hp, Opts.get_set_ne _ _ _ _ hk]
            exact h0
          | some v =>
            simp only [hg, Except.ok.injEq] at hp
            rw [← hp, Opts.get_set_ne _ _ _ _ hk]
            exact h0

/-- Counterexample to C14: after the segment `l=x`, the valueless segment `l`
and the segment `l=` both append the empty string to the list of `l`; the two
refs decode to the same map, with the single key `l`, and
`gerritOptionsEqual` reports the maps equal. -/
theorem parseGerritRef_marker_counterexample :
    ∃ m : Opts,
      parseGerritRef (str "refs/for/master%l=x,l") =
        some ⟨str "refs/for/master", some m, none⟩ ∧
      parseGerritRef (str "refs/for/master%l=x,l=") =
        some ⟨str "refs/for/master", some m, none⟩ ∧
      m (str "l") = some (some [str "x", []]) ∧
      KeysOf m [str "l"] ∧
      gerritOptionsEqual [str "l"] [str "l"] m m = true := by
  refine ⟨(Opts.empty.set (str "l") (some [str "x"])).set (str "l") (some [str "x", []]),
    rfl, rfl, by decide, ⟨by simp, ?_⟩, by decide⟩
  intro k
  by_cases hk : k = str "l" <;> simp [Opts.set, Opts.empty, hk]

/-- C14 (amended): in a ref with a base without `%` whose preceding segments
decode successfully and hold no `key=value` segment with key `k`, a final
valueless segment `k` is recorded as the nil slice under `k` and a final
segment `k=` as the list with the empty string; `gerritOptionsEqual` reports
the two maps different. -/
theorem parseGerritRef_marker (base : Str) (pre : List Str) (k : Str) (o : Opts)
    (hbase : 37 ∉ base) (hpre : Segments pre) (hk : k ≠ [] ∧ 61 ∉ k ∧ 44 ∉ k)
    (hdec : parseGerritRef (refOf base pre) = some ⟨base, some o, none⟩)
    (hfresh : ∀ seg ∈ pre, 61 ∈ seg → segKey seg ≠ k) :
    parseGerritRef (refOf base (pre ++ [k])) = some ⟨base, some (o.set k none), none⟩ ∧
    parseGerritRef (refOf base (pre ++ [k ++ [61]])) =
      some ⟨base, some (o.set k (some [[]])), none⟩ ∧
    ∀ keys1 keys2, KeysOf (o.set k none) keys1 → KeysOf (o.set k (some [[]])) keys2 →
      gerritOptionsEqual keys1 keys2 (o.set k none) (o.set k (some [[]])) = false := by
  have hfold : foldSegments pre Opts.empty = .ok o := by
    rw [parseGerritRef_refOf base pre hbase hpre] at hdec
    cases hf : foldSegments pre Opts.empty with
    | error e => simp [hf] at hdec
    | ok o' =>
      simp only [hf, Option.some.injEq, GerritParse.mk.injEq, true_and, and_true] at hdec
      rw [hdec]
  have hget : o.get k = none :=
    foldSegments_get_none k pre hfresh Opts.empty o hfold (by simp [Opts.get, Opts.empty])
  refine ⟨?_, ?_, ?_⟩
  · rw [parseGerritRef_at base pre [] k hbase hpre (by simp [Segments]) ⟨hk.1, hk.2.2⟩, hfold]
    simp only [parseSegment, indexByte_eq_none k 61 hk.2.1, hget, foldSegments]
  · rw [parseGerritRef_at base pre [] (k ++ [61]) hbase hpre (by simp [Segments])
      ⟨by simp, by simp [hk.2.2]⟩, hfold]
    have hseg : parseSegment (k ++ [61]) o = .ok (o.set k (some [[]])) := by
      by_cases hm : k = str "m" ∨ k = str "message"
      · rw [parseSegment_message k [] o hm]
        simp [replaceByte, queryUnescape, hget, Slice.append]
      · rw [parseSegment_plain k [] o hk.2.1 hm]
        simp [hget, Slice.append]
    simp only [hseg, foldSegments]
  · intro keys1 keys2 h1 _
    have hmem : k ∈ keys1 := (h1.2 k).2 (by simp [Opts.set])
    unfold gerritOptionsEqual
    split_ifs
    · rfl
    · rw [List.all_eq_false]
      exact ⟨k, hmem, by simp [Opts.set, Opts.get]⟩

/-- Witness of C14 (amended): after `r=a@a.com`, the ref ending in the
valueless `wip` holds the nil slice under `wip`. -/
theorem parseGerritRef_marker_witness :
    parseGerritRef (refOf (str "refs/for/master") ([str "r=a@a.com"] ++ [str "wip"])) =
      some ⟨str "refs/for/master",
        some ((Opts.empty.set (str "r") (some [str "a@a.com"])).set (str "wip") none), none⟩ :=
  (parseGerritRef_marker (str "refs/for/master") [str "r=a@a.com"] (str "wip")
    (Opts.empty.set (str "r") (some [str "a@a.com"])) (by decide)
    (by simp only [Segments, List.mem_singleton]; intro seg h; subst h; decide)
    (by decide) rfl
    (by simp only [List.mem_singleton]; intro seg h; subst h; decide)).1


/-- Cutting a string at its first `%`. -/
theorem takeWhile_dropWhile_percent (base rest : Str) (h : 37 ∉ base) :
    (base ++ 37 :: rest).dropWhile (· ≠ 37) = 37 :: rest := by
  induction base with
  | nil => simp [List.dropWhile]
  | cons c base ih =>
    have hc : c ≠ 37 := fun e => h (e ▸ List.mem_cons_self _ _)
    have ih := ih (fun e => h (List.mem_cons_of_mem _ e))
    simpa [List.dropWhile, hc] using ih

/-- A string without comma is a single piece. -/
theorem splitComma_single (s : Str) (h : 44 ∉ s) : splitComma s = [s] := by
  induction s with
  | nil => rfl
  | cons c s ih =>
    have hc : c ≠ 44 := fun e => h (e ▸ List.mem_cons_self _ _)
    have hs : 44 ∉ s := fun e => h (List.mem_cons_of_mem _ e)
    simp [splitComma, hc, ih hs]

/-- The first piece of a split ends at the first comma. -/
theorem splitComma_cons (s rest : Str) (h : 44 ∉ s) :
    splitComma (s ++ 44 :: rest) = s :: splitComma rest := by
  induction s with
  | nil => simp [splitComma]
  | cons c s ih =>
    have hc : c ≠ 44 := fun e => h (e ▸ List.mem_cons_self _ _)
    have hs : 44 ∉ s := fun e => h (List.mem_cons_of_mem _ e)
    simp [splitComma, hc, ih hs]

/-- Splitting joined segments gives the segments back. -/
theorem splitComma_joinComma (segs : List Str) (hne : segs ≠ [])
    (h : ∀ seg ∈ segs, 44 ∉ seg) : splitComma (joinComma segs) = segs := by
  induction segs with
  | nil => exact absurd rfl hne
  | cons seg rest ih =>
    have hc := h seg (List.mem_cons_self _ _)
    cases rest with
    | nil => exact splitComma_single seg hc
    | cons t rest =>
      rw [joinComma, splitComma_cons seg _ hc,
        ih (by simp) (fun s hs => h s (List.mem_cons_of_mem _ hs))]

/-- The `key=value` options of the encoder contain `=`, and no comma when the
notification values have none. -/
theorem gerritValueSegments_shape (o : gerritOptions) (hn : 44 ∉ o.notify)
    (hto : ∀ v ∈ o.notifyTo, 44 ∉ v) (hcc : ∀ v ∈ o.notifyCC, 44 ∉ v)
    (hbcc : ∀ v ∈ o.notifyBCC, 44 ∉ v) :
    ∀ seg ∈ gerritValueSegments o, 61 ∈ seg ∧ 44 ∉ seg := by
  have hsplit : ∀ l : List Str, ∀ v ∈ l.flatMap splitComma, 44 ∉ v := by
    intro l v hv
    obtain ⟨s, -, hs⟩ := List.mem_flatMap.1 hv
    exact splitComma_no_comma s v hs
  have hkey : ∀ (key v : Str), 61 ∈ key → 44 ∉ key → 44 ∉ v →
      61 ∈ key ++ v ∧ 44 ∉ key ++ v := by
    intro key v h1 h2 h3
    simp only [List.mem_append, not_or]
    exact ⟨Or.inl h1, h2, h3⟩
  intro seg hseg
  unfold gerritValueSegments at hseg
  simp only [List.mem_append, List.mem_map] at hseg
  rcases hseg with (((((h | ⟨v, hv, rfl⟩) | ⟨v, hv, rfl⟩) | h) | ⟨v, hv, rfl⟩) |
    ⟨v, hv, rfl⟩) | ⟨v, hv, rfl⟩
  · by_cases hm : o.message = []
    · simp [hm] at h
    · simp only [ne_eq, hm, not_false_eq_true, if_true, List.mem_singleton] at h
      rw [h]
      exact hkey _ _ (by decide) (by decide) (queryEscape_no_comma _)
  · exact hkey _ _ (by decide) (by decide) (hsplit _ v hv)
  · exact hkey _ _ (by decide) (by decide) (hsplit _ v hv)
  · by_cases hm : o.notify = []
    · simp [hm] at h
    · simp only [ne_eq, hm, not_false_eq_true, if_true, List.mem_singleton] at h
      rw [h]
      exact hkey _ _ (by decide) (by decide) hn
  · exact hkey _ _ (by decide) (by decide) (hto v hv)
  · exact hkey _ _ (by decide) (by decide) (hcc v hv)
  · exact hkey _ _ (by decide) (by decide) (hbcc v hv)

/-- Counterexample to C16: for the branch `a%b` and absent options the option
segments of the encoded ref hold neither `no-publish-comments` nor
`publish-comments`, and the decoder finds neither key; for the notification
recipient `x,publish-comments` and a false flag they hold both. -/
theorem gerritPushRef_flag_counterexample :
    (optionSegments (gerritPushRef (str "a%b") none)).count (str "no-publish-comments") = 0 ∧
    (optionSegments (gerritPushRef (str "a%b") none)).count (str "publish-comments") = 0 ∧
    ((parseGerritRef (gerritPushRef (str "a%b") none)).bind (·.opts)).map
      (fun o => (o (str "no-publish-comments"), o (str "publish-comments"))) =
      some (none, none) ∧
    (optionSegments (gerritPushRef (str "master")
      (some ⟨false, [], [], [], [], [str "x,publish-comments"], [], []⟩))).count
        (str "no-publish-comments") = 1 ∧
    (optionSegments (gerritPushRef (str "master")
      (some ⟨false, [], [], [], [], [str "x,publish-comments"], [], []⟩))).count
        (str "publish-comments") = 1 := by
  decide

/-- C16 (amended): the encoded ref is always `refs/for/<branch>`, a `%`, then
the option `publish-comments` when the flag is true and `no-publish-comments`
when it is false or the options are absent, followed by the end of the ref or
a comma; when the branch has no `%` and the notification values no comma, the
option segments of the encoded ref hold that option exactly once and the
other of the two not at all. -/
theorem gerritPushRef_flag (branch : Str) (opts : Option gerritOptions) :
    (∃ rest, gerritPushRef branch opts =
        str "refs/for/" ++ branch ++ 37 :: (flagOption opts ++ rest) ∧
      (rest = [] ∨ rest.head? = some 44)) ∧
    (37 ∉ branch →
      (∀ o, opts = some o → 44 ∉ o.notify ∧ (∀ v ∈ o.notifyTo, 44 ∉ v) ∧
        (∀ v ∈ o.notifyCC, 44 ∉ v) ∧ (∀ v ∈ o.notifyBCC, 44 ∉ v)) →
      (optionSegments (gerritPushRef branch opts)).count (flagOption opts) = 1 ∧
      (optionSegments (gerritPushRef branch opts)).count (otherFlagOption opts) = 0) := by
  have hsegs : gerritSegments opts =
      flagOption opts :: (match opts with
        | some o => gerritValueSegments o
        | none => []) := by
    cases opts <;> rfl
  have hflag : 61 ∉ flagOption opts ∧ 44 ∉ flagOption opts ∧ 61 ∉ otherFlagOption opts ∧
      otherFlagOption opts ≠ flagOption opts := by
    rcases opts with _ | o
    · decide
    · by_cases hp : o.publishComments = true <;>
        simp only [flagOption, otherFlagOption, hp, if_true, if_false] <;> decide
  refine ⟨?_, ?_⟩
  · obtain ⟨kv, hkv⟩ : ∃ kv, gerritSegments opts = flagOption opts :: kv := ⟨_, hsegs⟩
    unfold gerritPushRef
    rw [hkv]
    rcases kv with _ | ⟨t, rest⟩
    · exact ⟨[], by simp [joinComma], Or.inl rfl⟩
    · exact ⟨44 :: joinComma (t :: rest), by simp [joinComma], Or.inr rfl⟩
  · intro hb ho
    have hpre : 37 ∉ str "refs/for/" ++ branch := by
      simp only [List.mem_append, not_or]
      exact ⟨by decide, hb⟩
    have hdw := takeWhile_dropWhile_percent (str "refs/for/" ++ branch)
      (joinComma (gerritSegments opts)) hpre
    have hkv : ∀ seg ∈ (match opts with
        | some o => gerritValueSegments o
        | none => []), 61 ∈ seg ∧ 44 ∉ seg := by
      rcases opts with _ | o
      · simp
      · obtain ⟨h1, h2, h3, h4⟩ := ho o rfl
        exact gerritValueSegments_shape o h1 h2 h3 h4
    have hall : ∀ seg ∈ gerritSegments opts, 44 ∉ seg := by
      rw [hsegs]
      intro seg hseg
      rcases List.mem_cons.1 hseg with h | h
      · rw [h]
        exact hflag.2.1
      · exact (hkv seg h).2
    have hopt : optionSegments (gerritPushRef branch opts) = gerritSegments opts := by
      unfold optionSegments gerritPushRef
      rw [hdw]
      simp only [List.drop_succ_cons, List.drop_zero]
      exact splitComma_joinComma _ (by rw [hsegs]; simp) hall
    rw [hopt, hsegs]
    have h1 : (match opts with
        | some o => gerritValueSegments o
        | none => []).count (flagOption opts) = 0 := by
      rw [List.count_eq_zero]
      intro hmem
      exact hflag.1 (hkv _ hmem).1
    have h2 : (match opts with
        | some o => gerritValueSegments o
        | none => []).count (otherFlagOption opts) = 0 := by
      rw [List.count_eq_zero]
      intro hmem
      exact hflag.2.2.1 (hkv _ hmem).1
    refine ⟨?_, ?_⟩
    · rw [List.count_cons_self, h1]
    · rw [List.count_cons_of_ne hflag.2.2.2, h2]

/-- Witness of C16 (amended): with the flag set and a reviewer, the option
segments hold `publish-comments` once and `no-publish-comments` not at all. -/
theorem gerritPushRef_flag_witness :
    (optionSegments (gerritPushRef (str "master")
      (some ⟨true, [], [str "a@a.com"], [], [], [], [], []⟩))).count
        (flagOption (some ⟨true, [], [str "a@a.com"], [], [], [], [], []⟩)) = 1 ∧
    (optionSegments (gerritPushRef (str "master")
      (some ⟨true, [], [str "a@a.com"], [], [], [], [], []⟩))).count
        (otherFlagOption (some ⟨true, [], [str "a@a.com"], [], [], [], [], []⟩)) = 0 :=
  (gerritPushRef_flag (str "master")
    (some ⟨true, [], [str "a@a.com"], [], [], [], [], []⟩)).2 (by decide)
    (fun o h => by
      cases h
      exact ⟨by decide, by decide, by decide, by decide⟩)


/-! ### The status parser -/

/-- The loop of `parseGGStatus` ends on every input, given one unit of fuel
per byte and one more, and runs its body over the lines of the input. -/
theorem parseGGStatusLoop_eq (fuel : Nat) :
    ∀ (out : Str) (st : StatusState), out.length < fuel →
      parseGGStatusLoop fuel out st = foldStatus (statusLines out) st := by
  induction fuel with
  | zero =>
    intro out st h
    omega
  | succ fuel ih =>
    intro out st h
    by_cases hq : out = []
    · subst hq
      simp [parseGGStatusLoop, statusLines, splitLoop, foldStatus]
    · have hpos : out.length > 0 := List.length_pos.2 hq
      have hfuel : ([] : Str).length < fuel := by
        simp only [List.length_nil]
        omega
      conv_lhs => unfold parseGGStatusLoop
      simp only [hpos, if_true]
      cases hidx : indexByte out 10 with
      | none =>
        have hc := indexByte_none out 10 hidx
        simp only [statusLines, splitLoop_single 10 out hq hc, foldStatus]
        cases statusStep out st with
        | error f => rfl
        | ok st1 =>
          simp only [ih [] st1 hfuel, statusLines, splitLoop, foldStatus]
      | some i =>
        obtain ⟨h1, h2, h3⟩ := indexByte_some out 10 i hidx
        have hlen : (out.drop (i + 1)).length < fuel := by
          simp only [List.length_drop]
          omega
        have hsl : statusLines out = out.take i :: statusLines (out.drop (i + 1)) := by
          conv_lhs => rw [h1]
          exact splitLoop_cons 10 _ _ h2
        simp only [hsl, foldStatus]
        cases statusStep (out.take i) st with
        | error f => rfl
        | ok st1 => exact ih _ st1 hlen

/-- The parser runs the body of its loop over the lines of the input, from
no entries, `canAddFrom` false and line number 1. -/
theorem parseGGStatus_eq (out : Str) :
    parseGGStatus out =
      match foldStatus (statusLines out) ⟨[], false, 1, []⟩ with
      | .error f => .error f
      | .ok st => .ok (st.lines, st.errs) := by
  unfold parseGGStatus
  rw [parseGGStatusLoop_eq _ _ _ (Nat.lt_succ_self _)]

/-- The lines of a stream built from newline-free lines are those lines. -/
theorem statusLines_unlines (ls : List Str) (h : ∀ l ∈ ls, 10 ∉ l) :
    statusLines (unlines ls) = ls := by
  induction ls with
  | nil => rfl
  | cons l ls ih =>
    have hl := h l (List.mem_cons_self _ _)
    have ih := ih (fun x hx => h x (List.mem_cons_of_mem _ hx))
    have hu : unlines (l :: ls) = l ++ 10 :: unlines ls := by
      simp [unlines]
    unfold statusLines at ih ⊢
    rw [hu, splitLoop_cons 10 l _ hl, ih]

/-- The body of the loop over a concatenation of line lists. -/
theorem foldStatus_append (a b : List Str) (st : StatusState) :
    foldStatus (a ++ b) st =
      match foldStatus a st with
      | .error f => .error f
      | .ok st => foldStatus b st := by
  induction a generalizing st with
  | nil => rfl
  | cons l a ih =>
    simp only [List.cons_append, foldStatus]
    cases statusStep l st with
    | error f => rfl
    | ok st1 => exact ih st1

/-- Every line is malformed, a continuation line or a new-entry line. -/
theorem line_cases (l : Str) : isMalformed l ∨ isContinuation l ∨ isNewEntry l := by
  unfold isMalformed isContinuation isNewEntry
  by_cases h1 : l.length < 3
  · exact Or.inl (Or.inl h1)
  · by_cases h2 : l.getD 1 0 = 32
    · by_cases h3 : l.getD 0 0 = 32
      · exact Or.inr (Or.inl ⟨by omega, h2, h3⟩)
      · exact Or.inr (Or.inr ⟨by omega, h2, h3⟩)
    · exact Or.inl (Or.inr h2)

/-- A malformed line is reported and resets `canAddFrom`. -/
theorem statusStep_malformed (l : Str) (st : StatusState) (h : isMalformed l) :
    statusStep l st = .ok ⟨st.lines, false, st.lineno + 1,
      st.errs ++ [if l.length < 3 then .short st.lineno l else .noSpace st.lineno l]⟩ := by
  unfold statusStep
  by_cases h1 : l.length < 3
  · simp only [h1, if_true]
  · have h2 : l.getD 1 0 ≠ 32 := by
      rcases h with h | h
      · exact absurd h h1
      · exact h
    simp only [h1, h2, if_true, if_false, ne_eq, not_false_eq_true]

/-- A new-entry line with a fresh name appends an entry and sets
`canAddFrom`. -/
theorem statusStep_new (l : Str) (st : StatusState) (h : isNewEntry l)
    (hf : hasGGStatusLine st.lines (l.drop 2) = false) :
    statusStep l st = .ok ⟨st.lines ++ [⟨l.getD 0 0, l.drop 2, []⟩], true, st.lineno + 1,
      st.errs⟩ := by
  obtain ⟨h1, h2, h3⟩ := h
  have h1' : ¬ l.length < 3 := by omega
  simp only [statusStep, h1', h2, h3, hf, if_true, if_false, ne_eq, not_true_eq_false, not_false_eq_true, Bool.not_true,
    Bool.not_false, Bool.false_eq_true]

/-- A new-entry line with a name already present is reported as a
duplicate. -/
theorem statusStep_duplicate (l : Str) (st : StatusState) (h : isNewEntry l)
    (hf : hasGGStatusLine st.lines (l.drop 2) = true) :
    statusStep l st = .ok ⟨st.lines, false, st.lineno + 1,
      st.errs ++ [.duplicate st.lineno (l.drop 2)]⟩ := by
  obtain ⟨h1, h2, h3⟩ := h
  have h1' : ¬ l.length < 3 := by omega
  simp only [statusStep, h1', h2, h3, hf, if_true, if_false, ne_eq, not_true_eq_false, not_false_eq_true, Bool.not_true,
    Bool.not_false, Bool.false_eq_true]

/-- A continuation line when `canAddFrom` is not set is reported. -/
theorem statusStep_badFrom (l : Str) (st : StatusState) (h : isContinuation l)
    (hc : st.canAddFrom = false) :
    statusStep l st = .ok ⟨st.lines, false, st.lineno + 1,
      st.errs ++ [.badFrom st.lineno (l.drop 2)]⟩ := by
  obtain ⟨h1, h2, h3⟩ := h
  have h1' : ¬ l.length < 3 := by omega
  simp only [statusStep, h1', h2, h3, hc, if_true, if_false, ne_eq, not_true_eq_false, not_false_eq_true, Bool.not_true,
    Bool.not_false, Bool.false_eq_true]

/-- A continuation line when `canAddFrom` is set writes the `from` path of
the last entry. -/
theorem statusStep_from (l : Str) (st : StatusState) (h : isContinuation l)
    (hc : st.canAddFrom = true) (es : List ggStatusLine) (e : ggStatusLine)
    (hl : st.lines = es ++ [e]) :
    statusStep l st = .ok ⟨es ++ [{ e with from_ := l.drop 2 }], false, st.lineno + 1,
      st.errs⟩ := by
  obtain ⟨h1, h2, h3⟩ := h
  have h1' : ¬ l.length < 3 := by omega
  simp only [statusStep, h1', h2, h3, hc, hl, if_true, if_false, ne_eq, not_true_eq_false, not_false_eq_true, Bool.not_true,
    Bool.not_false, Bool.false_eq_true,
    List.getLast?_append, List.getLast?_singleton, List.dropLast_concat]
  rfl


/-- Whether a name is taken depends on the names of the entries only. -/
theorem hasGGStatusLine_eq (lines : List ggStatusLine) (name : Str) :
    hasGGStatusLine lines name = (lines.map pairOf).any (fun p => decide (p.2 = name)) := by
  induction lines with
  | nil => rfl
  | cons e lines ih =>
    by_cases h : e.name = name <;> simp [hasGGStatusLine, pairOf, h, ih]

/-- One iteration of the loop from a state that satisfies the invariant: it
does not fault, keeps the invariant, counts the line, and appends the letter
and name of the line exactly when the line is a new-entry line with a fresh
name. -/
theorem statusStep_spec (l : Str) (st : StatusState) (hinv : StatusInv st) :
    ∃ r, statusStep l st = .ok r ∧ StatusInv r ∧ r.lineno = st.lineno + 1 ∧
      r.lines.map pairOf = st.lines.map pairOf ++
        (if isNewEntry l ∧ hasGGStatusLine st.lines (l.drop 2) = false then [entryOf l]
          else []) := by
  rcases line_cases l with h | h | h
  · have hn : ¬ isNewEntry l := by
      unfold isMalformed at h
      unfold isNewEntry
      rintro ⟨h1, h2, -⟩
      rcases h with h | h
      · omega
      · exact h h2
    refine ⟨_, statusStep_malformed l st h, ?_, rfl, ?_⟩
    · intro hc
      cases hc
    · simp [hn]
  · have hn : ¬ isNewEntry l := by
      unfold isNewEntry
      rintro ⟨-, -, h3⟩
      exact h3 h.2.2
    cases hc : st.canAddFrom with
    | false =>
      refine ⟨_, statusStep_badFrom l st h hc, ?_, rfl, ?_⟩
      · intro hc
        cases hc
      · simp [hn]
    | true =>
      have hne := hinv hc
      obtain ⟨es, e, hl⟩ : ∃ es e, st.lines = es ++ [e] :=
        ⟨st.lines.dropLast, st.lines.getLast hne, (List.dropLast_append_getLast hne).symm⟩
      refine ⟨_, statusStep_from l st h hc es e hl, ?_, rfl, ?_⟩
      · intro hc
        cases hc
      · simp [hn, hl, pairOf]
  · cases hf : hasGGStatusLine st.lines (l.drop 2) with
    | false =>
      refine ⟨_, statusStep_new l st h hf, ?_, rfl, ?_⟩
      · intro _
        simp
      · simp [h, entryOf, pairOf]
    | true =>
      refine ⟨_, statusStep_duplicate l st h hf, ?_, rfl, ?_⟩
      · intro hc
        cases hc
      · simp

/-- The body of the loop run over lines from a state that satisfies the
invariant: it does not fault, counts the lines, and appends to the letters and
names collected so far those of the new-entry lines, each name once, first
occurrence first, names already collected left out. -/
theorem foldStatus_pairs (ls : List Str) :
    ∀ st, StatusInv st →
      ∃ r, foldStatus ls st = .ok r ∧ StatusInv r ∧ r.lineno = st.lineno + ls.length ∧
        r.lines.map pairOf = st.lines.map pairOf ++
          (firstByName (newEntries ls)).filter
            (fun q => !hasGGStatusLine st.lines q.2) := by
  induction ls with
  | nil =>
    intro st hinv
    exact ⟨st, rfl, hinv, rfl, by simp [newEntries, firstByName]⟩
  | cons l rest ih =>
    intro st hinv
    obtain ⟨r1, hstep, hinv1, hno1, hp1⟩ := statusStep_spec l st hinv
    obtain ⟨r, hfold, hinvr, hnor, hpr⟩ := ih r1 hinv1
    refine ⟨r, by simp only [foldStatus, hstep, hfold], hinvr, ?_, ?_⟩
    · rw [hnor, hno1, List.length_cons]
      omega
    · rw [hpr, hp1]
      have hhas : ∀ n, hasGGStatusLine r1.lines n =
          (hasGGStatusLine st.lines n ||
            (if isNewEntry l ∧ hasGGStatusLine st.lines (l.drop 2) = false then
              decide ((entryOf l).2 = n) else false)) := by
        intro n
        rw [hasGGStatusLine_eq, hasGGStatusLine_eq st.lines n, hp1, List.any_append]
        split_ifs <;> simp
      by_cases hnew : isNewEntry l
      · have hne : newEntries (l :: rest) = entryOf l :: newEntries rest := by
          simp [newEntries, List.filter_cons, hnew]
        cases hf : hasGGStatusLine st.lines (l.drop 2) with
        | false =>
          have hf' : hasGGStatusLine st.lines (entryOf l).2 = false := hf
          simp only [hne, firstByName, hnew, hf, and_self, if_true, List.filter_cons, hf',
            Bool.not_false, List.append_assoc, List.singleton_append, List.filter_filter]
          congr 2
          apply List.filter_congr
          intro q _
          rw [hhas]
          simp only [hnew, hf, and_self, if_true]
          by_cases hq : (entryOf l).2 = q.2
          · simp [hq]
          · have hq' : ¬ q.2 = (entryOf l).2 := fun e => hq e.symm
            simp [hq, hq']
        | true =>
          have hf' : hasGGStatusLine st.lines (entryOf l).2 = true := hf
          simp only [hne, firstByName, hf, Bool.true_eq_false, and_false, if_false,
            List.append_nil, List.filter_cons, hf', Bool.not_true, List.filter_filter]
          congr 1
          apply List.filter_congr
          intro q _
          rw [hhas]
          simp only [hf, Bool.true_eq_false, and_false, if_false, Bool.or_false]
          by_cases hq : q.2 = (entryOf l).2
          · rw [hq, hf']
            simp
          · simp [hq]
      · have hne : newEntries (l :: rest) = newEntries rest := by
          simp [newEntries, List.filter_cons, hnew]
        simp only [hne, hnew, false_and, if_false, List.append_nil]
        congr 1
        apply List.filter_congr
        intro q _
        rw [hhas]
        simp [hnew]


/-- What is kept of a list of letters and names is part of the list. -/
theorem firstByName_subset (xs : List (Nat × Str)) : ∀ p ∈ firstByName xs, p ∈ xs := by
  induction xs with
  | nil => simp [firstByName]
  | cons x xs ih =>
    intro p hp
    simp only [firstByName, List.mem_cons, List.mem_filter] at hp
    rcases hp with h | ⟨h, -⟩
    · exact h ▸ List.mem_cons_self _ _
    · exact List.mem_cons_of_mem _ (ih p h)

/-- The names kept are pairwise distinct. -/
theorem firstByName_nodup (xs : List (Nat × Str)) :
    ((firstByName xs).map (·.2)).Nodup := by
  induction xs with
  | nil => simp [firstByName]
  | cons x xs ih =>
    simp only [firstByName, List.map_cons, List.nodup_cons]
    refine ⟨?_, ?_⟩
    · intro hmem
      obtain ⟨q, hq, hq2⟩ := List.mem_map.1 hmem
      have := (List.mem_filter.1 hq).2
      simp [hq2] at this
    · exact ih.sublist ((List.filter_sublist _).map _)

/-- The name of a new-entry line is not empty. -/
theorem newEntries_name (ls : List Str) : ∀ p ∈ newEntries ls, p.2 ≠ [] := by
  intro p hp
  simp only [newEntries, List.mem_map, List.mem_filter, decide_eq_true_eq] at hp
  obtain ⟨l, ⟨-, hl⟩, rfl⟩ := hp
  have h3 := hl.1
  intro he
  have hlen : (l.drop 2).length = 0 := by
    simp only [entryOf] at he
    rw [he]
    rfl
  simp only [List.length_drop] at hlen
  omega

/-- The state after the lines of a stream: the body of the loop run over the
lines does not fault, and the parser returns its entries and errors. -/
theorem parseGGStatus_unlines (ls : List Str) (h : ∀ l ∈ ls, 10 ∉ l) :
    ∃ st, foldStatus ls ⟨[], false, 1, []⟩ = .ok st ∧ StatusInv st ∧
      st.lineno = ls.length + 1 ∧ parseGGStatus (unlines ls) = .ok (st.lines, st.errs) := by
  obtain ⟨st, hfold, hinv, hno, -⟩ :=
    foldStatus_pairs ls ⟨[], false, 1, []⟩ (by intro hc; cases hc)
  refine ⟨st, hfold, hinv, ?_, ?_⟩
  · rw [hno]
    simp only
    omega
  · rw [parseGGStatus_eq, statusLines_unlines ls h, hfold]

/-- C20: `parseGGStatus` returns on every input; the letters and names of its
entries are those of the well-formed non-continuation lines of the input, in
input order, with every later repetition of a name removed, so each entry has
the first character of the first such line with its name as letter; every
returned name is non-empty. -/
theorem parseGGStatus_first_seen (out : Str) :
    ∃ es errs, parseGGStatus out = .ok (es, errs) ∧
      es.map pairOf = firstByName (newEntries (statusLines out)) ∧
      es.map (·.name) = (firstByName (newEntries (statusLines out))).map (·.2) ∧
      ∀ e ∈ es, e.name ≠ [] := by
  obtain ⟨st, hfold, -, -, hp⟩ :=
    foldStatus_pairs (statusLines out) ⟨[], false, 1, []⟩ (by intro hc; cases hc)
  have hpairs : st.lines.map pairOf = firstByName (newEntries (statusLines out)) := by
    rw [hp]
    simp [hasGGStatusLine]
  refine ⟨st.lines, st.errs, by rw [parseGGStatus_eq, hfold], hpairs, ?_, ?_⟩
  · rw [← hpairs, List.map_map]
    rfl
  · intro e he
    have hmem : pairOf e ∈ firstByName (newEntries (statusLines out)) := by
      rw [← hpairs]
      exact List.mem_map_of_mem _ he
    exact newEntries_name _ _ (firstByName_subset _ _ hmem)


/-- The body of the loop run over lines keeps the entries before the last one
collected so far, and the last one too unless `canAddFrom` is set; reported
errors are added after the earlier ones. -/
theorem foldStatus_extends (ls : List Str) :
    ∀ (st : StatusState) (base rest : List ggStatusLine), st.lines = base ++ rest →
      (st.canAddFrom = true → rest ≠ []) →
      ∃ r more errs, foldStatus ls st = .ok r ∧ r.lines = base ++ more ∧
        r.errs = st.errs ++ errs := by
  induction ls with
  | nil =>
    intro st base rest hl _
    exact ⟨st, rest, [], rfl, hl, by simp⟩
  | cons l ls ih =>
    intro st base rest hl hc
    have step : ∃ r1 rest1 errs1, statusStep l st = .ok r1 ∧ r1.lines = base ++ rest1 ∧
        (r1.canAddFrom = true → rest1 ≠ []) ∧ r1.errs = st.errs ++ errs1 := by
      rcases line_cases l with h | h | h
      · exact ⟨_, rest, _, statusStep_malformed l st h, hl, (by intro hc; cases hc), rfl⟩
      · cases hcf : st.canAddFrom with
        | false =>
          exact ⟨_, rest, _, statusStep_badFrom l st h hcf, hl, (by intro hc; cases hc), rfl⟩
        | true =>
          have hne := hc hcf
          have hl' : st.lines = (base ++ rest.dropLast) ++ [rest.getLast hne] := by
            rw [hl, List.append_assoc, List.dropLast_append_getLast hne]
          exact ⟨_, rest.dropLast ++ [{ rest.getLast hne with from_ := l.drop 2 }], [],
            statusStep_from l st h hcf _ _ hl', by simp, (by intro hc; cases hc), by simp⟩
      · cases hf : hasGGStatusLine st.lines (l.drop 2) with
        | false =>
          exact ⟨_, rest ++ [⟨l.getD 0 0, l.drop 2, []⟩], [], statusStep_new l st h hf,
            by simp [hl], by simp, by simp⟩
        | true =>
          exact ⟨_, rest, _, statusStep_duplicate l st h hf, hl, (by intro hc; cases hc), rfl⟩
    obtain ⟨r1, rest1, errs1, hstep, hl1, hc1, he1⟩ := step
    obtain ⟨r, more, errs, hfold, hlr, her⟩ := ih r1 base rest1 hl1 hc1
    exact ⟨r, more, errs1 ++ errs, by simp only [foldStatus, hstep, hfold], hlr,
      by rw [her, he1, List.append_assoc]⟩

/-- C17: after lines `pre`, a new-entry line with a fresh name followed by a
well-formed continuation line with name `name` gives the entries of `pre`
and one entry more, with the letter and name of the first line and `name` as
`from` path; the continuation line reports no error, appends no entry and
changes no other entry, and later lines keep that entry. -/
theorem parseGGStatus_continuation (pre post : List Str) (l name : Str)
    (es0 : List ggStatusLine) (errs0 : List StatusErr)
    (hlines : ∀ x ∈ pre ++ l :: (32 :: 32 :: name) :: post, 10 ∉ x) (hname : name ≠ [])
    (hl : isNewEntry l) (hpre : parseGGStatus (unlines pre) = .ok (es0, errs0))
    (hfresh : hasGGStatusLine es0 (l.drop 2) = false) :
    parseGGStatus (unlines (pre ++ [l])) =
      .ok (es0 ++ [⟨l.getD 0 0, l.drop 2, []⟩], errs0) ∧
    parseGGStatus (unlines (pre ++ [l, 32 :: 32 :: name])) =
      .ok (es0 ++ [⟨l.getD 0 0, l.drop 2, name⟩], errs0) ∧
    ∃ more errs, parseGGStatus (unlines (pre ++ l :: (32 :: 32 :: name) :: post)) =
      .ok (es0 ++ ⟨l.getD 0 0, l.drop 2, name⟩ :: more, errs0 ++ errs) := by
  have hcont : isContinuation (32 :: 32 :: name) := by
    cases name with
    | nil => exact absurd rfl hname
    | cons c t => exact ⟨by simp, rfl, rfl⟩
  have hpre_lines : ∀ x ∈ pre, 10 ∉ x := fun x hx => hlines x (List.mem_append_left _ hx)
  obtain ⟨st0, hfold0, -, -, hparse0⟩ := parseGGStatus_unlines pre hpre_lines
  rw [hpre] at hparse0
  simp only [Except.ok.injEq, Prod.mk.injEq] at hparse0
  obtain ⟨hes, herrs⟩ := hparse0
  have hstep1 := statusStep_new l st0 hl (by rw [← hes]; exact hfresh)
  have hstep2 := statusStep_from (32 :: 32 :: name)
    ⟨st0.lines ++ [⟨l.getD 0 0, l.drop 2, []⟩], true, st0.lineno + 1, st0.errs⟩ hcont rfl
    st0.lines ⟨l.getD 0 0, l.drop 2, []⟩ rfl
  have hrun : ∀ tail : List Str, (∀ x ∈ pre ++ tail, 10 ∉ x) →
      parseGGStatus (unlines (pre ++ tail)) =
        match foldStatus tail st0 with
        | .error f => .error f
        | .ok st => .ok (st.lines, st.errs) := by
    intro tail ht
    rw [parseGGStatus_eq, statusLines_unlines _ ht, foldStatus_append, hfold0]
  refine ⟨?_, ?_, ?_⟩
  · rw [hrun [l] (fun x hx => hlines x (by
      simp only [List.mem_append, List.mem_singleton, List.mem_cons] at hx ⊢
      tauto))]
    simp only [foldStatus, hstep1, hes, herrs]
  · rw [hrun [l, 32 :: 32 :: name] (fun x hx => hlines x (by
      simp only [List.mem_append, List.mem_singleton, List.mem_cons] at hx ⊢
      tauto))]
    simp only [foldStatus, hstep1, hstep2, hes, herrs]
    rfl
  · rw [hrun (l :: (32 :: 32 :: name) :: post) hlines]
    obtain ⟨r, more, errs, hfold, hlr, her⟩ := foldStatus_extends post
      ⟨st0.lines ++ [{ (⟨l.getD 0 0, l.drop 2, []⟩ : ggStatusLine) with
        from_ := List.drop 2 (32 :: 32 :: name) }], false, st0.lineno + 1 + 1, st0.errs⟩
      (st0.lines ++ [⟨l.getD 0 0, l.drop 2, name⟩]) [] (by simp) (by intro hc; cases hc)
    refine ⟨more, errs, ?_⟩
    simp only [foldStatus, hstep1, hstep2, hfold, hlr, her, hes, herrs, List.append_assoc,
      List.singleton_append]

/-- Witness of C17: `A foo.txt` followed by `  bar.txt` yields the single
entry with letter `A`, name `foo.txt` and `from` path `bar.txt`. -/
theorem parseGGStatus_continuation_witness :
    parseGGStatus (unlines ([] ++ [str "A foo.txt", 32 :: 32 :: str "bar.txt"])) =
      .ok ([] ++ [⟨(str "A foo.txt").getD 0 0, (str "A foo.txt").drop 2, str "bar.txt"⟩],
        []) ∧
    parseGGStatus (str "A foo.txt\n  bar.txt\n") =
      .ok ([⟨65, str "foo.txt", str "bar.txt"⟩], []) :=
  ⟨(parseGGStatus_continuation [] [] (str "A foo.txt") (str "bar.txt") [] [] (by decide)
      (by decide) (by decide) (by decide) (by decide)).2.1,
    by decide⟩


/-- C18: `parseGGStatus` returns on every input and the names of its entries
are pairwise distinct; after lines `pre`, a new-entry line whose name is the
name of an entry already collected is reported as a duplicate with its line
number, appends nothing and leaves the entries as they are, and the letters
and names collected before it stay in place whatever lines follow. -/
theorem parseGGStatus_distinct (out : Str) :
    (∃ es errs, parseGGStatus out = .ok (es, errs) ∧ (es.map (·.name)).Nodup) ∧
    ∀ (pre post : List Str) (l : Str) (es0 : List ggStatusLine) (errs0 : List StatusErr),
      (∀ x ∈ pre ++ l :: post, 10 ∉ x) → isNewEntry l →
      parseGGStatus (unlines pre) = .ok (es0, errs0) →
      hasGGStatusLine es0 (l.drop 2) = true →
      parseGGStatus (unlines (pre ++ [l])) =
        .ok (es0, errs0 ++ [.duplicate (pre.length + 1) (l.drop 2)]) ∧
      ∃ es errs more, parseGGStatus (unlines (pre ++ l :: post)) = .ok (es, errs) ∧
        es.map pairOf = es0.map pairOf ++ more := by
  refine ⟨?_, ?_⟩
  · obtain ⟨st, hfold, -, -, hp⟩ :=
      foldStatus_pairs (statusLines out) ⟨[], false, 1, []⟩ (by intro hc; cases hc)
    have hpairs : st.lines.map pairOf = firstByName (newEntries (statusLines out)) := by
      rw [hp]
      simp [hasGGStatusLine]
    refine ⟨st.lines, st.errs, by rw [parseGGStatus_eq, hfold], ?_⟩
    have hn := firstByName_nodup (newEntries (statusLines out))
    rw [← hpairs, List.map_map] at hn
    exact hn
  · intro pre post l es0 errs0 hlines hl hpre hdup
    have hpre_lines : ∀ x ∈ pre, 10 ∉ x := fun x hx => hlines x (List.mem_append_left _ hx)
    obtain ⟨st0, hfold0, hinv0, hno0, hparse0⟩ := parseGGStatus_unlines pre hpre_lines
    rw [hpre] at hparse0
    simp only [Except.ok.injEq, Prod.mk.injEq] at hparse0
    obtain ⟨hes, herrs⟩ := hparse0
    have hstep := statusStep_duplicate l st0 hl (by rw [← hes]; exact hdup)
    refine ⟨?_, ?_⟩
    · rw [parseGGStatus_eq, statusLines_unlines _ (fun x hx => hlines x (by
        simp only [List.mem_append, List.mem_singleton, List.mem_cons] at hx ⊢
        tauto)), foldStatus_append, hfold0]
      simp only [foldStatus, hstep, hes, herrs, hno0]
    · obtain ⟨r, hfold, -, -, hp⟩ := foldStatus_pairs (l :: post) st0 hinv0
      refine ⟨r.lines, r.errs, _, ?_, by rw [hp, ← hes]⟩
      rw [parseGGStatus_eq, statusLines_unlines _ hlines, foldStatus_append, hfold0]
      simp only [hfold]

/-- Witness of C18: `A foo.txt` followed by `M foo.txt` keeps the single entry
with letter `A` and reports a duplicate at line 2. -/
theorem parseGGStatus_distinct_witness :
    parseGGStatus (unlines ([str "A foo.txt"] ++ [str "M foo.txt"])) =
      .ok ([⟨65, str "foo.txt", []⟩],
        [] ++ [.duplicate ([str "A foo.txt"].length + 1) ((str "M foo.txt").drop 2)]) :=
  ((parseGGStatus_distinct []).2 [str "A foo.txt"] [] (str "M foo.txt")
    [⟨65, str "foo.txt", []⟩] [] (by decide) (by decide) (by decide) (by decide)).1

/-- One iteration of the loop from two states with the same entries, and with
the same `canAddFrom` unless the line is no continuation line: the same
entries and the same `canAddFrom` afterwards, and as many errors added. -/
theorem statusStep_congr (l : Str) (st st' : StatusState) (hlines : st.lines = st'.lines)
    (hc : st.canAddFrom = st'.canAddFrom ∨ ¬ isContinuation l) (hinv : StatusInv st) :
    ∃ r r', statusStep l st = .ok r ∧ statusStep l st' = .ok r' ∧ r.lines = r'.lines ∧
      r.canAddFrom = r'.canAddFrom ∧ StatusInv r ∧
      r.errs.length + st'.errs.length = r'.errs.length + st.errs.length := by
  rcases line_cases l with h | h | h
  · refine ⟨_, _, statusStep_malformed l st h, statusStep_malformed l st' h, hlines, rfl,
      (by intro hc; cases hc), ?_⟩
    simp only [List.length_append, List.length_singleton]
    omega
  · have hceq : st.canAddFrom = st'.canAddFrom := by
      rcases hc with hc | hc
      · exact hc
      · exact absurd h hc
    cases hcf : st.canAddFrom with
    | false =>
      refine ⟨_, _, statusStep_badFrom l st h hcf,
        statusStep_badFrom l st' h (by rw [← hceq]; exact hcf), hlines, rfl,
        (by intro hc; cases hc), ?_⟩
      simp only [List.length_append, List.length_singleton]
      omega
    | true =>
      have hne := hinv hcf
      have hl : st.lines = st.lines.dropLast ++ [st.lines.getLast hne] :=
        (List.dropLast_append_getLast hne).symm
      refine ⟨_, _, statusStep_from l st h hcf _ _ hl,
        statusStep_from l st' h (by rw [← hceq]; exact hcf) _ _ (by rw [← hlines]; exact hl),
        rfl, rfl, (by intro hc; cases hc), ?_⟩
      simp only
      omega
  · cases hf : hasGGStatusLine st.lines (l.drop 2) with
    | false =>
      refine ⟨_, _, statusStep_new l st h hf,
        statusStep_new l st' h (by rw [← hlines]; exact hf), by simp [hlines], rfl,
        (by intro _; simp), ?_⟩
      simp only
      omega
    | true =>
      refine ⟨_, _, statusStep_duplicate l st h hf,
        statusStep_duplicate l st' h (by rw [← hlines]; exact hf), hlines, rfl,
        (by intro hc; cases hc), ?_⟩
      simp only [List.length_append, List.length_singleton]
      omega

/-- The body of the loop run over lines from two states with the same
entries and the same `canAddFrom`: the same entries afterwards, and as many
errors added. -/
theorem foldStatus_congr (ls : List Str) :
    ∀ st st' : StatusState, st.lines = st'.lines → st.canAddFrom = st'.canAddFrom →
      StatusInv st →
      ∃ r r', foldStatus ls st = .ok r ∧ foldStatus ls st' = .ok r' ∧ r.lines = r'.lines ∧
        r.errs.length + st'.errs.length = r'.errs.length + st.errs.length := by
  induction ls with
  | nil =>
    intro st st' hl _ _
    exact ⟨st, st', rfl, rfl, hl, by omega⟩
  | cons l ls ih =>
    intro st st' hl hc hinv
    obtain ⟨r1, r1', h1, h1', hl1, hc1, hinv1, he1⟩ :=
      statusStep_congr l st st' hl (Or.inl hc) hinv
    obtain ⟨r, r', h2, h2', hl2, he2⟩ := ih r1 r1' hl1 hc1 hinv1
    refine ⟨r, r', by simp only [foldStatus, h1, h2], by simp only [foldStatus, h1', h2'],
      hl2, ?_⟩
    omega

/-- C19: for newline-free lines `P`, a malformed line `L` and lines `S` that
do not begin with a continuation line, the parser returns on `P L S` and on
`P S` with the same entries, and reports exactly one error more on `P L S`;
the line `L` itself adds one error and no entry to what `P` gives. -/
theorem parseGGStatus_tolerant (P S : List Str) (L : Str)
    (hlines : ∀ x ∈ P ++ L :: S, 10 ∉ x) (hL : isMalformed L)
    (hS : ∀ l, S.head? = some l → ¬ isContinuation l) :
    ∃ es errs1 errs2 es0 errs0 err,
      parseGGStatus (unlines (P ++ L :: S)) = .ok (es, errs1) ∧
      parseGGStatus (unlines (P ++ S)) = .ok (es, errs2) ∧
      errs1.length = errs2.length + 1 ∧
      parseGGStatus (unlines P) = .ok (es0, errs0) ∧
      parseGGStatus (unlines (P ++ [L])) = .ok (es0, errs0 ++ [err]) := by
  have hP : ∀ x ∈ P, 10 ∉ x := fun x hx => hlines x (List.mem_append_left _ hx)
  have hPS : ∀ x ∈ P ++ S, 10 ∉ x := fun x hx => hlines x (by
    simp only [List.mem_append, List.mem_cons] at hx ⊢
    tauto)
  have hPL : ∀ x ∈ P ++ [L], 10 ∉ x := fun x hx => hlines x (by
    simp only [List.mem_append, List.mem_singleton, List.mem_cons] at hx ⊢
    tauto)
  obtain ⟨st0, hfold0, hinv0, -, hparse0⟩ := parseGGStatus_unlines P hP
  have hstepL := statusStep_malformed L st0 hL
  have hrun : ∀ tail : List Str, (∀ x ∈ P ++ tail, 10 ∉ x) →
      parseGGStatus (unlines (P ++ tail)) =
        match foldStatus tail st0 with
        | .error f => .error f
        | .ok st => .ok (st.lines, st.errs) := by
    intro tail ht
    rw [parseGGStatus_eq, statusLines_unlines _ ht, foldStatus_append, hfold0]
  have hmain : ∃ r r', foldStatus S st0 = .ok r ∧
      foldStatus S ⟨st0.lines, false, st0.lineno + 1,
        st0.errs ++ [if L.length < 3 then .short st0.lineno L else .noSpace st0.lineno L]⟩ =
        .ok r' ∧ r.lines = r'.lines ∧ r'.errs.length = r.errs.length + 1 := by
    cases S with
    | nil => exact ⟨_, _, rfl, rfl, rfl, by simp⟩
    | cons l rest =>
      have hl : ¬ isContinuation l := hS l rfl
      obtain ⟨r1, r1', h1, h1', hl1, hc1, hinv1, he1⟩ := statusStep_congr l st0
        ⟨st0.lines, false, st0.lineno + 1,
          st0.errs ++ [if L.length < 3 then .short st0.lineno L else .noSpace st0.lineno L]⟩
        rfl (Or.inr hl) hinv0
      obtain ⟨r, r', h2, h2', hl2, he2⟩ := foldStatus_congr rest r1 r1' hl1 hc1 hinv1
      refine ⟨r, r', by simp only [foldStatus, h1, h2], by simp only [foldStatus, h1', h2'],
        hl2, ?_⟩
      simp only [List.length_append, List.length_singleton] at he1
      omega
  obtain ⟨r, r', hr, hr', hlr, her⟩ := hmain
  refine ⟨r.lines, r'.errs, r.errs, st0.lines, st0.errs,
    (if L.length < 3 then .short st0.lineno L else .noSpace st0.lineno L),
    ?_, ?_, her, hparse0, ?_⟩
  · rw [hrun (L :: S) hlines]
    simp only [foldStatus, hstepL, hr', hlr]
  · rw [hrun S hPS, hr]
  · rw [hrun [L] hPL]
    simp only [foldStatus, hstepL]

/-- Witness of C19: the malformed line `ABfoo.txt` between `A a.txt` and
`M b.txt` changes no entry and adds one error. -/
theorem parseGGStatus_tolerant_witness :
    ∃ es errs1 errs2 es0 errs0 err,
      parseGGStatus (unlines ([str "A a.txt"] ++ str "ABfoo.txt" :: [str "M b.txt"])) =
        .ok (es, errs1) ∧
      parseGGStatus (unlines ([str "A a.txt"] ++ [str "M b.txt"])) = .ok (es, errs2) ∧
      errs1.length = errs2.length + 1 ∧
      parseGGStatus (unlines [str "A a.txt"]) = .ok (es0, errs0) ∧
      parseGGStatus (unlines ([str "A a.txt"] ++ [str "ABfoo.txt"])) =
        .ok (es0, errs0 ++ [err]) :=
  parseGGStatus_tolerant [str "A a.txt"] [str "M b.txt"] (str "ABfoo.txt") (by decide)
    (by decide) (by decide)

/-! ### The loop of `inferCommitFiles` -/

/-- The loop of `inferCommitFiles` on entries the switch handles: the paths
appended and the three counts. -/
theorem inferCommitLoop_eq (entries : List statusEntry) :
    ∀ st : CommitState, (∀ ent ∈ entries, ent.handled = true) →
      inferCommitLoop entries st = some
        ⟨st.files ++ selectedPaths entries,
          st.missing + entries.countP (fun ent => ent.isMissing),
          st.missingStaged + entries.countP statusEntry.stagedMissing,
          st.unmerged + entries.countP statusEntry.countedUnmerged⟩ := by
  induction entries with
  | nil => intro st _; simp [inferCommitLoop, selectedPaths]
  | cons ent rest ih =>
    intro st h
    have hent : ent.handled = true := h ent (List.mem_cons_self _ _)
    have hrest : ∀ e ∈ rest, e.handled = true := fun e he => h e (List.mem_cons_of_mem _ he)
    unfold inferCommitLoop
    by_cases hm : ent.isMissing = true
    · rw [if_pos hm, ih _ hrest]
      by_cases hc : ent.code0 = 32
      · simp [selectedPaths, statusEntry.selected, statusEntry.stagedMissing,
          statusEntry.countedUnmerged, hm, hc, List.countP_cons, List.filter_cons]
        omega
      · simp [selectedPaths, statusEntry.selected, statusEntry.stagedMissing,
          statusEntry.countedUnmerged, hm, hc, List.countP_cons, List.filter_cons]
        omega
    · rw [if_neg hm]
      by_cases hs : (ent.isAdded || ent.isModified || ent.isRemoved || ent.isCopied
          || ent.isRenamed) = true
      · rw [if_pos hs, ih _ hrest]
        have hsel : ent.selected = true := by
          simp only [statusEntry.selected, hs, Bool.and_true, Bool.not_eq_true'] 
          simpa using hm
        have hun : ent.countedUnmerged = false := by
          simp only [statusEntry.countedUnmerged, hs]; simp
        have hsm : ent.stagedMissing = false := by
          simp only [statusEntry.stagedMissing]; simp at hm; simp [hm]
        simp [selectedPaths, hsel, hun, hsm, hm, List.countP_cons, List.filter_cons]
      · rw [if_neg hs]
        have hsel : ent.selected = false := by
          simp only [statusEntry.selected]; simp only [Bool.not_eq_true] at hs; rw [hs]; simp
        have hsm : ent.stagedMissing = false := by
          simp only [statusEntry.stagedMissing]; simp at hm; simp [hm]
        by_cases hi : (ent.isIgnored || ent.isUntracked) = true
        · rw [if_pos hi, ih _ hrest]
          have hun : ent.countedUnmerged = false := by
            simp only [statusEntry.countedUnmerged, hi]; simp
          simp [selectedPaths, hsel, hun, hsm, hm, List.countP_cons, List.filter_cons]
        · rw [if_neg hi]
          have hu : ent.isUnmerged = true := by
            simp only [statusEntry.handled] at hent
            simp only [Bool.not_eq_true] at hm hs hi
            rw [hm, hs, hi] at hent
            simpa using hent
          rw [if_pos hu, ih _ hrest]
          have hun : ent.countedUnmerged = true := by
            simp only [statusEntry.countedUnmerged]
            simp only [Bool.not_eq_true] at hm hs hi
            rw [hm, hs, hi, hu]; rfl
          simp [selectedPaths, hsel, hun, hsm, hm, List.countP_cons, List.filter_cons]
          omega

/-- The decimal form of one. -/
theorem decimal_one : decimal 1 = str "1" := by decide

/-- The outcome of `inferCommitFiles` once the status process has started and
every entry is handled by the switch, by cases as the code takes them. -/
theorem inferCommitFiles_started (run : StatusRun) (files : List Str)
    (hstart : run.startErr = none) (h : ∀ ent ∈ run.entries, ent.handled = true) :
    inferCommitFiles run files = some
      (match run.readErr with
       | some e => (files, some (.read e))
       | none =>
         if run.entries.countP statusEntry.countedUnmerged ≠ 0 then
           (files, some (.message
             (unmergedMessage (run.entries.countP statusEntry.countedUnmerged))))
         else if selectedPaths run.entries = [] then
           (files, some (.message
             (nothingChangedMessage (run.entries.countP fun ent => ent.isMissing))))
         else if run.entries.countP statusEntry.stagedMissing ≠ 0 then
           (files, some (.message
             (stagedMissingMessage (run.entries.countP statusEntry.stagedMissing))))
         else (files ++ selectedPaths run.entries, run.waitErr.map .wait)) := by
  unfold inferCommitFiles
  rw [hstart]
  dsimp only
  rw [inferCommitLoop_eq _ _ h]
  dsimp only
  rw [Nat.zero_add, Nat.zero_add, Nat.zero_add]
  generalize run.entries.countP statusEntry.countedUnmerged = u
  generalize run.entries.countP statusEntry.stagedMissing = ms
  generalize (run.entries.countP fun ent => ent.isMissing) = m
  generalize selectedPaths run.entries = paths
  have htake : (files ++ paths).take files.length = files := by simp
  rw [htake]
  cases run.readErr with
  | some e => rfl
  | none =>
    dsimp only
    by_cases hu1 : u = 1
    · subst hu1; simp [unmergedMessage]
    · rw [if_neg hu1]
      by_cases hu : u > 1
      · rw [if_pos hu, if_pos (show u ≠ 0 by omega)]; simp [unmergedMessage, hu1]
      · rw [if_neg hu, if_neg (show ¬ u ≠ 0 by omega)]
        by_cases hp : paths = []
        · subst hp
          have hl : (files ++ ([] : List Str)).length = files.length := by simp
          rw [if_pos hl, if_pos (show ([] : List Str) = [] from rfl)]
          match m with
          | 0 => simp [nothingChangedMessage]
          | 1 => simp [nothingChangedMessage]
          | k + 2 => simp [nothingChangedMessage]
        · have hlen : (files ++ paths).length ≠ files.length := by
            cases paths with
            | nil => exact absurd rfl hp
            | cons a t => simp
          rw [if_neg hlen, if_neg hp]
          by_cases hs1 : ms = 1
          · subst hs1
            rw [if_pos (show (1 : Nat) = 1 from rfl), if_pos (show (1 : Nat) ≠ 0 by decide)]
            simp only [stagedMissingMessage, decimal_one]
            congr 1
          · rw [if_neg hs1]
            by_cases hs : ms > 1
            · rw [if_pos hs, if_pos (show ms ≠ 0 by omega)]; rfl
            · rw [if_neg hs, if_neg (show ¬ ms ≠ 0 by omega)]

/-- When the loop of `inferCommitFiles` ends without the panic, the switch
handles every entry. -/
theorem inferCommitLoop_handled (entries : List statusEntry) :
    ∀ st st1 : CommitState, inferCommitLoop entries st = some st1 →
      ∀ ent ∈ entries, ent.handled = true := by
  induction entries with
  | nil => intro _ _ _ ent he; cases he
  | cons e rest ih =>
    intro st st1 h ent he
    unfold inferCommitLoop at h
    have hrest : ∃ st2, inferCommitLoop rest st2 = some st1 ∧ e.handled = true := by
      by_cases hm : e.isMissing = true
      · rw [if_pos hm] at h
        exact ⟨_, h, by simp [statusEntry.handled, hm]⟩
      · rw [if_neg hm] at h
        by_cases hs : (e.isAdded || e.isModified || e.isRemoved || e.isCopied
            || e.isRenamed) = true
        · rw [if_pos hs] at h
          exact ⟨_, h, by simp only [statusEntry.handled, hs]; simp⟩
        · rw [if_neg hs] at h
          by_cases hi : (e.isIgnored || e.isUntracked) = true
          · rw [if_pos hi] at h
            exact ⟨_, h, by simp only [statusEntry.handled, hi]; simp⟩
          · rw [if_neg hi] at h
            by_cases hu : e.isUnmerged = true
            · rw [if_pos hu] at h
              exact ⟨_, h, by simp only [statusEntry.handled, hu]; simp⟩
            · rw [if_neg hu] at h; cases h
    obtain ⟨st2, h2, hh⟩ := hrest
    rcases List.mem_cons.1 he with rfl | hmem
    · exact hh
    · exact ih st2 st1 h2 ent hmem

/-- A result of `inferCommitFiles` without a start error means that the
switch handles every entry. -/
theorem inferCommitFiles_handled (run : StatusRun) (files : List Str)
    (r : List Str × Option CommitErr) (hstart : run.startErr = none)
    (h : inferCommitFiles run files = some r) : ∀ ent ∈ run.entries, ent.handled = true := by
  unfold inferCommitFiles at h
  rw [hstart] at h
  dsimp only at h
  cases hl : inferCommitLoop run.entries ⟨files, 0, 0, 0⟩ with
  | none => rw [hl] at h; cases h
  | some st => exact inferCommitLoop_handled _ _ _ hl

/-- With a start error `inferCommitFiles` returns its argument and the
error. -/
theorem inferCommitFiles_startErr (run : StatusRun) (files : List Str) (e : Str)
    (hstart : run.startErr = some e) :
    inferCommitFiles run files = some (files, some (.start e)) := by
  unfold inferCommitFiles
  rw [hstart]

/-- The selected paths are empty exactly when no entry is selected. -/
theorem selectedPaths_eq_nil (entries : List statusEntry) :
    selectedPaths entries = [] ↔ ∀ ent ∈ entries, ent.selected = false := by
  simp [selectedPaths, List.filter_eq_nil_iff]

/-- A count is zero exactly when the predicate fails on every entry. -/
theorem countP_eq_zero_bool (p : statusEntry → Bool) (entries : List statusEntry) :
    entries.countP p = 0 ↔ ∀ ent ∈ entries, p ent = false := by
  simp [List.countP_eq_zero]

/-- An unmerged entry that no earlier case of the switch takes is counted as
unmerged, and only an unmerged entry is. -/
theorem countedUnmerged_iff (ent : statusEntry) :
    ent.countedUnmerged = true ↔
      ent.isUnmerged = true ∧ ent.isMissing = false ∧
        (ent.isAdded || ent.isModified || ent.isRemoved || ent.isCopied || ent.isRenamed)
          = false ∧
        (ent.isIgnored || ent.isUntracked) = false := by
  simp only [statusEntry.countedUnmerged]
  cases ent.isUnmerged <;> cases ent.isMissing <;>
    cases (ent.isAdded || ent.isModified || ent.isRemoved || ent.isCopied || ent.isRenamed) <;>
    cases (ent.isIgnored || ent.isUntracked) <;> simp

/-! ### The outcomes of `inferCommitFiles` -/

/-- Claim C21: when the status process starts, the entries are read without a
stream error and at least one of them is counted as unmerged,
`inferCommitFiles` returns its argument list and the unmerged-files error that
carries the exact number of unmerged entries, whatever the other entries
are. -/
theorem inferCommitFiles_unmerged (run : StatusRun) (files : List Str)
    (hstart : run.startErr = none) (hread : run.readErr = none)
    (hhandled : ∀ ent ∈ run.entries, ent.handled = true)
    (hun : 0 < run.entries.countP statusEntry.countedUnmerged) :
    inferCommitFiles run files = some (files, some (.message
      (if run.entries.countP statusEntry.countedUnmerged = 1 then
        str "1 unmerged file; see 'gut status'"
      else decimal (run.entries.countP statusEntry.countedUnmerged)
        ++ str " unmerged files; see 'gut status'"))) := by
  rw [inferCommitFiles_started run files hstart hhandled, hread]
  dsimp only
  rw [if_pos (Nat.pos_iff_ne_zero.1 hun)]
  rfl

/-- Witness of C21: one unmerged entry among two added ones. -/
theorem inferCommitFiles_unmerged_witness :
    inferCommitFiles
        ⟨none, [addedEntry (str "a"), unmergedEntry (str "u"), addedEntry (str "b")],
          none, none⟩ [str "-m"]
      = some ([str "-m"], some (.message (str "1 unmerged file; see 'gut status'"))) :=
  inferCommitFiles_unmerged
    ⟨none, [addedEntry (str "a"), unmergedEntry (str "u"), addedEntry (str "b")], none, none⟩
    [str "-m"] rfl rfl (by decide) (by decide)

/-- Claim C22: when the status process starts, the entries are read without a
stream error, none is counted as unmerged and none is selected,
`inferCommitFiles` returns its argument list and the nothing-changed error:
the plain one when no entry is missing, otherwise the one with the exact
number of missing entries, staged or not. -/
theorem inferCommitFiles_nothing_changed (run : StatusRun) (files : List Str)
    (hstart : run.startErr = none) (hread : run.readErr = none)
    (hhandled : ∀ ent ∈ run.entries, ent.handled = true)
    (hun : ∀ ent ∈ run.entries, ent.countedUnmerged = false)
    (hsel : ∀ ent ∈ run.entries, ent.selected = false) :
    inferCommitFiles run files = some (files, some (.message
      (if run.entries.countP (fun ent => ent.isMissing) = 0 then str "nothing changed"
      else if run.entries.countP (fun ent => ent.isMissing) = 1 then
        str "nothing changed (1 missing file; see 'gut status')"
      else str "nothing changed (" ++ decimal (run.entries.countP fun ent => ent.isMissing)
        ++ str " missing files; see 'gut status')"))) := by
  rw [inferCommitFiles_started run files hstart hhandled, hread]
  dsimp only
  rw [if_neg (not_not.2 ((countP_eq_zero_bool _ _).2 hun)),
    if_pos ((selectedPaths_eq_nil _).2 hsel)]
  rfl

/-- Witness of C22: two missing entries, one of them staged. -/
theorem inferCommitFiles_nothing_changed_witness :
    inferCommitFiles
        ⟨none, [missingEntry 32 (str "x"), missingEntry 77 (str "y")], none, none⟩ []
      = some ([], some (.message
          (str "nothing changed (2 missing files; see 'gut status')"))) :=
  inferCommitFiles_nothing_changed
    ⟨none, [missingEntry 32 (str "x"), missingEntry 77 (str "y")], none, none⟩ []
    rfl rfl (by decide) (by decide) (by decide)

/-- Claim C23: when the status process starts, the entries are read without a
stream error, none is counted as unmerged, at least one is selected and at
least one missing entry has an index status code other than a space,
`inferCommitFiles` fails with the staged-missing-files error that carries the
exact number of such entries, and returns its argument list without any
selected path. -/
theorem inferCommitFiles_staged_missing (run : StatusRun) (files : List Str)
    (hstart : run.startErr = none) (hread : run.readErr = none)
    (hhandled : ∀ ent ∈ run.entries, ent.handled = true)
    (hun : ∀ ent ∈ run.entries, ent.countedUnmerged = false)
    (hsel : ∃ ent ∈ run.entries, ent.selected = true)
    (hstaged : ∃ ent ∈ run.entries, ent.isMissing = true ∧ ent.code0 ≠ 32) :
    inferCommitFiles run files = some (files, some (.message
      (str "git has staged changes for "
        ++ decimal (run.entries.countP fun ent => ent.isMissing && decide (ent.code0 ≠ 32))
        ++ str " missing file; see 'gut status'"))) := by
  rw [inferCommitFiles_started run files hstart hhandled, hread]
  dsimp only
  have hp : selectedPaths run.entries ≠ [] := by
    intro h
    obtain ⟨ent, hmem, he⟩ := hsel
    rw [(selectedPaths_eq_nil _).1 h ent hmem] at he
    cases he
  have hs : run.entries.countP statusEntry.stagedMissing ≠ 0 := by
    intro h
    obtain ⟨ent, hmem, hm, hc⟩ := hstaged
    have := (countP_eq_zero_bool _ _).1 h ent hmem
    simp [statusEntry.stagedMissing, hm, hc] at this
  rw [if_neg (not_not.2 ((countP_eq_zero_bool _ _).2 hun)), if_neg hp, if_pos hs]
  rfl

/-- Witness of C23: one missing and staged entry beside an added one. -/
theorem inferCommitFiles_staged_missing_witness :
    inferCommitFiles
        ⟨none, [addedEntry (str "a"), missingEntry 77 (str "y")], none, none⟩ [str "-m"]
      = some ([str "-m"], some (.message
          (str "git has staged changes for 1 missing file; see 'gut status'"))) :=
  inferCommitFiles_staged_missing
    ⟨none, [addedEntry (str "a"), missingEntry 77 (str "y")], none, none⟩ [str "-m"]
    rfl rfl (by decide) (by decide) ⟨addedEntry (str "a"), by decide, by decide⟩
    ⟨missingEntry 77 (str "y"), by decide, by decide, by decide⟩

/-- Claim C24: whenever `inferCommitFiles` succeeds, the returned list is the
argument list followed by `:/:` and the name of exactly the entries that are
not missing and are added, modified, removed, copied or renamed, in stream
order and one path per such entry; an entry that is missing, or that reaches
the case of ignored and untracked entries or the case of unmerged entries,
adds no path. -/
theorem inferCommitFiles_success_paths (run : StatusRun) (files out : List Str)
    (h : inferCommitFiles run files = some (out, none)) :
    out = files ++ (run.entries.filter fun ent =>
        !ent.isMissing &&
          (ent.isAdded || ent.isModified || ent.isRemoved || ent.isCopied || ent.isRenamed)).map
        (fun ent => str ":/:" ++ ent.name) ∧
      out.length = files.length + run.entries.countP statusEntry.selected ∧
      ∀ ent ∈ run.entries,
        ent.isMissing = true ∨ ent.skipped = true ∨ ent.countedUnmerged = true →
          ent.selected = false := by
  have hstart : run.startErr = none := by
    cases hs : run.startErr with
    | none => rfl
    | some e => rw [inferCommitFiles_startErr run files e hs] at h; cases h
  have hh := inferCommitFiles_handled run files _ hstart h
  rw [inferCommitFiles_started run files hstart hh] at h
  have hout : out = files ++ selectedPaths run.entries := by
    cases hr : run.readErr with
    | some e => rw [hr] at h; cases h
    | none =>
      rw [hr] at h
      dsimp only at h
      split_ifs at h with h1 h2 h3
      · cases h
      · cases h
      · cases h
      · injection h with h
        exact (congrArg Prod.fst h).symm
  refine ⟨hout, ?_, ?_⟩
  · rw [hout, List.length_append, selectedPaths, List.length_map, List.countP_eq_length_filter]
  · intro ent _ hcase
    rcases hcase with hm | hk | hu
    · simp [statusEntry.selected, hm]
    · simp only [statusEntry.skipped, statusEntry.selected] at hk ⊢
      cases hA : (ent.isAdded || ent.isModified || ent.isRemoved || ent.isCopied
        || ent.isRenamed)
      · simp
      · rw [hA] at hk; simp at hk
    · simp only [statusEntry.countedUnmerged, statusEntry.selected] at hu ⊢
      cases hA : (ent.isAdded || ent.isModified || ent.isRemoved || ent.isCopied
        || ent.isRenamed)
      · simp
      · rw [hA] at hu; simp at hu

/-- Witness of C24: an added and a renamed entry among an ignored and a
missing one. -/
theorem inferCommitFiles_success_paths_witness :
    [str "-m", str ":/:a", str ":/:d"] =
        [str "-m"] ++ ([addedEntry (str "a"),
            (⟨33, str "b", false, false, false, false, false, false, true, false, false⟩ :
              statusEntry),
            missingEntry 32 (str "c"),
            (⟨82, str "d", false, false, false, false, false, true, false, false, false⟩ :
              statusEntry)].filter fun ent =>
          !ent.isMissing &&
            (ent.isAdded || ent.isModified || ent.isRemoved || ent.isCopied
              || ent.isRenamed)).map (fun ent => str ":/:" ++ ent.name) :=
  (inferCommitFiles_success_paths
    ⟨none, [addedEntry (str "a"),
      ⟨33, str "b", false, false, false, false, false, false, true, false, false⟩,
      missingEntry 32 (str "c"),
      ⟨82, str "d", false, false, false, false, false, true, false, false, false⟩],
      none, none⟩
    [str "-m"] [str "-m", str ":/:a", str ":/:d"] (by decide)).1

/-- Claim C25, evaluated at the failing input: with one added entry and two
missing entries that are staged, `inferCommitFiles` returns the message
`git has staged changes for 2 missing file; see 'gut status'`, the count 2
followed by the singular noun; the messages of the other two errors with a
count use the plural noun for every count other than one. -/
theorem inferCommitFiles_plural_noun :
    inferCommitFiles
        ⟨none, [addedEntry (str "a"), missingEntry 77 (str "x"), missingEntry 65 (str "y")],
          none, none⟩ [str "-m"]
      = some ([str "-m"], some (.message
          (str "git has staged changes for 2 missing file; see 'gut status'"))) ∧
    inferCommitFiles
        ⟨none, [unmergedEntry (str "x"), unmergedEntry (str "y")], none, none⟩ [str "-m"]
      = some ([str "-m"], some (.message (str "2 unmerged files; see 'gut status'"))) ∧
    inferCommitFiles
        ⟨none, [missingEntry 77 (str "x"), missingEntry 65 (str "y")], none, none⟩ [str "-m"]
      = some ([str "-m"], some (.message
          (str "nothing changed (2 missing files; see 'gut status')"))) := by
  decide

/-- Claim C29: when the status process starts, the entries are read without a
stream error and the process exits successfully, `inferCommitFiles` succeeds
if and only if no entry is counted as unmerged, at least one entry is selected
and no missing entry has an index status code other than a space; it then
returns the argument list followed by the selected paths, so that a missing
entry that is not staged neither blocks the commit nor appears in it. -/
theorem inferCommitFiles_succeeds_iff (run : StatusRun) (files : List Str)
    (hstart : run.startErr = none) (hread : run.readErr = none)
    (hwait : run.waitErr = none)
    (hhandled : ∀ ent ∈ run.entries, ent.handled = true) :
    ((∃ out, inferCommitFiles run files = some (out, none)) ↔
      (∀ ent ∈ run.entries, ent.countedUnmerged = false) ∧
        (∃ ent ∈ run.entries, ent.selected = true) ∧
        ∀ ent ∈ run.entries, ent.isMissing = true → ent.code0 = 32) ∧
    ((∃ out, inferCommitFiles run files = some (out, none)) →
      inferCommitFiles run files = some (files ++ selectedPaths run.entries, none)) := by
  rw [inferCommitFiles_started run files hstart hhandled, hread, hwait]
  dsimp only
  have hU : run.entries.countP statusEntry.countedUnmerged = 0 ↔
      ∀ ent ∈ run.entries, ent.countedUnmerged = false := countP_eq_zero_bool _ _
  have hP : selectedPaths run.entries = [] ↔ ¬ ∃ ent ∈ run.entries, ent.selected = true := by
    rw [selectedPaths_eq_nil]
    constructor
    · rintro h ⟨ent, hm, he⟩; rw [h ent hm] at he; cases he
    · intro h ent hm
      cases he : ent.selected with
      | false => rfl
      | true => exact absurd ⟨ent, hm, he⟩ h
  have hS : run.entries.countP statusEntry.stagedMissing = 0 ↔
      ∀ ent ∈ run.entries, ent.isMissing = true → ent.code0 = 32 := by
    rw [countP_eq_zero_bool]
    constructor
    · intro h ent hm hmiss
      have := h ent hm
      simpa [statusEntry.stagedMissing, hmiss] using this
    · intro h ent hm
      cases hmiss : ent.isMissing with
      | false => simp [statusEntry.stagedMissing, hmiss]
      | true => simp [statusEntry.stagedMissing, hmiss, h ent hm hmiss]
  rw [← hU, ← hS]
  by_cases h1 : run.entries.countP statusEntry.countedUnmerged = 0
  · rw [if_neg (not_not.2 h1)]
    by_cases h2 : selectedPaths run.entries = []
    · rw [if_pos h2]
      have h2n := hP.1 h2
      refine ⟨⟨?_, fun h => absurd h.2.1 h2n⟩, ?_⟩ <;>
        · rintro ⟨out, h⟩; injection h with h; cases h
    · rw [if_neg h2]
      have h2p : ∃ ent ∈ run.entries, ent.selected = true := by
        by_contra hc; exact h2 (hP.2 hc)
      by_cases h3 : run.entries.countP statusEntry.stagedMissing = 0
      · rw [if_neg (not_not.2 h3)]
        exact ⟨⟨fun _ => ⟨h1, h2p, h3⟩, fun _ => ⟨_, rfl⟩⟩, fun _ => rfl⟩
      · rw [if_pos h3]
        refine ⟨⟨?_, fun h => absurd h.2.2 h3⟩, ?_⟩ <;>
          · rintro ⟨out, h⟩; injection h with h; cases h
  · rw [if_pos h1]
    refine ⟨⟨?_, fun h => absurd h.1 h1⟩, ?_⟩ <;>
      · rintro ⟨out, h⟩; injection h with h; cases h

/-- Witness of C29: an added entry and a missing entry that is not staged. -/
theorem inferCommitFiles_succeeds_iff_witness :
    inferCommitFiles ⟨none, [missingEntry 32 (str "c"), addedEntry (str "a")], none, none⟩
        [str "-m"] = some ([str "-m", str ":/:a"], none) :=
  (inferCommitFiles_succeeds_iff
    ⟨none, [missingEntry 32 (str "c"), addedEntry (str "a")], none, none⟩ [str "-m"]
    rfl rfl rfl (by decide)).2 ⟨[str "-m", str ":/:a"], by decide⟩

/-- Claim C30: when `inferCommitFiles` returns an error other than the error
of the final `p.Wait()`, that is the start error, a stream read error, the
unmerged-files error, the nothing-changed error or the staged-missing-files
error, the returned list is exactly the argument list. -/
theorem inferCommitFiles_failure_frame (run : StatusRun) (files out : List Str)
    (e : CommitErr) (h : inferCommitFiles run files = some (out, some e))
    (hwait : ∀ w, e ≠ .wait w) : out = files := by
  cases hs : run.startErr with
  | some s =>
    rw [inferCommitFiles_startErr run files s hs] at h
    injection h with h
    exact (congrArg Prod.fst h).symm
  | none =>
    have hh := inferCommitFiles_handled run files _ hs h
    rw [inferCommitFiles_started run files hs hh] at h
    cases hr : run.readErr with
    | some r =>
      rw [hr] at h
      injection h with h
      exact (congrArg Prod.fst h).symm
    | none =>
      rw [hr] at h
      dsimp only at h
      split_ifs at h with h1 h2 h3
      · injection h with h; exact (congrArg Prod.fst h).symm
      · injection h with h; exact (congrArg Prod.fst h).symm
      · injection h with h; exact (congrArg Prod.fst h).symm
      · injection h with h
        have he := congrArg Prod.snd h
        dsimp only at he
        cases hw : run.waitErr with
        | none => rw [hw] at he; cases he
        | some w =>
          rw [hw] at he
          injection he with he
          exact absurd he.symm (hwait w)

/-- Witness of C30: a stream read error after an added entry. -/
theorem inferCommitFiles_failure_frame_witness :
    inferCommitFiles ⟨none, [addedEntry (str "a")], some (str "read"), none⟩ [str "-m"]
        = some ([str "-m"], some (.read (str "read"))) ∧
      [str "-m"] = [str "-m"] :=
  ⟨by decide,
    inferCommitFiles_failure_frame ⟨none, [addedEntry (str "a")], some (str "read"), none⟩
      [str "-m"] [str "-m"] (.read (str "read")) (by decide) (by intro w hw; cases hw)⟩

/-- The stronger invariant implies the weaker one. -/
theorem StatusFromInv.inv {st : StatusState} (h : StatusFromInv st) : StatusInv st :=
  fun hc => (h hc).1

/-- One iteration of the loop from a state that satisfies the stronger
invariant does not fault and keeps that invariant. -/
theorem statusStep_fromInv (l : Str) (st : StatusState) (hinv : StatusFromInv st) :
    ∃ r, statusStep l st = .ok r ∧ StatusFromInv r := by
  rcases line_cases l with h | h | h
  · exact ⟨_, statusStep_malformed l st h, (by intro hc; cases hc)⟩
  · cases hc : st.canAddFrom with
    | false => exact ⟨_, statusStep_badFrom l st h hc, (by intro hc; cases hc)⟩
    | true =>
      have hne := (hinv hc).1
      exact ⟨_, statusStep_from l st h hc _ _ (List.dropLast_append_getLast hne).symm,
        (by intro hc; cases hc)⟩
  · cases hf : hasGGStatusLine st.lines (l.drop 2) with
    | false =>
      refine ⟨_, statusStep_new l st h hf, ?_⟩
      intro _
      exact ⟨by simp, by simp⟩
    | true => exact ⟨_, statusStep_duplicate l st h hf, (by intro hc; cases hc)⟩

/-- The body of the loop run over lines from a state that satisfies the
stronger invariant does not fault and keeps that invariant. -/
theorem foldStatus_fromInv (ls : List Str) :
    ∀ st, StatusFromInv st → ∃ r, foldStatus ls st = .ok r ∧ StatusFromInv r := by
  induction ls with
  | nil => intro st h; exact ⟨st, rfl, h⟩
  | cons l ls ih =>
    intro st h
    obtain ⟨r1, h1, hi1⟩ := statusStep_fromInv l st h
    obtain ⟨r, h2, hi2⟩ := ih r1 hi1
    exact ⟨r, by simp only [foldStatus, h1, h2], hi2⟩

/-- The initial state of the loop satisfies the stronger invariant. -/
theorem StatusFromInv_init : StatusFromInv ⟨[], false, 1, []⟩ := by
  intro hc; cases hc

/-- The step on a state that satisfies the weaker invariant never indexes out
of range. -/
theorem statusStep_no_fault (l : Str) (st : StatusState) (hinv : StatusInv st) :
    statusStep l st ≠ .error .indexOutOfRange := by
  obtain ⟨r, h, _⟩ := statusStep_spec l st hinv
  rw [h]
  intro hc
  cases hc

/-- Claim C27: on every input `parseGGStatus` returns, and at every point of
its loop, that is after any number of lines of the input, `canAddFrom` being
set implies that there is an entry and that the last entry has an empty
`from` path, so that the body of the loop run on any line from there does not
index out of range. -/
theorem parseGGStatus_index_in_bounds (out : Str) :
    (∃ r, parseGGStatus out = .ok r) ∧
      parseGGStatusLoop (out.length + 1) out ⟨[], false, 1, []⟩
        = foldStatus (statusLines out) ⟨[], false, 1, []⟩ ∧
      ∀ k, ∃ st, foldStatus ((statusLines out).take k) ⟨[], false, 1, []⟩ = .ok st ∧
        (st.canAddFrom = true →
          st.lines ≠ [] ∧ (st.lines.getLast?.map fun e => e.from_) = some []) ∧
        ∀ line, statusStep line st ≠ .error .indexOutOfRange := by
  refine ⟨?_, parseGGStatusLoop_eq _ _ _ (Nat.lt_succ_self _), ?_⟩
  · obtain ⟨r, h, _⟩ := foldStatus_fromInv (statusLines out) _ StatusFromInv_init
    exact ⟨(r.lines, r.errs), by rw [parseGGStatus_eq, h]⟩
  · intro k
    obtain ⟨st, h, hinv⟩ := foldStatus_fromInv ((statusLines out).take k) _ StatusFromInv_init
    exact ⟨st, h, hinv, fun line => statusStep_no_fault line st hinv.inv⟩

/-- One iteration of the loop leaves in place every entry that is not the
last one, and every entry when `canAddFrom` is not set; such an entry is in
the same position afterwards. -/
theorem statusStep_frozen (l : Str) (st : StatusState) (hinv : StatusInv st) :
    ∃ r, statusStep l st = .ok r ∧ StatusInv r ∧
      ∀ i e, st.lines[i]? = some e → (i + 1 < st.lines.length ∨ st.canAddFrom = false) →
        r.lines[i]? = some e ∧ (i + 1 < r.lines.length ∨ r.canAddFrom = false) := by
  rcases line_cases l with h | h | h
  · exact ⟨_, statusStep_malformed l st h, (by intro hc; cases hc),
      fun i e hi _ => ⟨hi, Or.inr rfl⟩⟩
  · cases hc : st.canAddFrom with
    | false =>
      exact ⟨_, statusStep_badFrom l st h hc, (by intro hc; cases hc),
        fun i e hi _ => ⟨hi, Or.inr rfl⟩⟩
    | true =>
      have hne := hinv hc
      have hl := (List.dropLast_append_getLast hne).symm
      refine ⟨_, statusStep_from l st h hc _ _ hl, (by intro hc; cases hc), ?_⟩
      intro i e hi hfro
      have hlt : i < st.lines.dropLast.length := by
        rcases hfro with hf | hf
        · simp only [List.length_dropLast]; omega
        · cases hf
      refine ⟨?_, Or.inr rfl⟩
      rw [hl, List.getElem?_append_left hlt] at hi
      show (st.lines.dropLast ++ _)[i]? = some e
      rw [List.getElem?_append_left hlt]
      exact hi
  · cases hf : hasGGStatusLine st.lines (l.drop 2) with
    | false =>
      refine ⟨_, statusStep_new l st h hf, (by intro _; simp), ?_⟩
      intro i e hi _
      have hlt : i < st.lines.length := by
        by_contra hge
        rw [List.getElem?_eq_none (by omega)] at hi
        cases hi
      refine ⟨?_, Or.inl ?_⟩
      · show (st.lines ++ _)[i]? = some e
        rw [List.getElem?_append_left hlt]
        exact hi
      · show i + 1 < (st.lines ++ _).length
        simp only [List.length_append, List.length_singleton]
        omega
    | true =>
      exact ⟨_, statusStep_duplicate l st h hf, (by intro hc; cases hc),
        fun i e hi _ => ⟨hi, Or.inr rfl⟩⟩

/-- The body of the loop run over lines leaves in place every entry that is
not the last one, and every entry when `canAddFrom` is not set. -/
theorem foldStatus_frozen (ls : List Str) :
    ∀ st, StatusInv st → ∃ r, foldStatus ls st = .ok r ∧
      ∀ i e, st.lines[i]? = some e → (i + 1 < st.lines.length ∨ st.canAddFrom = false) →
        r.lines[i]? = some e := by
  induction ls with
  | nil => intro st _; exact ⟨st, rfl, fun i e hi _ => hi⟩
  | cons l ls ih =>
    intro st hinv
    obtain ⟨r1, h1, hinv1, hf1⟩ := statusStep_frozen l st hinv
    obtain ⟨r, h2, hf2⟩ := ih r1 hinv1
    refine ⟨r, by simp only [foldStatus, h1, h2], ?_⟩
    intro i e hi hfro
    obtain ⟨hi1, hfro1⟩ := hf1 i e hi hfro
    exact hf2 i e hi1 hfro1

/-- In a state that satisfies the stronger invariant an entry with a `from`
path is not the last entry while `canAddFrom` is set. -/
theorem StatusFromInv.frozen {st : StatusState} (hinv : StatusFromInv st) (i : Nat)
    (e : ggStatusLine) (hi : st.lines[i]? = some e) (hfrom : e.from_ ≠ []) :
    i + 1 < st.lines.length ∨ st.canAddFrom = false := by
  cases hc : st.canAddFrom with
  | false => exact Or.inr rfl
  | true =>
    left
    obtain ⟨hne, hlast⟩ := hinv hc
    have hlt : i < st.lines.length := by
      by_contra hge
      rw [List.getElem?_eq_none (by omega)] at hi
      cases hi
    by_contra hnot
    have hil : i = st.lines.length - 1 := by omega
    have hl := (List.dropLast_append_getLast hne).symm
    have hget : st.lines.getLast? = some e := by
      rw [List.getLast?_eq_getElem?, ← hil]
      exact hi
    rw [hget] at hlast
    simp only [Option.map_some', Option.some.injEq] at hlast
    exact hfrom hlast

/-- Claim C26: a continuation line that comes first in the stream, or
directly after a malformed line, a rejected duplicate line or another
continuation line, is reported as an error with its line number and changes
no entry; a malformed or rejected duplicate line itself changes no entry
either; and an entry that has a `from` path keeps it whatever lines follow,
so that a `from` path is written only by the continuation line right after
the line that appended the entry, and at most once. -/
theorem parseGGStatus_from_once (pre : List Str) (prev cont : Str)
    (es0 : List ggStatusLine) (errs0 : List StatusErr)
    (hlines : ∀ x ∈ pre ++ [prev, cont], 10 ∉ x) (hcont : isContinuation cont)
    (hpre : parseGGStatus (unlines pre) = .ok (es0, errs0))
    (hprev : isMalformed prev ∨ isContinuation prev ∨
      (isNewEntry prev ∧ hasGGStatusLine es0 (prev.drop 2) = true)) :
    parseGGStatus (unlines [cont]) = .ok ([], [.badFrom 1 (cont.drop 2)]) ∧
    (∃ es errs, parseGGStatus (unlines (pre ++ [prev])) = .ok (es, errs) ∧
      parseGGStatus (unlines (pre ++ [prev, cont])) =
        .ok (es, errs ++ [.badFrom (pre.length + 2) (cont.drop 2)]) ∧
      (¬ isContinuation prev → es = es0)) ∧
    ∀ post : List Str, (∀ x ∈ post, 10 ∉ x) →
      ∃ es1 errs1, parseGGStatus (unlines (pre ++ post)) = .ok (es1, errs1) ∧
        ∀ (i : Nat) (e : ggStatusLine), es0[i]? = some e → e.from_ ≠ [] →
          es1[i]? = some e := by
  have hpre_lines : ∀ x ∈ pre, 10 ∉ x := fun x hx => hlines x (List.mem_append_left _ hx)
  obtain ⟨st0, hfold0, hinv0, hno0, hparse0⟩ := parseGGStatus_unlines pre hpre_lines
  rw [hpre] at hparse0
  simp only [Except.ok.injEq, Prod.mk.injEq] at hparse0
  obtain ⟨hes, herrs⟩ := hparse0
  subst hes
  have hrun : ∀ tail : List Str, (∀ x ∈ pre ++ tail, 10 ∉ x) →
      parseGGStatus (unlines (pre ++ tail)) =
        match foldStatus tail st0 with
        | .error f => .error f
        | .ok st => .ok (st.lines, st.errs) := by
    intro tail ht
    rw [parseGGStatus_eq, statusLines_unlines _ ht, foldStatus_append, hfold0]
  have hstep1 : ∃ s1, statusStep prev st0 = .ok s1 ∧ s1.canAddFrom = false ∧
      s1.lineno = st0.lineno + 1 ∧ (¬ isContinuation prev → s1.lines = st0.lines) := by
    rcases hprev with h | h | ⟨h, hdup⟩
    · exact ⟨_, statusStep_malformed prev st0 h, rfl, rfl, fun _ => rfl⟩
    · cases hc : st0.canAddFrom with
      | false => exact ⟨_, statusStep_badFrom prev st0 h hc, rfl, rfl, fun _ => rfl⟩
      | true =>
        have hne := hinv0 hc
        exact ⟨_, statusStep_from prev st0 h hc _ _ (List.dropLast_append_getLast hne).symm,
          rfl, rfl, fun hn => absurd h hn⟩
    · exact ⟨_, statusStep_duplicate prev st0 h hdup, rfl, rfl,
        fun _ => rfl⟩
  obtain ⟨s1, hs1, hcf1, hno1, hkeep⟩ := hstep1
  have hstep2 := statusStep_badFrom cont s1 hcont hcf1
  refine ⟨?_, ⟨s1.lines, s1.errs, ?_, ?_, ?_⟩, ?_⟩
  · have hc : ∀ x ∈ [cont], 10 ∉ x := fun x hx =>
      hlines x (by
        simp only [List.mem_append, List.mem_singleton, List.mem_cons] at hx ⊢
        tauto)
    rw [parseGGStatus_eq, statusLines_unlines _ hc]
    simp only [foldStatus, statusStep_badFrom cont ⟨[], false, 1, []⟩ hcont rfl,
      List.nil_append]
  · rw [hrun [prev] (fun x hx => hlines x (by
      simp only [List.mem_append, List.mem_singleton, List.mem_cons] at hx ⊢
      tauto))]
    simp only [foldStatus, hs1]
  · rw [hrun [prev, cont] hlines]
    simp only [foldStatus, hs1, hstep2, hno1, hno0]
  · intro hn
    exact hkeep hn
  · intro post hpost
    have hall : ∀ x ∈ pre ++ post, 10 ∉ x := by
      intro x hx
      rcases List.mem_append.1 hx with h | h
      · exact hpre_lines x h
      · exact hpost x h
    obtain ⟨r, hfold, hfro⟩ := foldStatus_frozen post st0 hinv0
    obtain ⟨st0', hfold0', hfinv0⟩ := foldStatus_fromInv pre _ StatusFromInv_init
    rw [hfold0] at hfold0'
    injection hfold0' with hst
    subst hst
    refine ⟨r.lines, r.errs, ?_, ?_⟩
    · rw [hrun post hall, hfold]
    · intro i e hi hfrom
      exact hfro i e hi (hfinv0.frozen i e hi hfrom)

/-- Witness of C26: after `A foo.txt` the duplicate `M foo.txt` is rejected,
and the continuation line after it is reported and attaches no `from` path
to the earlier entry. -/
theorem parseGGStatus_from_once_witness :
    (∃ es errs,
      parseGGStatus (unlines ([str "A foo.txt"] ++ [str "M foo.txt"])) = .ok (es, errs) ∧
      parseGGStatus (unlines ([str "A foo.txt"] ++ [str "M foo.txt", str "  bar.txt"])) =
        .ok (es, errs ++ [.badFrom ([str "A foo.txt"].length + 2) ((str "  bar.txt").drop 2)]) ∧
      (¬ isContinuation (str "M foo.txt") → es = [⟨65, str "foo.txt", []⟩])) ∧
    parseGGStatus (str "A foo.txt\nM foo.txt\n  bar.txt\n") =
      .ok ([⟨65, str "foo.txt", []⟩],
        [.duplicate 2 (str "foo.txt"), .badFrom 3 (str "bar.txt")]) :=
  ⟨(parseGGStatus_from_once [str "A foo.txt"] (str "M foo.txt") (str "  bar.txt")
      [⟨65, str "foo.txt", []⟩] [] (by decide) (by decide) (by decide)
      (Or.inr (Or.inr ⟨by decide, by decide⟩))).2.1,
    by decide⟩

/-! ### The first decisive line of a listing -/

/-- The scanning loop stops at a line that is rejected or matches, if it
reaches it: the lines after it do not change the value, and the loop returns
from inside. -/
theorem scanListing_decided (ref : Str) (pre post : List Str) (l : Str)
    (hl : badLine l = true ∨ remoteRefOf l = ref) :
    scanListing ref (pre ++ l :: post) = scanListing ref (pre ++ [l]) ∧
      ∃ r, scanListing ref (pre ++ [l]) = some r := by
  induction pre with
  | nil =>
    simp only [List.nil_append, scanListing]
    by_cases hb : badLine l = true
    · rw [if_pos hb, if_pos hb]; exact ⟨rfl, _, rfl⟩
    · have hm : remoteRefOf l = ref := by
        rcases hl with h | h
        · exact absurd h hb
        · exact h
      rw [if_neg hb, if_neg hb, if_pos hm, if_pos hm]; exact ⟨rfl, _, rfl⟩
  | cons x pre ih =>
    simp only [List.cons_append, scanListing]
    by_cases hb : badLine x = true
    · rw [if_pos hb, if_pos hb]; exact ⟨rfl, _, rfl⟩
    · rw [if_neg hb, if_neg hb]
      by_cases hm : remoteRefOf x = ref
      · rw [if_pos hm, if_pos hm]; exact ⟨rfl, _, rfl⟩
      · rw [if_neg hm, if_neg hm]; exact ih

/-- The scanning loop returns at the first line that is rejected or matches:
the malformed-listing error when that line is rejected, the nil error
otherwise. -/
theorem scanListing_first (ref : Str) (pre post : List Str) (l : Str)
    (hl : badLine l = true ∨ remoteRefOf l = ref)
    (hpre : ∀ x ∈ pre, badLine x = false ∧ remoteRefOf x ≠ ref) :
    scanListing ref (pre ++ l :: post) =
      some (if badLine l = true then .error .malformedListing else .ok ()) := by
  induction pre with
  | nil =>
    simp only [List.nil_append, scanListing]
    by_cases hb : badLine l = true
    · rw [if_pos hb, if_pos hb]
    · have hm : remoteRefOf l = ref := by
        rcases hl with h | h
        · exact absurd h hb
        · exact h
      rw [if_neg hb, if_neg hb, if_pos hm]
  | cons x pre ih =>
    obtain ⟨hb, hm⟩ := hpre x (List.mem_cons_self _ _)
    simp only [List.cons_append, scanListing]
    rw [if_neg (by rw [hb]; decide), if_neg hm]
    exact ih (fun y hy => hpre y (List.mem_cons_of_mem _ hy))

/-- Claim C28: when a listing contains a line that is malformed or matches
the target ref, `verifyRemoteRef` returns on the whole listing what it returns
on the listing cut off after that line, whatever lines follow and however the
scanner and the process end; when no earlier line is malformed or matches, the
result is the malformed-listing error if that line is malformed and the nil
error if it matches. -/
theorem verifyRemoteRef_first_decisive (git git1 : Git) (remote ref : Str)
    (pre post : List Str) (l : Str)
    (hstart : (git1.lsRemote remote ref).startErr = (git.lsRemote remote ref).startErr)
    (hlines : (git.lsRemote remote ref).lines = pre ++ l :: post)
    (hshort : (git1.lsRemote remote ref).lines = pre ++ [l])
    (hl : badLine l = true ∨ remoteRefOf l = ref) :
    verifyRemoteRef git remote ref = verifyRemoteRef git1 remote ref ∧
      ((git.lsRemote remote ref).startErr = none →
        (∀ x ∈ pre, badLine x = false ∧ remoteRefOf x ≠ ref) →
        verifyRemoteRef git remote ref =
          (if badLine l = true then .error .malformedListing else .ok (),
            [.lsRemote remote ref])) := by
  obtain ⟨hcut, r, hr⟩ := scanListing_decided ref pre post l hl
  refine ⟨?_, ?_⟩
  · unfold verifyRemoteRef
    dsimp only
    rw [hstart, hlines, hshort, hcut, hr]
  · intro hs hpre
    unfold verifyRemoteRef
    dsimp only
    rw [hs, hlines, scanListing_first ref pre post l hl hpre]

/-- Witness of C28: a matching line followed by a malformed line gives the
nil error, as the matching line alone does; a malformed line followed by a
matching line gives the malformed-listing error. -/
theorem verifyRemoteRef_first_decisive_witness :
    verifyRemoteRef (gitOf (fun _ => []) [] ⟨none, [mainLine, str "garbage"], true, none⟩)
        (str "origin") (str "refs/heads/main")
      = verifyRemoteRef (gitOf (fun _ => []) [] ⟨none, [mainLine], false, none⟩)
        (str "origin") (str "refs/heads/main") ∧
    (verifyRemoteRef (gitOf (fun _ => []) [] ⟨none, [mainLine, str "garbage"], true, none⟩)
        (str "origin") (str "refs/heads/main")).1 = .ok () ∧
    (verifyRemoteRef (gitOf (fun _ => []) [] ⟨none, [str "garbage", mainLine], false, none⟩)
        (str "origin") (str "refs/heads/main")).1 = .error .malformedListing :=
  ⟨(verifyRemoteRef_first_decisive
      (gitOf (fun _ => []) [] ⟨none, [mainLine, str "garbage"], true, none⟩)
      (gitOf (fun _ => []) [] ⟨none, [mainLine], false, none⟩)
      (str "origin") (str "refs/heads/main") [] [str "garbage"] mainLine rfl rfl rfl
      (Or.inr (by decide))).1,
    by decide, by decide⟩

/-- When only the final `p.Wait()` fails, `inferCommitFiles` returns the
error of `p.Wait()` together with the argument list followed by the selected
paths (commit.go line 118). -/
theorem inferCommitFiles_waitErr (run : StatusRun) (files : List Str) (w : Str)
    (hstart : run.startErr = none) (hread : run.readErr = none)
    (hwait : run.waitErr = some w)
    (hhandled : ∀ ent ∈ run.entries, ent.handled = true)
    (hun : ∀ ent ∈ run.entries, ent.countedUnmerged = false)
    (hsel : ∃ ent ∈ run.entries, ent.selected = true)
    (hstaged : ∀ ent ∈ run.entries, ent.stagedMissing = false) :
    inferCommitFiles run files
      = some (files ++ selectedPaths run.entries, some (.wait w)) := by
  rw [inferCommitFiles_started run files hstart hhandled, hread, hwait]
  dsimp only
  have hp : selectedPaths run.entries ≠ [] := by
    intro h
    obtain ⟨ent, hmem, he⟩ := hsel
    rw [(selectedPaths_eq_nil _).1 h ent hmem] at he
    cases he
  rw [if_neg (not_not.2 ((countP_eq_zero_bool _ _).2 hun)), if_neg hp,
    if_neg (not_not.2 ((countP_eq_zero_bool _ _).2 hstaged))]
  rfl

end GG
